import Mathlib

/-!
# gwsto: reconciliation of a template directory with `templates.csv`

A shallow embedding of `src/filter.cpp`, `src/file.cpp` and the reconciliation
engine of `src/gwsto.cpp`, followed by theorems about it.

* `std::string` and `std::wstring` are lists of code units (`Nat`).
* the class of `utf_converter` belongs to the C++ standard library: the
  functions that call it take a `wstring_convert`, whose two conversions give
  `none` when the call throws. The program catches no exception, so a `none`
  ends the run; `utf_converter` is the conversion between well-formed UTF-8
  and UTF-16.
* the messages that the program prints are not part of the model, but the
  conversion of the path that `do_pack` and `do_unpack` make for them is:
  `application.do_pack` and `application.do_unpack` are the handlers when
  their messages are printed, and `application.context` adds the exception.
* `std::vector<command*>` is a `List command`; the pointer returned by
  `command_list::merge` is the index of the record in that list.
* the C runtime calls (`_wfopen_s`, `fread`, `fwrite`, `_wremove`, `_wmkdir`,
  `FindFirstFileExW`) are the fields of a structure `crt`, so that every
  handler is defined for every behaviour of the file system; `map_crt` is the
  file tree as an explicit map.
* the constructor of `std::wregex` is a parameter, `regex_constructor`;
  `wregex_model` gives it for the patterns made of ordinary characters, `.`,
  `*` and escaped special characters.
-/

namespace gwsto

/-! ## Strings -/

/-- A `std::string`: a sequence of bytes. -/
abbrev std_string := List Nat

/-- A `std::wstring`: a sequence of `wchar_t` code units. -/
abbrev std_wstring := List Nat

/-- The line feed, `'\n'`. -/
def LF : Nat := 10

/-- The carriage return, `'\r'`. -/
def CR : Nat := 13

/-- The comma, `','`. -/
def COMMA : Nat := 44

/-- The path separator, `'/'`. -/
def SLASH : Nat := 47

/-- The code units of a literal, for writing concrete inputs. -/
def lit (s : String) : List Nat := s.toList.map Char.toNat

/-- The class `std::wstring_convert`, of which `utf_converter` is an object:
its two member functions, `none` when the call throws `std::range_error`. -/
structure wstring_convert where
  from_bytes : std_string → Option std_wstring
  to_bytes : std_wstring → Option std_string

/-- Whether a byte continues a UTF-8 sequence: `10xxxxxx`. -/
def utf8_continuation (b : Nat) : Bool :=
  decide (128 ≤ b) && decide (b < 192)

/-- The UTF-16 code units of a code point: itself, or a surrogate pair. -/
def utf16_units (c : Nat) : List Nat :=
  if c < 65536 then [c]
  else [55296 + (c - 65536) / 1024, 56320 + (c - 65536) % 1024]

/-- The UTF-8 bytes of a code point. -/
def utf8_bytes (c : Nat) : List Nat :=
  if c < 128 then [c]
  else if c < 2048 then [192 + c / 64, 128 + c % 64]
  else if c < 65536 then [224 + c / 4096, 128 + c / 64 % 64, 128 + c % 64]
  else [240 + c / 262144, 128 + c / 4096 % 64, 128 + c / 64 % 64, 128 + c % 64]

/-- The facet `std::codecvt_utf8_utf16<wchar_t>` read from bytes, one byte at
a time: `need` bytes of the current sequence are still to come, `acc` holds
its bits so far and `low` is the smallest code point that a sequence of its
length may give. Well-formed UTF-8 gives its UTF-16 code units, anything else
is an error. -/
def utf8_scan : Nat → Nat → Nat → std_string → Option std_wstring
  | need, _, _, [] => if need = 0 then some [] else none
  | need, acc, low, b :: rest =>
    if need = 0 then
      if b < 128 then (utf8_scan 0 0 0 rest).map (fun t => b :: t)
      else if b < 194 then none
      else if b < 224 then utf8_scan 1 (b - 192) 128 rest
      else if b < 240 then utf8_scan 2 (b - 224) 2048 rest
      else if b < 245 then utf8_scan 3 (b - 240) 65536 rest
      else none
    else if utf8_continuation b then
      let c := acc * 64 + (b - 128)
      if need = 1 then
        if decide (low ≤ c) && decide (c < 1114112)
            && !(decide (55296 ≤ c) && decide (c < 57344)) then
          (utf8_scan 0 0 0 rest).map (fun t => utf16_units c ++ t)
        else none
      else utf8_scan (need - 1) c low rest
    else none

/-- The facet `std::codecvt_utf8_utf16<wchar_t>` written to bytes, one code
unit at a time: `lead` is a leading surrogate that waits for its partner.
Well-formed UTF-16 gives its UTF-8 bytes, anything else is an error. -/
def utf16_scan : Option Nat → std_wstring → Option std_string
  | none, [] => some []
  | some _, [] => none
  | none, u :: rest =>
    if u < 55296 then (utf16_scan none rest).map (fun t => utf8_bytes u ++ t)
    else if u < 56320 then utf16_scan (some u) rest
    else if u < 57344 then none
    else if u < 65536 then (utf16_scan none rest).map (fun t => utf8_bytes u ++ t)
    else none
  | some lead, u :: rest =>
    if decide (56320 ≤ u) && decide (u < 57344) then
      (utf16_scan none rest).map
        (fun t => utf8_bytes (65536 + (lead - 55296) * 1024 + (u - 56320)) ++ t)
    else none

/-- The object `utf_converter`, a
`std::wstring_convert<std::codecvt_utf8_utf16<wchar_t>, wchar_t>` of the C++
standard library. The theorems about the program hold for every
`wstring_convert`; this one gives the concrete runs. -/
def utf_converter : wstring_convert where
  from_bytes := utf8_scan 0 0 0
  to_bytes := utf16_scan none

/-- The conversion taken as the identity. -/
def utf_identity : wstring_convert where
  from_bytes s := some s
  to_bytes s := some s

/-- A string of ASCII code units only. -/
def is_ascii (s : List Nat) : Bool :=
  s.all (fun c => decide (c < 128))

/-- The conversion leaves every ASCII string as it is, in both directions. -/
def ascii_identity (cvt : wstring_convert) : Prop :=
  ∀ s, is_ascii s = true → cvt.from_bytes s = some s ∧ cvt.to_bytes s = some s

/-- The comparison `operator<` of `std::wstring`: lexicographic on the code
units, a proper prefix being smaller. -/
def wstring_lt : std_wstring → std_wstring → Bool
  | [], [] => false
  | [], _ :: _ => true
  | _ :: _, [] => false
  | a :: as, b :: bs =>
    if a < b then true else if b < a then false else wstring_lt as bs

/-- The C function `isspace` in the "C" locale. -/
def isspace (c : Nat) : Bool :=
  c == 32 || c == 9 || c == 10 || c == 11 || c == 12 || c == 13

/-! ## `filter` (src/filter.h, src/filter.cpp) -/

/-- The struct `filter::pattern_t`: a compiled regular expression, given by
the whole-path match predicate `std::regex_match (file, r)`, and the polarity
of the rule (the member `include`). -/
structure pattern_t where
  r : std_wstring → Bool
  incl : Bool

/-- The class `filter`: the member `m_patterns`. -/
abbrev filter := List pattern_t

/-- The function `filter::includes`. -/
def filter.includes (m_patterns : filter) (file : std_wstring) : Bool :=
  match m_patterns with
  | [] => true
  | front :: _ =>
    m_patterns.foldl
      (fun included pattern => if pattern.r file then pattern.incl else included)
      (!front.incl)

/-- The decision procedure of the specification: included when there is no
rule; otherwise the polarity of the last rule that matches; otherwise the
negation of the polarity of the first rule. -/
def includes_reference (rules : List pattern_t) (path : std_wstring) : Bool :=
  match rules with
  | [] => true
  | first :: _ =>
    match (rules.filter (fun rule => rule.r path)).getLast? with
    | some rule => rule.incl
    | none => !first.incl

/-! ## `command` and `command_list` (src/gwsto.cpp) -/

/-- The enumeration `command_action`. -/
inductive command_action where
  | action_pack
  | action_unpack
  | action_remove
  | action_none
  deriving DecidableEq, Repr

/-- The conversion `int (a->action)`: the position in the enumeration. -/
def command_action.toInt : command_action → Nat
  | .action_pack => 0
  | .action_unpack => 1
  | .action_remove => 2
  | .action_none => 3

/-- The struct `command`. The constructor `command (path, depth, action)`
leaves `data` empty. -/
structure command where
  path : std_wstring
  depth : Nat
  action : command_action
  data : std_string
  deriving DecidableEq, Repr

/-- The function `command::execution_order`. -/
def command.execution_order (a b : command) : Bool :=
  if a.action.toInt < b.action.toInt then true
  else if a.action.toInt > b.action.toInt then false
  else if a.depth < b.depth then true
  else if a.depth > b.depth then false
  else wstring_lt a.path b.path

/-- The function `command::output_order`. -/
def command.output_order (a b : command) : Bool :=
  if a.depth < b.depth then true
  else if a.depth > b.depth then false
  else wstring_lt a.path b.path

/-- The call `std::sort (first, last, comp)`, as an insertion sort. The
standard leaves the relative order of equivalent elements open; the theorems
below use only that the result is an ordered permutation of the input. -/
def std_sort {α : Type} (comp : α → α → Bool) (v : List α) : List α :=
  v.insertionSort (fun a b => comp b a = false)

/-- The member `command_list::m_commands`. -/
abbrev command_list := List command

/-- The function `command_list::add`. -/
def command_list.add (m_commands : command_list) (path : std_wstring) (depth : Nat)
    (included : Bool) : command_list :=
  m_commands ++
    [⟨path, depth, if included then .action_pack else .action_remove, []⟩]

/-- The loop `for (auto ptr : m_commands) if (ptr->path == path) return ptr;`
of `command_list::merge`: the position of the first record with that path. -/
def command_list.find : command_list → std_wstring → Option Nat
  | [], _ => none
  | ptr :: rest, path =>
    if ptr.path = path then some 0 else (command_list.find rest path).map (· + 1)

/-- The function `command_list::merge`; the pointer it returns is the position
of the record in the new `m_commands`. -/
def command_list.merge (m_commands : command_list) (path : std_wstring) (depth : Nat)
    (included : Bool) : command_list × Nat :=
  match command_list.find m_commands path with
  | some i => (m_commands, i)
  | none =>
    (m_commands ++
      [⟨path, depth, if included then .action_unpack else .action_none, []⟩],
     m_commands.length)

/-- The assignment `ptr->data = data` through the pointer at position `i`. -/
def command_list.set_data : command_list → Nat → std_string → command_list
  | [], _, _ => []
  | ptr :: rest, 0, data => { ptr with data := data } :: rest
  | ptr :: rest, i + 1, data => ptr :: command_list.set_data rest i data

/-- The class `command_execution_context_interface`; `σ` is the state of the
object that implements it. A handler receives `command&` and may change it. -/
structure command_execution_context_interface (σ : Type) where
  do_pack : σ → command → command × σ
  do_unpack : σ → command → command × σ
  do_remove : σ → command → command × σ
  do_ignore : σ → command → command × σ
  do_save_db : σ → List command → σ

/-- A loop `for (auto ptr : m_commands) body (*ptr);` with the state threaded
through the calls. -/
def for_each {σ : Type} (body : σ → command → command × σ) :
    List command → σ → List command × σ
  | [], s => ([], s)
  | ptr :: rest, s =>
    let r := body s ptr
    let rs := for_each body rest r.2
    (r.1 :: rs.1, rs.2)

/-- The `switch (ptr->action)` of `command_list::run`. -/
def command_list.dispatch {σ : Type} (context : command_execution_context_interface σ)
    (s : σ) (ptr : command) : command × σ :=
  match ptr.action with
  | .action_pack => context.do_pack s ptr
  | .action_unpack => context.do_unpack s ptr
  | .action_remove => context.do_pack s ptr
  | .action_none => context.do_ignore s ptr

/-- The last loop of `command_list::run`. -/
def command_list.remove_step {σ : Type} (context : command_execution_context_interface σ)
    (s : σ) (ptr : command) : command × σ :=
  if ptr.action = .action_remove then context.do_remove s ptr else (ptr, s)

/-- The records of `command_list::run` after the first sort and the handler
loop, with the state of the context. -/
def command_list.run_handlers {σ : Type} (context : command_execution_context_interface σ)
    (m_commands : command_list) (s : σ) : command_list × σ :=
  for_each (command_list.dispatch context)
    (std_sort command.execution_order m_commands) s

/-- The vector that `command_list::run` hands to `do_save_db`. -/
def command_list.run_saved {σ : Type} (context : command_execution_context_interface σ)
    (m_commands : command_list) (s : σ) : command_list :=
  std_sort command.output_order (command_list.run_handlers context m_commands s).1

/-- The function `command_list::run`. -/
def command_list.run {σ : Type} (context : command_execution_context_interface σ)
    (m_commands : command_list) (s : σ) : command_list × σ :=
  let r := command_list.run_handlers context m_commands s
  let sorted := std_sort command.output_order r.1
  for_each (command_list.remove_step context) sorted (context.do_save_db r.2 sorted)

/-! ## The C runtime and `file` (src/file.h, src/file.cpp) -/

/-- What the C runtime reports on a stream opened with mode `rb`. -/
structure rb_stream where
  /-- The value of `ftell (fp)` after `fseek (fp, 0, SEEK_END)`. -/
  size : Nat
  /-- Whether `data.resize (size)` returns (`false`: it throws). -/
  resize_ok : Bool
  /-- The bytes that `fread` delivers, of which at most `size` are taken. -/
  bytes : std_string

/-- The calls into the C runtime and the operating system, on a file system in
state `W`; all paths are relative to `m_document_root`. -/
structure crt (W : Type) where
  /-- The call `_wfopen_s (&fp, path, L"rb")`: `none` when `fp` stays null. -/
  fopen_rb : W → std_wstring → Option rb_stream
  /-- The call `_wfopen_s (&fp, path, L"wb")` followed by `fwrite` of the bytes
  and `fclose`: `none` when `fp` stays null, else the number of bytes
  written and the new state. -/
  fopen_wb : W → std_wstring → std_string → Option (Nat × W)
  /-- The call `_wremove (path)`, whose result the program drops. -/
  wremove : W → std_wstring → W
  /-- The call `_wmkdir (path)`, whose result the program drops. -/
  wmkdir : W → std_wstring → W
  /-- The walk of `FindFirstFileExW` and `FindNextFileW` over the tree: for
  each entry that is not a directory, the `subpath` of its directory, its
  `cFileName` and the `depth` of the directory. -/
  find_files : W → List (std_wstring × std_wstring × Nat)

/-- The struct `file`. -/
structure file where
  data : std_string
  deriving DecidableEq, Repr

/-- The function `file::read`: the result and the object after the call. -/
def file.read {W : Type} (io : crt W) (w : W) (self : file) (path : std_wstring)
    (size_limit : Nat) : Bool × file :=
  match io.fopen_rb w path with
  | none => (false, self)
  | some fp =>
    if size_limit ≠ 0 ∧ fp.size > size_limit then (false, self)
    else if !fp.resize_ok then (false, self)
    else if fp.size ≠ min fp.size fp.bytes.length then (true, ⟨[]⟩)
    else (true, ⟨fp.bytes.take fp.size⟩)

/-- The function `file::write`: the result and the file system after the call. -/
def file.write {W : Type} (io : crt W) (w : W) (self : file) (path : std_wstring) :
    Bool × W :=
  match io.fopen_wb w path self.data with
  | none => (false, w)
  | some r => if self.data.length ≠ r.1 then (false, r.2) else (true, r.2)

/-! ## `application` (src/gwsto.cpp) -/

/-- The struct `stats`. -/
structure stats where
  packed : Nat
  repacked : Nat
  unpacked : Nat
  ignored : Nat
  left_out : Nat
  pack_read_errors : Nat
  unpack_write_errors : Nat
  deriving DecidableEq, Repr

/-- The state of the class `application` that the handlers use: the member
`m_stats` and the file system under `m_document_root`. -/
structure application (W : Type) where
  m_stats : stats
  tree : W
  deriving DecidableEq

/-- The name `templates.csv` of the database file. -/
def templates_csv : std_wstring := lit "templates.csv"

/-- The member `std::string::find (c)`: the position of the first `c`, `none`
for `npos`. -/
def string_find : List Nat → Nat → Option Nat
  | [], _ => none
  | x :: xs, c => if x = c then some 0 else (string_find xs c).map (· + 1)

/-- The number of `'/'` in a path: the loop
`for (wchar_t c : full_filename) if (c == L'/') ++depth;`. -/
def count_slash (full_filename : std_wstring) : Nat :=
  full_filename.foldl (fun depth c => if c = SLASH then depth + 1 else depth) 0

/-- The test of `enumerate_dir` on a file name, negated: the name has at least
four code units and the last four are `.txt`. -/
def is_txt (filename : std_wstring) : Bool :=
  !(decide (filename.length < 4) || decide (filename.drop (filename.length - 4) ≠ lit ".txt"))

/-- The function `application::enumerate_dir`, over the entries that the walk
finds. -/
def application.enumerate_dir {W : Type} (io : crt W) (m_filter : filter) (w : W)
    (m_commands : command_list) : command_list :=
  (io.find_files w).foldl
    (fun m entry =>
      if is_txt entry.2.1 then
        let full_filename := entry.1 ++ entry.2.1
        command_list.add m full_filename entry.2.2 (filter.includes m_filter full_filename)
      else m)
    m_commands

/-- The function `application::merge_command` on the line `cline`; `none`
when a conversion throws, whichever side of the assignment to `data` is
evaluated first. -/
def application.merge_command (cvt : wstring_convert) (m_filter : filter)
    (m_commands : command_list) (cline : std_string) : Option command_list :=
  if cline.isEmpty then some m_commands
  else if cline.all isspace then some m_commands
  else
    match cvt.from_bytes cline with
    | none => none
    | some wline =>
      match string_find wline COMMA with
      | none => some m_commands
      | some colon =>
        let full_filename := wline.take colon
        let depth := count_slash full_filename
        match cvt.to_bytes (wline.drop (colon + 1)) with
        | none => none
        | some data =>
          let r := command_list.merge m_commands full_filename depth
            (filter.includes m_filter full_filename)
          some (command_list.set_data r.1 r.2 data)

/-- The `do ... while (cursor < csv.data.size ())` loop of `merge_csv`, on the
text `rest` from `cursor` on; `fuel` bounds the number of rounds. An exception
of `merge_command` leaves the loop. -/
def application.merge_csv_loop (cvt : wstring_convert) (m_filter : filter) :
    Nat → std_string → command_list → Option command_list
  | 0, _, m_commands => some m_commands
  | fuel + 1, rest, m_commands =>
    match string_find rest LF with
    | none => application.merge_command cvt m_filter m_commands rest
    | some delim =>
      match application.merge_command cvt m_filter m_commands (rest.take delim) with
      | none => none
      | some m =>
        if delim + 1 < rest.length then
          application.merge_csv_loop cvt m_filter fuel (rest.drop (delim + 1)) m
        else some m

/-- The function `application::merge_csv`. Each round of the loop consumes at
least one byte, so `size + 1` rounds are enough. -/
def application.merge_csv {W : Type} (io : crt W) (cvt : wstring_convert)
    (m_filter : filter) (w : W) (m_commands : command_list) : Option command_list :=
  let r := file.read io w ⟨[]⟩ templates_csv 0
  if r.1 then
    application.merge_csv_loop cvt m_filter (r.2.data.length + 1) r.2.data m_commands
  else some m_commands

/-- The directories that `create_dir_for` makes: the prefix of `file` before
each `'/'`. -/
def create_dir_prefixes : std_wstring → std_wstring → List std_wstring
  | _, [] => []
  | done, c :: rest =>
    if c = SLASH then done :: create_dir_prefixes (done ++ [c]) rest
    else create_dir_prefixes (done ++ [c]) rest

/-- The function `application::create_dir_for`. -/
def application.create_dir_for {W : Type} (io : crt W) (w : W) (file : std_wstring) : W :=
  (create_dir_prefixes [] file).foldl io.wmkdir w

/-- The bytes that `do_pack` keeps: `std::remove_if` with
`c == '\r' || c == '\n'`, then `erase`. -/
def strip_crlf (data : std_string) : std_string :=
  data.filter (fun c => !(c == CR || c == LF))

/-- The function `application::do_pack`. -/
def application.do_pack {W : Type} (io : crt W) (a : application W) (cmd : command) :
    command × application W :=
  let st1 : stats :=
    if cmd.data.isEmpty then { a.m_stats with packed := a.m_stats.packed + 1 } else a.m_stats
  let r := file.read io a.tree ⟨[]⟩ cmd.path 0
  if !r.1 then
    (cmd, { a with m_stats := { st1 with pack_read_errors := st1.pack_read_errors + 1 } })
  else
    let f_data := strip_crlf r.2.data
    let st2 : stats :=
      if !cmd.data.isEmpty && cmd.data != f_data then
        { st1 with repacked := st1.repacked + 1 }
      else st1
    let cmd1 : command := { cmd with data := f_data }
    let st3 : stats :=
      if cmd1.data.isEmpty then { st2 with pack_read_errors := st2.pack_read_errors + 1 }
      else st2
    (cmd1, { a with m_stats := st3 })

/-- The function `application::do_unpack`. -/
def application.do_unpack {W : Type} (io : crt W) (a : application W) (cmd : command) :
    command × application W :=
  let st1 : stats := { a.m_stats with unpacked := a.m_stats.unpacked + 1 }
  let w1 := application.create_dir_for io a.tree cmd.path
  let f : file := ⟨cmd.data⟩
  let r := file.write io w1 f cmd.path
  if !r.1 then
    ({ cmd with data := f.data },
     { m_stats := { st1 with unpack_write_errors := st1.unpack_write_errors + 1 },
       tree := r.2 })
  else ({ cmd with data := f.data }, { m_stats := st1, tree := r.2 })

/-- The function `application::do_remove`. -/
def application.do_remove {W : Type} (io : crt W) (a : application W) (cmd : command) :
    command × application W :=
  (cmd, { m_stats := { a.m_stats with left_out := a.m_stats.left_out + 1 },
          tree := io.wremove a.tree cmd.path })

/-- The function `application::do_ignore`. -/
def application.do_ignore {W : Type} (a : application W) (cmd : command) :
    command × application W :=
  (cmd, { a with m_stats := { a.m_stats with ignored := a.m_stats.ignored + 1 } })

/-- The line that `do_save_db` writes for one record; `none` when the
conversion of the path throws. -/
def db_line (cvt : wstring_convert) (ptr : command) : Option std_string :=
  (cvt.to_bytes ptr.path).map (fun path => path ++ [COMMA] ++ ptr.data ++ [LF])

/-- The bytes that `do_save_db` writes: one line per record, in order; `none`
when the conversion of a path throws. -/
def db_text (cvt : wstring_convert) : List command → Option std_string
  | [] => some []
  | ptr :: rest =>
    match db_line cvt ptr with
    | none => none
    | some line => (db_text cvt rest).map (fun text => line ++ text)

/-- The function `application::do_save_db`; `none` when it throws. A file that
cannot be opened makes it return before any conversion: whether the file
opens is then asked of the runtime for a write of no bytes. -/
def application.do_save_db {W : Type} (io : crt W) (cvt : wstring_convert)
    (a : application W) (commands : List command) : Option (application W) :=
  match db_text cvt commands with
  | some text =>
    match io.fopen_wb a.tree templates_csv text with
    | none => some a
    | some r => some { a with tree := r.2 }
  | none =>
    match io.fopen_wb a.tree templates_csv [] with
    | none => some a
    | some _ => none

/-- Whether `do_pack` prints a message: `adding` for a record whose payload
is empty, `updating` for a record whose payload is not empty and differs from
the content read. -/
def application.pack_message {W : Type} (io : crt W) (a : application W)
    (cmd : command) : Bool :=
  cmd.data.isEmpty ||
    ((file.read io a.tree ⟨[]⟩ cmd.path 0).1 &&
      cmd.data != strip_crlf (file.read io a.tree ⟨[]⟩ cmd.path 0).2.data)

/-- The class `application` as a `command_execution_context_interface`. The
state is `none` once an exception has left `command_list::run`: no handler
does anything from then on. The messages of `do_pack` and `do_unpack` convert
the path of the record: when that conversion throws, the exception leaves the
handler before the record is changed. -/
def application.context {W : Type} (io : crt W) (cvt : wstring_convert) :
    command_execution_context_interface (Option (application W)) where
  do_pack s cmd :=
    match s with
    | some a =>
      if application.pack_message io a cmd && (cvt.to_bytes cmd.path).isNone then (cmd, none)
      else ((application.do_pack io a cmd).1, some (application.do_pack io a cmd).2)
    | none => (cmd, none)
  do_unpack s cmd :=
    match s with
    | some a =>
      if (cvt.to_bytes cmd.path).isNone then (cmd, none)
      else ((application.do_unpack io a cmd).1, some (application.do_unpack io a cmd).2)
    | none => (cmd, none)
  do_remove s cmd :=
    match s with
    | some a => ((application.do_remove io a cmd).1, some (application.do_remove io a cmd).2)
    | none => (cmd, none)
  do_ignore s cmd :=
    match s with
    | some a => ((application.do_ignore a cmd).1, some (application.do_ignore a cmd).2)
    | none => (cmd, none)
  do_save_db s commands :=
    match s with
    | some a => application.do_save_db io cvt a commands
    | none => none

/-- The passes of `application::run` between `load_ini` and `clean_dir`, from
an empty `m_command_list`: the records and the state at the end, `none` when
an exception ends the run. -/
def application.run {W : Type} (io : crt W) (cvt : wstring_convert) (m_filter : filter)
    (a : application W) : Option (command_list × application W) :=
  let m1 := application.enumerate_dir io m_filter a.tree []
  match application.merge_csv io cvt m_filter a.tree m1 with
  | none => none
  | some m2 =>
    let r := command_list.run (application.context io cvt) m2 (some a)
    match r.2 with
    | none => none
    | some a1 => some (r.1, a1)

/-- Two runs in a row, the second with the counters `st2` on the tree that the
first leaves. -/
def application.run_twice {W : Type} (io : crt W) (cvt : wstring_convert)
    (m_filter : filter) (a : application W) (st2 : stats) :
    Option (command_list × application W) :=
  match application.run io cvt m_filter a with
  | none => none
  | some r1 => application.run io cvt m_filter ⟨st2, r1.2.tree⟩

/-! ## The run on text that the conversion leaves as it is

These definitions serve the proofs: where the conversion changes nothing the
program does what they say (`merge_command_plain`, `run_plain`). -/

/-- What `merge_command` does with a line that the conversion leaves as it
is. -/
def plain_merge_command (m_filter : filter) (m_commands : command_list)
    (cline : std_string) : command_list :=
  if cline.isEmpty then m_commands
  else if cline.all isspace then m_commands
  else
    let wline := cline
    match string_find wline COMMA with
    | none => m_commands
    | some colon =>
      let full_filename := wline.take colon
      let depth := count_slash full_filename
      let r := command_list.merge m_commands full_filename depth
        (filter.includes m_filter full_filename)
      command_list.set_data r.1 r.2 (wline.drop (colon + 1))

/-- The loop of `merge_csv` on such lines. -/
def plain_merge_csv_loop (m_filter : filter) :
    Nat → std_string → command_list → command_list
  | 0, _, m_commands => m_commands
  | fuel + 1, rest, m_commands =>
    match string_find rest LF with
    | none => plain_merge_command m_filter m_commands rest
    | some delim =>
      let m := plain_merge_command m_filter m_commands (rest.take delim)
      if delim + 1 < rest.length then
        plain_merge_csv_loop m_filter fuel (rest.drop (delim + 1)) m
      else m

/-- The function `merge_csv` on such lines. -/
def plain_merge_csv {W : Type} (io : crt W) (m_filter : filter) (w : W)
    (m_commands : command_list) : command_list :=
  let r := file.read io w ⟨[]⟩ templates_csv 0
  if r.1 then plain_merge_csv_loop m_filter (r.2.data.length + 1) r.2.data m_commands
  else m_commands

/-- The line of a record whose path is its own encoding. -/
def plain_db_line (ptr : command) : std_string :=
  ptr.path ++ [COMMA] ++ ptr.data ++ [LF]

/-- The lines of records whose paths are their own encoding, in order. -/
def plain_db_text (commands : List command) : std_string :=
  (commands.map plain_db_line).flatten

/-- The function `do_save_db` on such records. -/
def plain_do_save_db {W : Type} (io : crt W) (a : application W)
    (commands : List command) : application W :=
  match io.fopen_wb a.tree templates_csv (plain_db_text commands) with
  | none => a
  | some r => { a with tree := r.2 }

/-- The handlers of `application`, with `do_save_db` on such records. -/
def plain_context {W : Type} (io : crt W) :
    command_execution_context_interface (application W) where
  do_pack := application.do_pack io
  do_unpack := application.do_unpack io
  do_remove := application.do_remove io
  do_ignore := application.do_ignore
  do_save_db := plain_do_save_db io

/-- The passes of `application::run` on such lines and records. -/
def plain_run {W : Type} (io : crt W) (m_filter : filter) (a : application W) :
    command_list × application W :=
  let m1 := application.enumerate_dir io m_filter a.tree []
  let m2 := plain_merge_csv io m_filter a.tree m1
  command_list.run (plain_context io) m2 a

/-! ## The file tree as an explicit map -/

/-- The file tree as a map from paths to files: `some content` is a file that
can be read, `none` a file that cannot be opened for reading. -/
abbrev file_map := List (std_wstring × Option std_string)

/-- The entry of a path, the first one if there are several. -/
def file_map.find : file_map → std_wstring → Option (Option std_string)
  | [], _ => none
  | e :: rest, path => if e.1 = path then some e.2 else file_map.find rest path

/-- The map without the entries of a path. -/
def file_map.erase (w : file_map) (path : std_wstring) : file_map :=
  w.filter (fun e => decide (e.1 ≠ path))

/-- The map with the content of a path replaced. -/
def file_map.set (w : file_map) (path : std_wstring) (content : std_string) : file_map :=
  (path, some content) :: file_map.erase w path

/-- The directory part of a path: up to the last `'/'`, which it keeps. -/
def dir_of (path : std_wstring) : std_wstring :=
  (path.reverse.dropWhile (fun c => decide (c ≠ SLASH))).reverse

/-- The file name of a path: what follows the last `'/'`. -/
def base_of (path : std_wstring) : std_wstring :=
  (path.reverse.takeWhile (fun c => decide (c ≠ SLASH))).reverse

/-- The C runtime on an explicit map: a file that can be read is read whole,
every write and every delete succeeds, directories are implicit, and the walk
finds each path once, at the depth that its separators give. -/
def map_crt : crt file_map where
  fopen_rb w path :=
    match file_map.find w path with
    | some (some content) => some ⟨content.length, true, content⟩
    | _ => none
  fopen_wb w path data := some (data.length, file_map.set w path data)
  wremove w path := file_map.erase w path
  wmkdir w _ := w
  find_files w :=
    (w.map Prod.fst).dedup.map (fun path => (dir_of path, base_of path, count_slash path))

/-- The counters at the start of a run. -/
def stats.zero : stats := ⟨0, 0, 0, 0, 0, 0, 0⟩

/-! ## Reference orders and an observer of the handler calls -/

/-- The rank of an action in the specification: Pack, Unpack, Remove, Ignore. -/
def action_rank : command_action → Nat
  | .action_pack => 0
  | .action_unpack => 1
  | .action_remove => 2
  | .action_none => 3

/-- The key `(action_rank, depth, path)` of the execution order. -/
def execution_key (c : command) : Nat × Nat × std_wstring :=
  (action_rank c.action, c.depth, c.path)

/-- The key `(depth, path)` of the output order. -/
def output_key (c : command) : Nat × std_wstring :=
  (c.depth, c.path)

/-- The lexicographic order on the keys `(depth, path)`. -/
def output_key_lt (k1 k2 : Nat × std_wstring) : Prop :=
  Prod.Lex (· < ·) (List.Lex (· < ·)) k1 k2

/-- The lexicographic order on the keys `(action_rank, depth, path)`. -/
def execution_key_lt (k1 k2 : Nat × Nat × std_wstring) : Prop :=
  Prod.Lex (· < ·) output_key_lt k1 k2

/-- One call of a member of `command_execution_context_interface`, with its
argument. -/
inductive handler_call where
  | pack (cmd : command)
  | unpack (cmd : command)
  | remove (cmd : command)
  | ignore (cmd : command)
  | save_db (commands : List command)
  deriving DecidableEq, Repr

/-- A context that only writes down the calls that it receives, in order. -/
def recorder : command_execution_context_interface (List handler_call) where
  do_pack log cmd := (cmd, log ++ [.pack cmd])
  do_unpack log cmd := (cmd, log ++ [.unpack cmd])
  do_remove log cmd := (cmd, log ++ [.remove cmd])
  do_ignore log cmd := (cmd, log ++ [.ignore cmd])
  do_save_db log commands := log ++ [.save_db commands]

/-- The call that the `switch` of `command_list::run` makes for a record. -/
def dispatch_call (ptr : command) : handler_call :=
  match ptr.action with
  | .action_pack => .pack ptr
  | .action_unpack => .unpack ptr
  | .action_remove => .pack ptr
  | .action_none => .ignore ptr

/-- A comparator is a strict weak order: irreflexive, transitive, and with a
transitive incomparability. -/
structure strict_weak {α : Type} (comp : α → α → Bool) : Prop where
  irrefl : ∀ a, comp a a = false
  trans : ∀ a b c, comp a b = true → comp b c = true → comp a c = true
  neg_trans : ∀ a b c, comp a b = false → comp b c = false → comp a c = false

/-- The comparison of two records on a number first and with `comp` on a tie,
the shape of `execution_order` and `output_order`. -/
def by_number {α : Type} (f : α → Nat) (comp : α → α → Bool) (a b : α) : Bool :=
  if f a < f b then true else if f a > f b then false else comp a b

/-! ## The database text as a list of entries -/

/-- The lines of a text: the pieces between the line feeds. -/
def split_lines : std_string → List std_string
  | [] => [[]]
  | c :: rest =>
    if c = LF then [] :: split_lines rest
    else
      match split_lines rest with
      | line :: lines => (c :: line) :: lines
      | [] => [[c]]

/-- The entry `(path, payload)` that `merge_command` reads in a line that the
conversion leaves as it is: none in a line that is empty, that holds only
white space or that has no comma; otherwise the text before the first comma
and the text after it. -/
def parse_line (cline : std_string) : Option (std_wstring × std_string) :=
  if cline.isEmpty then none
  else if cline.all isspace then none
  else
    match string_find cline COMMA with
    | none => none
    | some colon => some (cline.take colon, cline.drop (colon + 1))

/-- The entries of a database text that the conversion leaves as it is, in
the order of the lines. -/
def db_entries (text : std_string) : List (std_wstring × std_string) :=
  (split_lines text).filterMap parse_line

/-- The effect of one entry on the table: `command_list::merge` on the path,
then the assignment of the payload through the pointer. -/
def apply_entry (m_filter : filter) (m_commands : command_list)
    (e : std_wstring × std_string) : command_list :=
  let r := command_list.merge m_commands e.1 (count_slash e.1) (filter.includes m_filter e.1)
  command_list.set_data r.1 r.2 e.2

/-- The paths of the files of the explicit map that the filesystem pass
lists: each path once, with a file name in `.txt`. -/
def templates (w : file_map) : List std_wstring :=
  (w.map Prod.fst).dedup.filter (fun path => is_txt (base_of path))

/-- The entries of the database file of the explicit map, for a text that the
conversion leaves as it is; none when the file is missing or cannot be
read. -/
def stored_entries (w : file_map) : List (std_wstring × std_string) :=
  match file_map.find w templates_csv with
  | some (some text) => db_entries text
  | _ => []

/-- The record that the filesystem pass makes for a path. -/
def disk_record (m_filter : filter) (path : std_wstring) : command :=
  ⟨path, count_slash path,
    if filter.includes m_filter path then .action_pack else .action_remove, []⟩

/-- The record that the database pass makes for an entry whose path has no
record yet. -/
def stored_record (m_filter : filter) (e : std_wstring × std_string) : command :=
  ⟨e.1, count_slash e.1,
    if filter.includes m_filter e.1 then .action_unpack else .action_none, e.2⟩

/-- The assignment of the payload of an entry to a record with its path. -/
def assign_entry (e : std_wstring × std_string) (c : command) : command :=
  if c.path = e.1 then { c with data := e.2 } else c

/-- The state of the table during the database pass, `listed` being the paths
that the filesystem pass found and `done` the entries merged so far: the
paths are pairwise distinct, every listed path has a record, the depth of a
record counts the separators of its path, its payload is that of an entry
merged for its path and is empty if there is none, and its action is Pack or
Remove for a listed path and Unpack or Ignore for another path, as the filter
decides. -/
def table_ok (m_filter : filter) (listed : List std_wstring)
    (done : List (std_wstring × std_string)) (m : command_list) : Prop :=
  (m.map command.path).Nodup ∧
  (∀ p ∈ listed, p ∈ m.map command.path) ∧
  ∀ c ∈ m,
    c.depth = count_slash c.path ∧
    (c.path ∈ done.map Prod.fst → (c.path, c.data) ∈ done) ∧
    (c.path ∉ done.map Prod.fst → c.data = []) ∧
    (c.path ∈ listed →
      c.action = if filter.includes m_filter c.path then .action_pack else .action_remove) ∧
    (c.path ∉ listed → c.path ∈ done.map Prod.fst ∧
      c.action = if filter.includes m_filter c.path then .action_unpack else .action_none)

/-- The record after its handler in the first loop of `run`, on the explicit
map: the pack handler replaces the payload of a Pack or Remove record when
the file can be read, and no handler changes anything else. -/
def handled (w : file_map) (c : command) : command :=
  if c.action = .action_pack ∨ c.action = .action_remove then
    match file_map.find w c.path with
    | some (some content) => { c with data := strip_crlf content }
    | _ => c
  else c

/-- The explicit map after the writes of the unpack handler for the Unpack
records of a list, in order. -/
def unpack_writes (commands : List command) (w : file_map) : file_map :=
  commands.foldl
    (fun t c => if c.action = .action_unpack then file_map.set t c.path c.data else t) w

/-- The explicit map after the deletions of the remove handler for the Remove
records of a list, in order. -/
def remove_all (commands : List command) (w : file_map) : file_map :=
  commands.foldl
    (fun t c => if c.action = .action_remove then file_map.erase t c.path else t) w

/-- A record that a run has nothing to do for, on the explicit map: an Ignore
record, or a Pack record whose payload is not empty and is the content of its
file without CR and LF. -/
def settled (w : file_map) (c : command) : Prop :=
  c.action = .action_none ∨
  (c.action = .action_pack ∧ c.data ≠ [] ∧
    ∃ content, file_map.find w c.path = some (some content) ∧ strip_crlf content = c.data)

/-- The counters of the second are those of the first, `ignored` apart. -/
def quiet (s1 s2 : stats) : Prop :=
  s2.packed = s1.packed ∧ s2.repacked = s1.repacked ∧ s2.unpacked = s1.unpacked ∧
  s2.left_out = s1.left_out ∧ s2.pack_read_errors = s1.pack_read_errors ∧
  s2.unpack_write_errors = s1.unpack_write_errors

/-- The content with every byte 0x0D and every byte 0x0A deleted and the other
bytes kept in their order, as the specification words it. -/
def crlf_deleted : std_string → std_string
  | [] => []
  | c :: rest => if c = 13 ∨ c = 10 then crlf_deleted rest else c :: crlf_deleted rest

/-- The part of a record that is fixed when it is made: path, depth, action. -/
def command.created (c : command) : std_wstring × Nat × command_action :=
  (c.path, c.depth, c.action)

/-- The constructor `std::wregex (p, std::regex_constants::ECMAScript)` of the
standard library, taken as given: the match predicate `std::regex_match` of
the compiled expression, or the text `e.what ()` of the `std::regex_error`
that the constructor throws. -/
abbrev regex_constructor := std_wstring → Except std_string (std_wstring → Bool)

/-- The function `filter::include`: the string it returns and `m_patterns`
after the call. When the constructor of `pattern_t` throws, `emplace_back`
leaves the vector as it was. -/
def filter.include (wregex : regex_constructor) (m_patterns : filter)
    (pattern : std_wstring) : std_string × filter :=
  match wregex pattern with
  | .ok r => ([], m_patterns ++ [⟨r, true⟩])
  | .error what => (what, m_patterns)

/-- The function `filter::exclude`: the string it returns and `m_patterns`
after the call. -/
def filter.exclude (wregex : regex_constructor) (m_patterns : filter)
    (pattern : std_wstring) : std_string × filter :=
  match wregex pattern with
  | .ok r => ([], m_patterns ++ [⟨r, false⟩])
  | .error what => (what, m_patterns)

/-- The filter after the calls of `include` (polarity `true`) and `exclude`
(polarity `false`) for a sequence of rules, from an empty filter, the
returned strings being dropped as `load_ini_set_keyvalue` drops them. -/
def filter.add_rules (wregex : regex_constructor) (rules : List (std_wstring × Bool)) : filter :=
  rules.foldl
    (fun m rule =>
      if rule.2 then (filter.include wregex m rule.1).2
      else (filter.exclude wregex m rule.1).2)
    []

/-- A pattern is valid when the constructor compiles it. -/
def valid_pattern (wregex : regex_constructor) (pattern : std_wstring) : Bool :=
  match wregex pattern with
  | .ok _ => true
  | .error _ => false

/-- An atom of the part of the ECMAScript grammar that is modelled: one given
character, or `.`. -/
inductive regex_atom where
  | char (c : Nat)
  | any
  deriving DecidableEq, Repr

/-- An atom with or without the quantifier `*`. -/
structure regex_item where
  atom : regex_atom
  star : Bool
  deriving DecidableEq, Repr

/-- The characters that `.` accepts: all but the line terminators. -/
def regex_atom.accepts : regex_atom → Nat → Bool
  | .char c, x => x == c
  | .any, x => !(x == 10 || x == 13 || x == 8232 || x == 8233)

/-- The characters with a meaning of their own in the ECMAScript grammar. -/
def regex_special (c : Nat) : Bool :=
  (lit "^$\\.*+?()[]{}|").contains c

/-- The items of a pattern made of ordinary characters, `.`, `*` and escaped
special characters, read from the left, `done` being the items read so far in
reverse: `some (.ok items)` for a pattern of this part of the grammar,
`some (.error what)` where the constructor throws because `*` has nothing to
repeat, `none` for a pattern that is not modelled. -/
def regex_parse : List regex_item → std_wstring → Option (Except std_string (List regex_item))
  | done, [] => some (.ok done.reverse)
  | done, c :: rest =>
    if c = 42 then
      match done with
      | [] => some (.error (lit "regex_error(error_badrepeat)"))
      | last :: before =>
        if last.star then some (.error (lit "regex_error(error_badrepeat)"))
        else regex_parse (⟨last.atom, true⟩ :: before) rest
    else if c = 46 then regex_parse (⟨.any, false⟩ :: done) rest
    else if c = 92 then
      match rest with
      | e :: rest2 =>
        if regex_special e || e == 47 then regex_parse (⟨.char e, false⟩ :: done) rest2
        else none
      | [] => some (.error (lit "regex_error(error_escape)"))
    else if regex_special c then none
    else regex_parse (⟨.char c, false⟩ :: done) rest

/-- Whether a text is some number of characters of a starred atom followed by
a text that `next` accepts. -/
def regex_star (atom : regex_atom) (next : std_wstring → Bool) : std_wstring → Bool
  | [] => next []
  | x :: rest => next (x :: rest) || (atom.accepts x && regex_star atom next rest)

/-- The call `std::regex_match (text, r)` for a sequence of items: the whole
text is matched. -/
def regex_match : List regex_item → std_wstring → Bool
  | [], text => text.isEmpty
  | item :: items, text =>
    if item.star then regex_star item.atom (regex_match items) text
    else
      match text with
      | [] => false
      | x :: rest => item.atom.accepts x && regex_match items rest

/-- The constructor of `std::wregex` on the modelled part of the grammar; a
pattern outside it is not modelled and is given as rejected. -/
def wregex_model : regex_constructor := fun pattern =>
  match regex_parse [] pattern with
  | some (.ok items) => .ok (regex_match items)
  | some (.error what) => .error what
  | none => .error (lit "not modelled")

/-! ## Trees in ASCII -/

/-- On the explicit map, the text of the database file and the paths that the
filesystem pass lists are ASCII. -/
def ascii_tree (w : file_map) : Bool :=
  (match file_map.find w templates_csv with
    | some (some text) => is_ascii text
    | _ => true) &&
  (templates w).all is_ascii

/-- On the explicit map, the content of every file that the filesystem pass
lists and that can be read is ASCII. -/
def ascii_contents (w : file_map) : Bool :=
  (templates w).all (fun path =>
    match file_map.find w path with
    | some (some content) => is_ascii content
    | _ => true)

/-! ## A stream that delivers fewer bytes than it reports -/

/-- The explicit map with a database file that cannot be opened for writing:
every other call is that of `map_crt`. -/
def map_crt_no_save : crt file_map where
  fopen_rb := map_crt.fopen_rb
  fopen_wb w path data := if path = templates_csv then none else map_crt.fopen_wb w path data
  wremove := map_crt.wremove
  wmkdir := map_crt.wmkdir
  find_files := map_crt.find_files

/-! ## Theorems -/

theorem foldl_last_match (path : std_wstring) (rules : List pattern_t) (d : Bool) :
    rules.foldl (fun included pattern => if pattern.r path then pattern.incl else included) d
      = match (rules.filter (fun rule => rule.r path)).getLast? with
        | some rule => rule.incl
        | none => d := by
  induction rules generalizing d with
  | nil => rfl
  | cons p ps ih =>
    rw [List.foldl_cons, ih]
    by_cases hp : p.r path = true
    · simp only [List.filter_cons, hp, if_true]
      cases hq : (ps.filter (fun rule => rule.r path)) with
      | nil => rfl
      | cons q qs =>
        rw [List.getLast?_cons_cons, List.getLast?_eq_getLast _ (List.cons_ne_nil q qs)]
    · simp only [List.filter_cons, hp, if_false]
      rfl

/-- C1: `filter::includes` is the reference decision procedure on every rule
list and every path, and a filter holding one exclude rule includes exactly
the paths that the rule does not match. -/
theorem includes_eq_reference :
    (∀ (rules : filter) (path : std_wstring),
      filter.includes rules path = includes_reference rules path) ∧
    (∀ (r : std_wstring → Bool) (path : std_wstring),
      filter.includes [⟨r, false⟩] path = !(r path)) := by
  constructor
  · intro rules path
    cases rules with
    | nil => rfl
    | cons first rest =>
      show List.foldl _ _ (first :: rest) = _
      rw [foldl_last_match]
      rfl
  · intro r path
    cases h : r path <;> simp [filter.includes, h]


/-! ### The database pass on one line -/

theorem string_find_append (c : Nat) (pre post : List Nat) (h : c ∉ pre) :
    string_find (pre ++ c :: post) c = some pre.length := by
  induction pre with
  | nil => simp [string_find]
  | cons x xs ih =>
    have hx : x ≠ c := fun e => h (by simp [e])
    have hxs : c ∉ xs := fun e => h (by simp [e])
    simp [string_find, hx, ih hxs]

theorem string_find_none (c : Nat) (s : List Nat) : string_find s c = none ↔ c ∉ s := by
  induction s with
  | nil => simp [string_find]
  | cons x xs ih =>
    by_cases hx : x = c
    · simp [string_find, hx]
    · have hx2 : ¬ c = x := fun e => hx e.symm
      simp [string_find, hx, hx2, ih]

theorem find_some_get (m : command_list) (path : std_wstring) (i : Nat)
    (h : command_list.find m path = some i) : ∃ c, m[i]? = some c ∧ c.path = path := by
  induction m generalizing i with
  | nil => simp [command_list.find] at h
  | cons x xs ih =>
    by_cases hx : x.path = path
    · simp [command_list.find, hx] at h
      subst h
      exact ⟨x, by simp, hx⟩
    · cases hf : command_list.find xs path with
      | none => simp [command_list.find, hx, hf] at h
      | some j =>
        simp [command_list.find, hx, hf] at h
        subst h
        obtain ⟨c, hc, hp⟩ := ih j hf
        exact ⟨c, by simpa using hc, hp⟩

theorem find_none_iff (m : command_list) (path : std_wstring) :
    command_list.find m path = none ↔ ∀ c ∈ m, c.path ≠ path := by
  induction m with
  | nil => simp [command_list.find]
  | cons x xs ih =>
    by_cases hx : x.path = path
    · simp [command_list.find, hx]
    · simp [command_list.find, hx, ih]

theorem set_data_eq_set (m : command_list) (i : Nat) (data : std_string) (c : command)
    (h : m[i]? = some c) : command_list.set_data m i data = m.set i { c with data := data } := by
  induction m generalizing i with
  | nil => simp at h
  | cons x xs ih =>
    cases i with
    | zero =>
      simp at h
      subst h
      rfl
    | succ j =>
      simp at h
      simp [command_list.set_data, ih j h]

theorem set_data_append_last (m : command_list) (x : command) (data : std_string) :
    command_list.set_data (m ++ [x]) m.length data = m ++ [{ x with data := data }] := by
  induction m with
  | nil => rfl
  | cons y ys ih => simp [command_list.set_data, ih]

theorem count_slash_eq_count (path : std_wstring) : count_slash path = path.count SLASH := by
  have h : ∀ (l : List Nat) (n : Nat),
      l.foldl (fun depth c => if c = SLASH then depth + 1 else depth) n = n + l.count SLASH := by
    intro l
    induction l with
    | nil => intro n; simp
    | cons x xs ih =>
      intro n
      by_cases hx : x = SLASH
      · simp [List.foldl_cons, hx, ih]; omega
      · simp [List.foldl_cons, hx, ih, List.count_cons]
  simpa using h path 0

theorem enumerate_dir_eq {W : Type} (io : crt W) (m_filter : filter) (w : W)
    (m : command_list) :
    application.enumerate_dir io m_filter w m =
      m ++ ((io.find_files w).filter (fun e => is_txt e.2.1)).map
        (fun e => ⟨e.1 ++ e.2.1, e.2.2,
          if filter.includes m_filter (e.1 ++ e.2.1) then .action_pack else .action_remove,
          []⟩) := by
  unfold application.enumerate_dir
  generalize io.find_files w = l
  induction l generalizing m with
  | nil => simp
  | cons e es ih =>
    rw [List.foldl_cons, ih]
    by_cases he : is_txt e.2.1 = true
    · simp [he, command_list.add]
    · simp [he]

/-! ### The two orders -/

theorem wstring_lt_iff_lex (a b : std_wstring) :
    wstring_lt a b = true ↔ List.Lex (· < ·) a b := by
  induction a generalizing b with
  | nil =>
    cases b with
    | nil => simp [wstring_lt]
    | cons y ys => simp [wstring_lt, List.Lex.nil]
  | cons x xs ih =>
    cases b with
    | nil => simp [wstring_lt]
    | cons y ys =>
      unfold wstring_lt
      by_cases h1 : x < y
      · simp [h1, List.Lex.rel h1]
      · by_cases h2 : y < x
        · simp only [h1, h2, if_true, if_false, Bool.false_eq_true, false_iff]
          intro h
          cases h with
          | cons h => exact absurd h2 (lt_irrefl _)
          | rel h => exact h1 h
        · have hxy : x = y := by omega
          subst hxy
          simp only [h1, if_false, ih ys]
          exact List.Lex.cons_iff.symm

theorem wstring_lt_irrefl (a : std_wstring) : wstring_lt a a = false := by
  induction a with
  | nil => rfl
  | cons x xs ih => simp [wstring_lt, ih]

theorem wstring_lt_trans (a b c : std_wstring) :
    wstring_lt a b = true → wstring_lt b c = true → wstring_lt a c = true := by
  induction a generalizing b c with
  | nil =>
    cases b with
    | nil => simp [wstring_lt]
    | cons y ys =>
      cases c with
      | nil => simp [wstring_lt]
      | cons z zs => simp [wstring_lt]
  | cons x xs ih =>
    cases b with
    | nil => simp [wstring_lt]
    | cons y ys =>
      cases c with
      | nil => simp [wstring_lt]
      | cons z zs =>
        unfold wstring_lt
        intro h1 h2
        split_ifs at h1 h2 ⊢ <;> first
          | rfl
          | omega
          | contradiction
          | exact ih ys zs h1 h2

theorem wstring_lt_total (a b : std_wstring) :
    wstring_lt a b = false → wstring_lt b a = false → a = b := by
  induction a generalizing b with
  | nil =>
    cases b with
    | nil => intros; rfl
    | cons y ys => simp [wstring_lt]
  | cons x xs ih =>
    cases b with
    | nil => simp [wstring_lt]
    | cons y ys =>
      unfold wstring_lt
      intro h1 h2
      split_ifs at h1 h2
      have hxy : x = y := by omega
      rw [hxy, ih ys h1 h2]

theorem strict_weak_of_total {α : Type} (key : α → std_wstring) :
    strict_weak (fun a b => wstring_lt (key a) (key b)) where
  irrefl a := wstring_lt_irrefl (key a)
  trans a b c := wstring_lt_trans (key a) (key b) (key c)
  neg_trans a b c h1 h2 := by
    cases h3 : wstring_lt (key a) (key c) with
    | false => rfl
    | true =>
      cases h4 : wstring_lt (key b) (key a) with
      | true =>
        have h5 := wstring_lt_trans _ _ _ h4 h3
        rw [h2] at h5
        contradiction
      | false =>
        have e := wstring_lt_total _ _ h1 h4
        rw [e, h2] at h3
        contradiction

theorem strict_weak.asymm {α : Type} {comp : α → α → Bool} (h : strict_weak comp) (a b : α) :
    comp a b = true → comp b a = false := by
  intro h1
  cases h2 : comp b a with
  | false => rfl
  | true =>
    have h3 := h.trans a b a h1 h2
    rw [h.irrefl a] at h3
    contradiction

theorem strict_weak.by_number {α : Type} {comp : α → α → Bool} (h : strict_weak comp)
    (f : α → Nat) : strict_weak (by_number f comp) where
  irrefl a := by simp [gwsto.by_number, h.irrefl a]
  trans a b c := by
    unfold gwsto.by_number
    intro h1 h2
    split_ifs at h1 h2 ⊢ <;> first
      | rfl
      | omega
      | contradiction
      | exact h.trans a b c h1 h2
  neg_trans a b c := by
    unfold gwsto.by_number
    intro h1 h2
    split_ifs at h1 h2 ⊢ <;> first
      | rfl
      | omega
      | contradiction
      | exact h.neg_trans a b c h1 h2

theorem by_number_incomparable {α : Type} (comp : α → α → Bool) (f : α → Nat) (a b : α)
    (h1 : by_number f comp a b = false) (h2 : by_number f comp b a = false) :
    f a = f b ∧ comp a b = false ∧ comp b a = false := by
  unfold by_number at h1 h2
  split_ifs at h1 h2
  exact ⟨by omega, h1, h2⟩

theorem output_order_eq :
    command.output_order = by_number command.depth (fun a b => wstring_lt a.path b.path) := rfl

theorem execution_order_eq :
    command.execution_order =
      by_number (fun c => c.action.toInt) command.output_order := rfl

theorem output_order_strict_weak : strict_weak command.output_order :=
  output_order_eq ▸ (strict_weak_of_total command.path).by_number command.depth

theorem execution_order_strict_weak : strict_weak command.execution_order :=
  execution_order_eq ▸ output_order_strict_weak.by_number _

theorem output_order_incomparable (a b : command) (h1 : command.output_order a b = false)
    (h2 : command.output_order b a = false) : a.depth = b.depth ∧ a.path = b.path := by
  rw [output_order_eq] at h1 h2
  obtain ⟨hd, h3, h4⟩ := by_number_incomparable _ _ a b h1 h2
  exact ⟨hd, wstring_lt_total _ _ h3 h4⟩

theorem execution_order_incomparable (a b : command)
    (h1 : command.execution_order a b = false) (h2 : command.execution_order b a = false) :
    a.path = b.path := by
  rw [execution_order_eq] at h1 h2
  obtain ⟨_, h3, h4⟩ := by_number_incomparable _ _ a b h1 h2
  exact (output_order_incomparable a b h3 h4).2

/-! ### `std::sort` -/

theorem std_sort_perm {α : Type} (comp : α → α → Bool) (v : List α) :
    (std_sort comp v).Perm v :=
  List.perm_insertionSort _ v

theorem std_sort_sorted {α : Type} {comp : α → α → Bool} (h : strict_weak comp) (v : List α) :
    (std_sort comp v).Pairwise (fun a b => comp b a = false) := by
  haveI : IsTotal α (fun a b => comp b a = false) :=
    ⟨fun a b => by
      cases hab : comp b a with
      | false => exact Or.inl rfl
      | true => exact Or.inr (h.asymm b a hab)⟩
  haveI : IsTrans α (fun a b => comp b a = false) :=
    ⟨fun a b c hab hbc => h.neg_trans c b a hbc hab⟩
  exact List.sorted_insertionSort (fun a b => comp b a = false) v

/-- Two ordered arrangements of the same elements are equal when elements
that the order cannot tell apart are equal. -/
theorem sorted_arrangement_unique {α : Type} (r : α → α → Prop) (l1 l2 : List α)
    (hp : l1.Perm l2) (h1 : l1.Pairwise r) (h2 : l2.Pairwise r)
    (hanti : ∀ a ∈ l1, ∀ b ∈ l1, r a b → r b a → a = b) : l1 = l2 := by
  induction l1 generalizing l2 with
  | nil => exact hp.nil_eq
  | cons a t1 ih =>
    cases l2 with
    | nil => exact absurd hp.symm.nil_eq (by simp)
    | cons b t2 =>
      have hab : a = b := by
        by_contra hne
        have ha : a ∈ t2 := by
          have := hp.subset (List.mem_cons_self a t1)
          rcases List.mem_cons.1 this with e | e
          · exact absurd e hne
          · exact e
        have hb : b ∈ t1 := by
          have := hp.symm.subset (List.mem_cons_self b t2)
          rcases List.mem_cons.1 this with e | e
          · exact absurd e.symm hne
          · exact e
        exact hne (hanti a (List.mem_cons_self a t1) b (List.mem_cons_of_mem a hb)
          ((List.pairwise_cons.1 h1).1 b hb) ((List.pairwise_cons.1 h2).1 a ha))
      subst hab
      rw [ih t2 ((List.perm_cons a).1 hp) (List.pairwise_cons.1 h1).2
        (List.pairwise_cons.1 h2).2
        (fun x hx y hy => hanti x (List.mem_cons_of_mem a hx) y (List.mem_cons_of_mem a hy))]

theorem std_sort_eq_of_perm {α : Type} {comp : α → α → Bool} (h : strict_weak comp)
    (v1 v2 : List α) (hp : v1.Perm v2)
    (hanti : ∀ a ∈ v1, ∀ b ∈ v1, comp b a = false → comp a b = false → a = b) :
    std_sort comp v1 = std_sort comp v2 := by
  apply sorted_arrangement_unique (fun a b => comp b a = false)
  · exact (std_sort_perm comp v1).trans (hp.trans (std_sort_perm comp v2).symm)
  · exact std_sort_sorted h v1
  · exact std_sort_sorted h v2
  · intro a ha b hb
    exact hanti a ((std_sort_perm comp v1).subset ha) b ((std_sort_perm comp v1).subset hb)

theorem eq_of_path_eq (v : command_list) (hnd : (v.map command.path).Nodup) :
    ∀ a ∈ v, ∀ b ∈ v, a.path = b.path → a = b :=
  List.inj_on_of_nodup_map hnd

theorem by_number_iff {α : Type} (comp : α → α → Bool) (f : α → Nat) (a b : α) :
    by_number f comp a b = true ↔ f a < f b ∨ (f a = f b ∧ comp a b = true) := by
  unfold by_number
  split_ifs with h1 h2
  · simp [h1]
  · constructor
    · intro h; contradiction
    · intro h; omega
  · constructor
    · intro h; exact Or.inr ⟨by omega, h⟩
    · intro h
      rcases h with h | h
      · omega
      · exact h.2

theorem output_order_iff_key (a b : command) :
    command.output_order a b = true ↔ output_key_lt (output_key a) (output_key b) := by
  rw [output_order_eq, by_number_iff, output_key_lt, Prod.lex_def, wstring_lt_iff_lex]
  rfl

theorem toInt_eq_rank (x : command_action) : x.toInt = action_rank x := by
  cases x <;> rfl

theorem execution_order_iff_key (a b : command) :
    command.execution_order a b = true ↔
      execution_key_lt (execution_key a) (execution_key b) := by
  rw [execution_order_eq, by_number_iff, execution_key_lt, Prod.lex_def, output_order_iff_key,
    toInt_eq_rank, toInt_eq_rank]
  rfl

theorem for_each_recorder (body : command → handler_call) (l : command_list)
    (log : List handler_call) :
    for_each (fun s ptr => (ptr, s ++ [body ptr])) l log = (l, log ++ l.map body) := by
  induction l generalizing log with
  | nil => simp [for_each]
  | cons x xs ih => simp [for_each, ih]

theorem dispatch_recorder :
    command_list.dispatch recorder = fun s ptr => (ptr, s ++ [dispatch_call ptr]) := by
  funext s ptr
  unfold command_list.dispatch dispatch_call
  cases ptr.action <;> rfl

theorem pairwise_strict {α : Type} {comp : α → α → Bool} (key : α → std_wstring)
    (htotal : ∀ a b, key a ≠ key b → comp a b = true ∨ comp b a = true)
    (l : List α) (hs : l.Pairwise (fun a b => comp b a = false))
    (hnd : (l.map key).Nodup) : l.Pairwise (fun a b => comp a b = true) := by
  have hne : l.Pairwise (fun a b => key a ≠ key b) := List.pairwise_map.1 hnd
  refine (hs.and hne).imp ?_
  intro a b h
  rcases htotal a b h.2 with h3 | h3
  · exact h3
  · rw [h.1] at h3
    contradiction

theorem execution_order_total (a b : command) (h : a.path ≠ b.path) :
    command.execution_order a b = true ∨ command.execution_order b a = true := by
  cases h1 : command.execution_order a b with
  | true => exact Or.inl rfl
  | false =>
    cases h2 : command.execution_order b a with
    | true => exact Or.inr rfl
    | false => exact absurd (execution_order_incomparable a b h1 h2) h

theorem output_order_total (a b : command) (h : a.path ≠ b.path) :
    command.output_order a b = true ∨ command.output_order b a = true := by
  cases h1 : command.output_order a b with
  | true => exact Or.inl rfl
  | false =>
    cases h2 : command.output_order b a with
    | true => exact Or.inr rfl
    | false => exact absurd (output_order_incomparable a b h1 h2).2 h

theorem run_handlers_perm_eq {σ : Type} (context : command_execution_context_interface σ)
    (s : σ) (m1 m2 : command_list) (hp : m1.Perm m2) (hnd : (m1.map command.path).Nodup) :
    command_list.run_handlers context m1 s = command_list.run_handlers context m2 s := by
  unfold command_list.run_handlers
  rw [std_sort_eq_of_perm execution_order_strict_weak m1 m2 hp]
  intro a ha b hb h1 h2
  exact eq_of_path_eq m1 hnd a ha b hb (execution_order_incomparable a b h2 h1)

/-- C6: two tables that hold the same records with pairwise distinct paths,
in any two insertion orders and with any actions, hand the same vector to
`do_save_db`, so the same bytes are written, whatever the conversion, and the
whole run ends in the same state; the vector is ascending in the key `(depth, path)`, `output_order`
does not depend on the actions, and the vector is the one that `run` passes
to `do_save_db` before the removals. -/
theorem output_stability {σ : Type} (context : command_execution_context_interface σ)
    (s : σ) (m1 m2 : command_list) (hp : m1.Perm m2) (hnd : (m1.map command.path).Nodup) :
    command_list.run_saved context m1 s = command_list.run_saved context m2 s ∧
    (∀ cvt : wstring_convert, db_text cvt (command_list.run_saved context m1 s) =
      db_text cvt (command_list.run_saved context m2 s)) ∧
    command_list.run context m1 s = command_list.run context m2 s ∧
    (command_list.run_saved context m1 s).Pairwise
      (fun a b => ¬ output_key_lt (output_key b) (output_key a)) ∧
    (∀ (a b : command) (x y : command_action),
      command.output_order { a with action := x } { b with action := y } =
        command.output_order a b) ∧
    command_list.run context m1 s =
      for_each (command_list.remove_step context) (command_list.run_saved context m1 s)
        (context.do_save_db (command_list.run_handlers context m1 s).2
          (command_list.run_saved context m1 s)) := by
  have h := run_handlers_perm_eq context s m1 m2 hp hnd
  refine ⟨?_, ?_, ?_, ?_, fun _ _ _ _ => rfl, rfl⟩
  · unfold command_list.run_saved
    rw [h]
  · intro cvt
    unfold command_list.run_saved
    rw [h]
  · unfold command_list.run
    rw [h]
  · unfold command_list.run_saved
    refine (std_sort_sorted output_order_strict_weak _).imp ?_
    intro a b hab hlt
    rw [(output_order_iff_key b a).2 hlt] at hab
    contradiction

/-- C7: `execution_order` is the lexicographic order on the key
`(action_rank, depth, path)` with Pack, Unpack, Remove, Ignore in this order;
it is irreflexive and transitive and compares any two records with different
paths; and `command_list::run` calls the handlers on the records in ascending
order of the key, strictly ascending when the paths are pairwise distinct. -/
theorem execution_order_key :
    (action_rank .action_pack < action_rank .action_unpack ∧
      action_rank .action_unpack < action_rank .action_remove ∧
      action_rank .action_remove < action_rank .action_none) ∧
    (∀ a b : command, command.execution_order a b = true ↔
      execution_key_lt (execution_key a) (execution_key b)) ∧
    (∀ a : command, command.execution_order a a = false) ∧
    (∀ a b c : command, command.execution_order a b = true →
      command.execution_order b c = true → command.execution_order a c = true) ∧
    (∀ a b : command, a.path ≠ b.path →
      command.execution_order a b = true ∨ command.execution_order b a = true) ∧
    (∀ m : command_list, ∃ order : command_list,
      order.Perm m ∧
      order.Pairwise
        (fun a b => ¬ execution_key_lt (execution_key b) (execution_key a)) ∧
      ((m.map command.path).Nodup → order.Pairwise
        (fun a b => execution_key_lt (execution_key a) (execution_key b))) ∧
      (∀ (σ : Type) (context : command_execution_context_interface σ) (s : σ),
        command_list.run_handlers context m s =
          for_each (command_list.dispatch context) order s) ∧
      (command_list.run_handlers recorder m []).2 = order.map dispatch_call) := by
  refine ⟨by decide, execution_order_iff_key, execution_order_strict_weak.irrefl,
    execution_order_strict_weak.trans, execution_order_total, ?_⟩
  intro m
  have hs := std_sort_sorted execution_order_strict_weak m
  refine ⟨std_sort command.execution_order m, std_sort_perm _ m, ?_, ?_, fun _ _ _ => rfl, ?_⟩
  · refine hs.imp ?_
    intro a b hab hlt
    rw [(execution_order_iff_key b a).2 hlt] at hab
    contradiction
  · intro hnd
    have hnd2 : ((std_sort command.execution_order m).map command.path).Nodup :=
      ((std_sort_perm command.execution_order m).map command.path).nodup_iff.2 hnd
    refine (pairwise_strict command.path execution_order_total _ hs hnd2).imp ?_
    intro a b hab
    exact (execution_order_iff_key a b).1 hab
  · unfold command_list.run_handlers
    rw [dispatch_recorder, for_each_recorder]
    simp

/-- C7, witness: two records with different paths are compared one way or the
other. -/
theorem execution_order_key_witness :
    command.execution_order ⟨lit "b.txt", 0, .action_pack, []⟩
        ⟨lit "a.txt", 0, .action_remove, []⟩ = true ∨
      command.execution_order ⟨lit "a.txt", 0, .action_remove, []⟩
        ⟨lit "b.txt", 0, .action_pack, []⟩ = true :=
  execution_order_key.2.2.2.2.1 ⟨lit "b.txt", 0, .action_pack, []⟩
    ⟨lit "a.txt", 0, .action_remove, []⟩ (by decide)

/-! ### The pack handler -/

/-- C10, as the code has it: `do_pack` adds one to `packed` exactly when the
previous payload is empty, before the read and whatever its result, and one to
`repacked` exactly when the read succeeds and the bytes read, without CR and
LF, differ from a previous payload that is not empty; so a failed read leaves
`repacked` as it was, and `packed` as it was if the previous payload was not
empty. -/
theorem do_pack_counters (W : Type) (io : crt W) (a : application W) (cmd : command) :
    (application.do_pack io a cmd).2.m_stats.packed =
      a.m_stats.packed + (if cmd.data = [] then 1 else 0) ∧
    (application.do_pack io a cmd).2.m_stats.repacked =
      a.m_stats.repacked +
        (if (file.read io a.tree ⟨[]⟩ cmd.path 0).1 = true ∧ cmd.data ≠ [] ∧
            cmd.data ≠ strip_crlf (file.read io a.tree ⟨[]⟩ cmd.path 0).2.data
          then 1 else 0) ∧
    ((file.read io a.tree ⟨[]⟩ cmd.path 0).1 = false →
      (application.do_pack io a cmd).2.m_stats.repacked = a.m_stats.repacked ∧
      (cmd.data ≠ [] →
        (application.do_pack io a cmd).2.m_stats.packed = a.m_stats.packed)) := by
  unfold application.do_pack
  cases hr : (file.read io a.tree ⟨[]⟩ cmd.path 0).1 <;>
    by_cases he : cmd.data = [] <;>
    by_cases hd : cmd.data = strip_crlf (file.read io a.tree ⟨[]⟩ cmd.path 0).2.data <;>
    by_cases hs : strip_crlf (file.read io a.tree ⟨[]⟩ cmd.path 0).2.data = [] <;>
    simp [hr, he, hd, hs, List.isEmpty_iff]

/-- C10, witness: a failed read on a record that holds `OLD` changes neither
`repacked` nor `packed`. -/
theorem do_pack_counters_witness :
    (application.do_pack map_crt ⟨stats.zero, [(lit "a.txt", none)]⟩
        ⟨lit "a.txt", 0, .action_pack, lit "OLD"⟩).2.m_stats.repacked = stats.zero.repacked ∧
      ((lit "OLD" : std_string) ≠ [] →
        (application.do_pack map_crt ⟨stats.zero, [(lit "a.txt", none)]⟩
          ⟨lit "a.txt", 0, .action_pack, lit "OLD"⟩).2.m_stats.packed = stats.zero.packed) :=
  (do_pack_counters file_map map_crt ⟨stats.zero, [(lit "a.txt", none)]⟩
    ⟨lit "a.txt", 0, .action_pack, lit "OLD"⟩).2.2 (by decide)

/-- C10, counterexample: the file of a record with an empty payload cannot be
opened, the read fails, and `packed` goes from 0 to 1. -/
theorem do_pack_counts_failed_read :
    (file.read map_crt [(lit "a.txt", none)] ⟨[]⟩ (lit "a.txt") 0).1 = false ∧
    stats.zero.packed = 0 ∧
    (application.do_pack map_crt ⟨stats.zero, [(lit "a.txt", none)]⟩
        ⟨lit "a.txt", 0, .action_pack, []⟩).2.m_stats.packed = 1 := by
  decide

/-! ### The database text -/

theorem split_lines_ne_nil (text : std_string) : split_lines text ≠ [] := by
  induction text with
  | nil => simp [split_lines]
  | cons c rest ih =>
    unfold split_lines
    by_cases hc : c = LF
    · simp [hc]
    · simp only [hc, if_false]
      cases h : split_lines rest <;> simp

theorem split_lines_no_lf (line : std_string) (h : LF ∉ line) : split_lines line = [line] := by
  induction line with
  | nil => rfl
  | cons c rest ih =>
    have hc : c ≠ LF := fun e => h (by simp [e])
    have hr : LF ∉ rest := fun e => h (by simp [e])
    simp [split_lines, hc, ih hr]

theorem split_lines_append (line rest : std_string) (h : LF ∉ line) :
    split_lines (line ++ LF :: rest) = line :: split_lines rest := by
  induction line with
  | nil => simp [split_lines]
  | cons c cs ih =>
    have hc : c ≠ LF := fun e => h (by simp [e])
    have hr : LF ∉ cs := fun e => h (by simp [e])
    simp [split_lines, hc, ih hr]

theorem split_lines_mem (text : std_string) : ∀ line ∈ split_lines text, LF ∉ line := by
  induction text with
  | nil => simp [split_lines]
  | cons c rest ih =>
    unfold split_lines
    by_cases hc : c = LF
    · simp only [hc, if_true]
      intro line hl
      rcases List.mem_cons.1 hl with e | e
      · simp [e]
      · exact ih line e
    · simp only [hc, if_false]
      cases h : split_lines rest with
      | nil => exact absurd h (split_lines_ne_nil rest)
      | cons l ls =>
        rw [h] at ih
        intro line hl
        rcases List.mem_cons.1 hl with e | e
        · rw [e]
          intro hm
          rcases List.mem_cons.1 hm with e2 | e2
          · exact hc e2.symm
          · exact ih l (List.mem_cons_self l ls) e2
        · exact ih line (List.mem_cons_of_mem l e)

theorem string_find_some (c : Nat) (s : List Nat) (n : Nat) (h : string_find s c = some n) :
    c ∉ s.take n ∧ s = s.take n ++ c :: s.drop (n + 1) := by
  induction s generalizing n with
  | nil => simp [string_find] at h
  | cons x xs ih =>
    by_cases hx : x = c
    · simp [string_find, hx] at h
      subst h
      simp [hx]
    · cases hf : string_find xs c with
      | none => simp [string_find, hx, hf] at h
      | some j =>
        simp [string_find, hx, hf] at h
        subst h
        obtain ⟨h1, h2⟩ := ih j hf
        have hx2 : ¬ c = x := fun e => hx e.symm
        refine ⟨by simp [hx2, h1], ?_⟩
        simp only [List.take_succ_cons, List.drop_succ_cons, List.cons_append]
        rw [← h2]

theorem merge_command_eq_parse (m_filter : filter) (m : command_list) (cline : std_string) :
    plain_merge_command m_filter m cline =
      match parse_line cline with
      | none => m
      | some e => apply_entry m_filter m e := by
  unfold plain_merge_command parse_line
  by_cases h1 : cline.isEmpty = true
  · simp [h1]
  · by_cases h2 : cline.all isspace = true
    · simp [h1, h2]
    · simp only [h1, h2, if_false]
      cases string_find cline COMMA <;> rfl

theorem merge_csv_loop_eq (m_filter : filter) (fuel : Nat) (text : std_string)
    (m : command_list) (hfuel : text.length < fuel) :
    plain_merge_csv_loop m_filter fuel text m =
      (split_lines text).foldl (plain_merge_command m_filter) m := by
  induction fuel generalizing text m with
  | zero => omega
  | succ fuel ih =>
    unfold plain_merge_csv_loop
    cases hf : string_find text LF with
    | none =>
      rw [split_lines_no_lf text ((string_find_none LF text).1 hf)]
      rfl
    | some delim =>
      obtain ⟨h1, h2⟩ := string_find_some LF text delim hf
      have hsplit : split_lines text =
          text.take delim :: split_lines (text.drop (delim + 1)) := by
        conv_lhs => rw [h2]
        exact split_lines_append _ _ h1
      rw [hsplit, List.foldl_cons]
      by_cases hlt : delim + 1 < text.length
      · simp only [hlt, if_true]
        apply ih
        rw [List.length_drop]
        omega
      · simp only [hlt, if_false]
        have hnil : text.drop (delim + 1) = [] := List.drop_eq_nil_of_le (by omega)
        rw [hnil]
        rfl

theorem foldl_merge_command (m_filter : filter) (lines : List std_string) (m : command_list) :
    lines.foldl (plain_merge_command m_filter) m =
      (lines.filterMap parse_line).foldl (apply_entry m_filter) m := by
  induction lines generalizing m with
  | nil => rfl
  | cons l ls ih =>
    rw [List.foldl_cons, ih, merge_command_eq_parse]
    cases h : parse_line l <;> simp [List.filterMap_cons, h]

theorem parse_line_some (cline : std_string) (e : std_wstring × std_string)
    (h : parse_line cline = some e) : COMMA ∉ e.1 ∧ cline = e.1 ++ COMMA :: e.2 := by
  unfold parse_line at h
  split_ifs at h
  cases hf : string_find cline COMMA with
  | none => simp [hf] at h
  | some colon =>
    simp only [hf, Option.some.injEq] at h
    subst h
    exact string_find_some COMMA cline colon hf

theorem parse_line_entry (path : std_wstring) (payload : std_string) (h : COMMA ∉ path) :
    parse_line (path ++ COMMA :: payload) = some (path, payload) := by
  have hne : (path ++ COMMA :: payload).isEmpty = false := by
    cases path <;> rfl
  have hsp : (path ++ COMMA :: payload).all isspace = false := by
    rw [List.all_eq_false]
    exact ⟨COMMA, by simp, by decide⟩
  have hdrop : (path ++ COMMA :: payload).drop (path.length + 1) = payload := by
    rw [← List.drop_drop]
    simp
  simp [parse_line, hne, hsp, string_find_append COMMA path payload h, hdrop]

theorem db_entries_mem (text : std_string) (e : std_wstring × std_string)
    (h : e ∈ db_entries text) : COMMA ∉ e.1 ∧ LF ∉ e.1 ∧ LF ∉ e.2 := by
  unfold db_entries at h
  obtain ⟨line, hl, hp⟩ := List.mem_filterMap.1 h
  obtain ⟨h1, h2⟩ := parse_line_some line e hp
  have hlf := split_lines_mem text line hl
  rw [h2] at hlf
  refine ⟨h1, fun hm => hlf (by simp [hm]), fun hm => hlf (by simp [hm])⟩

theorem db_entries_db_text (commands : List command)
    (h : ∀ c ∈ commands, COMMA ∉ c.path ∧ LF ∉ c.path ∧ LF ∉ c.data) :
    db_entries (plain_db_text commands) = commands.map (fun c => (c.path, c.data)) := by
  unfold db_entries
  induction commands with
  | nil => rfl
  | cons c cs ih =>
    obtain ⟨h1, h2, h3⟩ := h c (List.mem_cons_self c cs)
    have hline : LF ∉ c.path ++ COMMA :: c.data := by
      intro hm
      rcases List.mem_append.1 hm with e | e
      · exact h2 e
      · rcases List.mem_cons.1 e with e2 | e2
        · exact absurd e2 (by decide)
        · exact h3 e2
    have htext : plain_db_text (c :: cs) = (c.path ++ COMMA :: c.data) ++ LF :: plain_db_text cs := by
      simp [plain_db_text, plain_db_line]
    rw [htext, split_lines_append _ _ hline, List.filterMap_cons,
      parse_line_entry c.path c.data h1]
    simp only [List.map_cons]
    rw [ih (fun x hx => h x (List.mem_cons_of_mem c hx))]

/-! ### The explicit map -/

theorem erase_cons (e : std_wstring × Option std_string) (es : file_map) (p : std_wstring) :
    file_map.erase (e :: es) p =
      if e.1 = p then file_map.erase es p else e :: file_map.erase es p := by
  by_cases h : e.1 = p <;> simp [file_map.erase, List.filter_cons, h]

theorem find_erase (w : file_map) (p q : std_wstring) :
    file_map.find (file_map.erase w p) q = if p = q then none else file_map.find w q := by
  induction w with
  | nil => simp [file_map.erase, file_map.find]
  | cons e es ih =>
    rw [erase_cons]
    by_cases he : e.1 = p
    · rw [if_pos he, ih]
      by_cases hpq : p = q
      · rw [if_pos hpq, if_pos hpq]
      · have heq : ¬ e.1 = q := fun h => hpq (he.symm.trans h)
        simp only [file_map.find, heq, if_false]
    · rw [if_neg he]
      by_cases heq : e.1 = q
      · have hpq : ¬ p = q := fun h => he (heq.trans h.symm)
        simp only [file_map.find, heq, hpq, if_true, if_false]
      · simp only [file_map.find, heq, if_false]
        exact ih

theorem find_set (w : file_map) (p : std_wstring) (d : std_string) (q : std_wstring) :
    file_map.find (file_map.set w p d) q =
      if p = q then some (some d) else file_map.find w q := by
  unfold file_map.set
  by_cases hpq : p = q
  · simp only [file_map.find, hpq, if_true]
  · simp only [file_map.find, hpq, if_false, find_erase]

theorem find_ne_none_iff (w : file_map) (p : std_wstring) :
    file_map.find w p ≠ none ↔ p ∈ w.map Prod.fst := by
  induction w with
  | nil => simp [file_map.find]
  | cons e es ih =>
    by_cases he : e.1 = p
    · simp [file_map.find, he]
    · have he2 : ¬ p = e.1 := fun h => he h.symm
      simp only [file_map.find, he, if_false, ih, List.map_cons, List.mem_cons, he2, false_or]

theorem mem_templates (w : file_map) (p : std_wstring) :
    p ∈ templates w ↔ file_map.find w p ≠ none ∧ is_txt (base_of p) = true := by
  unfold templates
  rw [List.mem_filter, List.mem_dedup, find_ne_none_iff]

theorem templates_nodup (w : file_map) : (templates w).Nodup :=
  (List.nodup_dedup _).filter _

theorem dir_base (p : std_wstring) : dir_of p ++ base_of p = p := by
  unfold dir_of base_of
  rw [← List.reverse_append, List.takeWhile_append_dropWhile, List.reverse_reverse]

theorem templates_csv_not_template : is_txt (base_of templates_csv) = false := by
  decide

theorem enumerate_dir_map (m_filter : filter) (w : file_map) (m : command_list) :
    application.enumerate_dir map_crt m_filter w m =
      m ++ (templates w).map (disk_record m_filter) := by
  rw [enumerate_dir_eq map_crt m_filter w m]
  congr 1
  unfold templates
  simp only [map_crt, List.filter_map, List.map_map]
  apply List.map_congr_left
  intro p _
  simp [disk_record, dir_base]

theorem merge_csv_map (m_filter : filter) (w : file_map) (m : command_list) :
    plain_merge_csv map_crt m_filter w m =
      (stored_entries w).foldl (apply_entry m_filter) m := by
  unfold plain_merge_csv stored_entries
  cases hf : file_map.find w templates_csv with
  | none => simp [file.read, map_crt, hf]
  | some o =>
    cases o with
    | none => simp [file.read, map_crt, hf]
    | some text =>
      have hr : file.read map_crt w ⟨[]⟩ templates_csv 0 = (true, ⟨text⟩) := by
        simp [file.read, map_crt, hf]
      rw [hr]
      simp only [if_true]
      rw [merge_csv_loop_eq m_filter _ text m (by omega), foldl_merge_command]
      rfl

/-! ### The table during the database pass -/

theorem apply_entry_eq (m_filter : filter) (m : command_list) (e : std_wstring × std_string) :
    apply_entry m_filter m e =
      match command_list.find m e.1 with
      | some i => command_list.set_data m i e.2
      | none => m ++ [stored_record m_filter e] := by
  unfold apply_entry command_list.merge
  cases hf : command_list.find m e.1 with
  | some i => rfl
  | none => exact set_data_append_last m _ e.2

theorem set_data_find (m : command_list) (e : std_wstring × std_string) (i : Nat)
    (hnd : (m.map command.path).Nodup) (h : command_list.find m e.1 = some i) :
    command_list.set_data m i e.2 = m.map (assign_entry e) := by
  induction m generalizing i with
  | nil => simp [command_list.find] at h
  | cons x xs ih =>
    rw [List.map_cons, List.nodup_cons] at hnd
    by_cases hx : x.path = e.1
    · simp [command_list.find, hx] at h
      subst h
      have hrest : xs.map (assign_entry e) = xs := by
        conv_rhs => rw [← List.map_id xs]
        apply List.map_congr_left
        intro c hc
        have : c.path ≠ e.1 := fun h2 => hnd.1 (by rw [hx, ← h2]; exact List.mem_map_of_mem _ hc)
        simp [assign_entry, this]
      simp [command_list.set_data, assign_entry, hx, hrest]
    · cases hf : command_list.find xs e.1 with
      | none => simp [command_list.find, hx, hf] at h
      | some j =>
        simp [command_list.find, hx, hf] at h
        subst h
        simp [command_list.set_data, ih j hnd.2 hf, assign_entry, hx]

theorem apply_entry_cases (m_filter : filter) (m : command_list)
    (e : std_wstring × std_string) (hnd : (m.map command.path).Nodup) :
    (e.1 ∈ m.map command.path ∧ apply_entry m_filter m e = m.map (assign_entry e)) ∨
    (e.1 ∉ m.map command.path ∧ apply_entry m_filter m e = m ++ [stored_record m_filter e]) := by
  rw [apply_entry_eq]
  cases hf : command_list.find m e.1 with
  | none =>
    right
    refine ⟨?_, rfl⟩
    intro hm
    obtain ⟨c, hc, hp⟩ := List.mem_map.1 hm
    exact (find_none_iff m e.1).1 hf c hc hp
  | some i =>
    left
    obtain ⟨c, hc, hp⟩ := find_some_get m e.1 i hf
    refine ⟨?_, set_data_find m e i hnd hf⟩
    rw [← hp]
    exact List.mem_map_of_mem _ (List.getElem?_mem hc)

theorem map_path_assign (m : command_list) (e : std_wstring × std_string) :
    (m.map (assign_entry e)).map command.path = m.map command.path := by
  rw [List.map_map]
  apply List.map_congr_left
  intro c _
  unfold assign_entry
  by_cases h : c.path = e.1 <;> simp [h]

theorem table_ok_init (m_filter : filter) (listed : List std_wstring) (hnd : listed.Nodup) :
    table_ok m_filter listed [] (listed.map (disk_record m_filter)) := by
  have hpath : (listed.map (disk_record m_filter)).map command.path = listed := by
    rw [List.map_map]
    conv_rhs => rw [← List.map_id listed]
    apply List.map_congr_left
    intro p _
    rfl
  refine ⟨by rw [hpath]; exact hnd, by rw [hpath]; exact fun p hp => hp, ?_⟩
  intro c hc
  obtain ⟨p, hp, rfl⟩ := List.mem_map.1 hc
  refine ⟨rfl, by simp, fun _ => rfl, fun _ => rfl, fun h => absurd hp h⟩

theorem table_ok_keep (m_filter : filter) (listed : List std_wstring)
    (done : List (std_wstring × std_string)) (e : std_wstring × std_string) (c : command)
    (hne : c.path ≠ e.1)
    (h : c.depth = count_slash c.path ∧
      (c.path ∈ done.map Prod.fst → (c.path, c.data) ∈ done) ∧
      (c.path ∉ done.map Prod.fst → c.data = []) ∧
      (c.path ∈ listed →
        c.action = if filter.includes m_filter c.path then .action_pack else .action_remove) ∧
      (c.path ∉ listed → c.path ∈ done.map Prod.fst ∧
        c.action = if filter.includes m_filter c.path then .action_unpack else .action_none)) :
    c.depth = count_slash c.path ∧
      (c.path ∈ (done ++ [e]).map Prod.fst → (c.path, c.data) ∈ done ++ [e]) ∧
      (c.path ∉ (done ++ [e]).map Prod.fst → c.data = []) ∧
      (c.path ∈ listed →
        c.action = if filter.includes m_filter c.path then .action_pack else .action_remove) ∧
      (c.path ∉ listed → c.path ∈ (done ++ [e]).map Prod.fst ∧
        c.action = if filter.includes m_filter c.path then .action_unpack else .action_none) := by
  obtain ⟨h1, h2, h3, h4, h5⟩ := h
  refine ⟨h1, ?_, ?_, h4, ?_⟩
  · intro hm
    rw [List.map_append, List.mem_append] at hm
    rcases hm with hm | hm
    · exact List.mem_append_left _ (h2 hm)
    · simp at hm
      exact absurd hm hne
  · intro hm
    apply h3
    intro hd
    exact hm (by rw [List.map_append]; exact List.mem_append_left _ hd)
  · intro hl
    obtain ⟨h6, h7⟩ := h5 hl
    exact ⟨by rw [List.map_append]; exact List.mem_append_left _ h6, h7⟩

theorem table_ok_step (m_filter : filter) (listed : List std_wstring)
    (done : List (std_wstring × std_string)) (m : command_list)
    (e : std_wstring × std_string) (h : table_ok m_filter listed done m) :
    table_ok m_filter listed (done ++ [e]) (apply_entry m_filter m e) := by
  obtain ⟨hnd, hl, hc⟩ := h
  have hlast : e.1 ∈ (done ++ [e]).map Prod.fst := by simp
  rcases apply_entry_cases m_filter m e hnd with ⟨_, heq⟩ | ⟨hnot, heq⟩
  · rw [heq]
    refine ⟨by rw [map_path_assign]; exact hnd, by rw [map_path_assign]; exact hl, ?_⟩
    intro c' hc'
    obtain ⟨c, hcm, rfl⟩ := List.mem_map.1 hc'
    by_cases hp : c.path = e.1
    · obtain ⟨h1, _, _, h4, h5⟩ := hc c hcm
      have ha : assign_entry e c = { c with data := e.2 } := by simp [assign_entry, hp]
      rw [ha]
      refine ⟨h1, ?_, ?_, h4, ?_⟩
      · intro _
        show (c.path, e.2) ∈ done ++ [e]
        rw [hp]
        simp
      · intro hm
        exact absurd (hp ▸ hlast) hm
      · intro hn
        exact ⟨hp ▸ hlast, (h5 hn).2⟩
    · have ha : assign_entry e c = c := by simp [assign_entry, hp]
      rw [ha]
      exact table_ok_keep m_filter listed done e c hp (hc c hcm)
  · rw [heq]
    refine ⟨?_, ?_, ?_⟩
    · rw [List.map_append, List.map_singleton]
      refine List.Nodup.append hnd (List.nodup_singleton _) ?_
      intro p hp1 hp2
      rw [List.mem_singleton] at hp2
      rw [hp2] at hp1
      exact hnot hp1
    · intro p hp
      rw [List.map_append]
      exact List.mem_append_left _ (hl p hp)
    · intro c hcm
      rcases List.mem_append.1 hcm with hcm | hcm
      · have hp : c.path ≠ e.1 := fun h2 => hnot (h2 ▸ List.mem_map_of_mem _ hcm)
        exact table_ok_keep m_filter listed done e c hp (hc c hcm)
      · rw [List.mem_singleton] at hcm
        subst hcm
        refine ⟨rfl, fun _ => by simp [stored_record], fun hm => absurd hlast hm, ?_, ?_⟩
        · intro hin
          exact absurd (hl _ hin) hnot
        · intro _
          exact ⟨hlast, rfl⟩

theorem table_ok_fold (m_filter : filter) (listed : List std_wstring)
    (entries done : List (std_wstring × std_string)) (m : command_list)
    (h : table_ok m_filter listed done m) :
    table_ok m_filter listed (done ++ entries) (entries.foldl (apply_entry m_filter) m) := by
  induction entries generalizing done m with
  | nil => simpa using h
  | cons e es ih =>
    have h2 := ih (done ++ [e]) (apply_entry m_filter m e)
      (table_ok_step m_filter listed done m e h)
    simpa using h2

/-- The table of the explicit map after the two passes. -/
theorem passes_table_ok (m_filter : filter) (w : file_map) :
    table_ok m_filter (templates w) (stored_entries w)
      (plain_merge_csv map_crt m_filter w
        (application.enumerate_dir map_crt m_filter w [])) := by
  rw [enumerate_dir_map, merge_csv_map, List.nil_append]
  have h := table_ok_fold m_filter (templates w) (stored_entries w) [] _
    (table_ok_init m_filter (templates w) (templates_nodup w))
  simpa using h

/-! ### The handlers on the explicit map -/

theorem read_map (w : file_map) (p : std_wstring) :
    file.read map_crt w ⟨[]⟩ p 0 =
      match file_map.find w p with
      | some (some content) => (true, ⟨content⟩)
      | _ => (false, ⟨[]⟩) := by
  unfold file.read
  cases hf : file_map.find w p with
  | none => simp [map_crt, hf]
  | some o =>
    cases o with
    | none => simp [map_crt, hf]
    | some content => simp [map_crt, hf]

theorem create_dir_for_map (w : file_map) (p : std_wstring) :
    application.create_dir_for map_crt w p = w := by
  unfold application.create_dir_for
  generalize create_dir_prefixes [] p = l
  induction l with
  | nil => rfl
  | cons x xs ih => exact ih

theorem do_unpack_map (a : application file_map) (c : command) :
    application.do_unpack map_crt a c =
      (c, ⟨{ a.m_stats with unpacked := a.m_stats.unpacked + 1 },
           file_map.set a.tree c.path c.data⟩) := by
  unfold application.do_unpack
  rw [create_dir_for_map]
  simp [file.write, map_crt]

theorem do_pack_map_cmd (a : application file_map) (c : command) :
    (application.do_pack map_crt a c).1 =
      match file_map.find a.tree c.path with
      | some (some content) => { c with data := strip_crlf content }
      | _ => c := by
  unfold application.do_pack
  rw [read_map]
  cases hf : file_map.find a.tree c.path with
  | none => rfl
  | some o =>
    cases o with
    | none => rfl
    | some content => rfl

theorem do_pack_tree {W : Type} (io : crt W) (a : application W) (c : command) :
    (application.do_pack io a c).2.tree = a.tree := by
  unfold application.do_pack
  cases h : (file.read io a.tree ⟨[]⟩ c.path 0).1 <;> simp [h]

theorem dispatch_map_cmd (a : application file_map) (c : command) :
    (command_list.dispatch (plain_context map_crt) a c).1 = handled a.tree c := by
  have hp := do_pack_map_cmd a c
  unfold command_list.dispatch handled
  cases hc : c.action
  · rw [hc] at hp
    simp only [plain_context, true_or, if_true]
    exact hp
  · simp [plain_context, do_unpack_map]
  · rw [hc] at hp
    simp only [plain_context, or_true, if_true]
    exact hp
  · simp [plain_context, application.do_ignore]

theorem dispatch_map_tree (a : application file_map) (c : command) :
    (command_list.dispatch (plain_context map_crt) a c).2.tree =
      if c.action = .action_unpack then file_map.set a.tree c.path c.data else a.tree := by
  unfold command_list.dispatch
  cases hc : c.action
  · simp only [plain_context, if_false, reduceCtorEq]
    exact do_pack_tree map_crt a c
  · simp [plain_context, do_unpack_map]
  · simp only [plain_context, if_false, reduceCtorEq]
    exact do_pack_tree map_crt a c
  · simp [plain_context, application.do_ignore]

theorem handled_path (w : file_map) (c : command) : (handled w c).path = c.path := by
  unfold handled
  split_ifs
  · cases hf : file_map.find w c.path with
    | none => rfl
    | some o => cases o <;> rfl
  · rfl

theorem handled_action (w : file_map) (c : command) : (handled w c).action = c.action := by
  unfold handled
  split_ifs
  · cases hf : file_map.find w c.path with
    | none => rfl
    | some o => cases o <;> rfl
  · rfl

theorem handled_depth (w : file_map) (c : command) : (handled w c).depth = c.depth := by
  unfold handled
  split_ifs
  · cases hf : file_map.find w c.path with
    | none => rfl
    | some o => cases o <;> rfl
  · rfl

theorem handled_congr (w1 w2 : file_map) (c : command)
    (h : file_map.find w1 c.path = file_map.find w2 c.path) : handled w1 c = handled w2 c := by
  unfold handled
  rw [h]

theorem for_each_dispatch_map (l : command_list) (a : application file_map)
    (hnd : (l.map command.path).Nodup) :
    (for_each (command_list.dispatch (plain_context map_crt)) l a).1 =
        l.map (handled a.tree) ∧
      (for_each (command_list.dispatch (plain_context map_crt)) l a).2.tree =
        unpack_writes l a.tree := by
  induction l generalizing a with
  | nil => exact ⟨rfl, rfl⟩
  | cons c cs ih =>
    rw [List.map_cons, List.nodup_cons] at hnd
    obtain ⟨h1, h2⟩ := ih (command_list.dispatch (plain_context map_crt) a c).2 hnd.2
    have htree := dispatch_map_tree a c
    constructor
    · show (_ :: _) = _
      rw [h1, dispatch_map_cmd, List.map_cons]
      congr 1
      apply List.map_congr_left
      intro x hx
      apply handled_congr
      rw [htree]
      split_ifs
      · rw [find_set]
        have hne : c.path ≠ x.path := fun e => hnd.1 (e ▸ List.mem_map_of_mem _ hx)
        simp [hne]
      · rfl
    · show (for_each (command_list.dispatch (plain_context map_crt)) cs _).2.tree = _
      rw [h2, htree]
      rfl

theorem for_each_remove_map (l : command_list) (a : application file_map) :
    (for_each (command_list.remove_step (plain_context map_crt)) l a).1 = l ∧
      (for_each (command_list.remove_step (plain_context map_crt)) l a).2.tree =
        remove_all l a.tree := by
  induction l generalizing a with
  | nil => exact ⟨rfl, rfl⟩
  | cons c cs ih =>
    obtain ⟨h1, h2⟩ := ih (command_list.remove_step (plain_context map_crt) a c).2
    have hc : (command_list.remove_step (plain_context map_crt) a c).1 = c := by
      unfold command_list.remove_step
      split_ifs <;> rfl
    have ht : (command_list.remove_step (plain_context map_crt) a c).2.tree =
        if c.action = .action_remove then file_map.erase a.tree c.path else a.tree := by
      unfold command_list.remove_step
      split_ifs <;> rfl
    constructor
    · show (_ :: _) = _
      rw [h1, hc]
    · show (for_each (command_list.remove_step (plain_context map_crt)) cs _).2.tree = _
      rw [h2, ht]
      rfl

theorem unpack_writes_cons (x : command) (xs : command_list) (w : file_map) :
    unpack_writes (x :: xs) w =
      unpack_writes xs
        (if x.action = .action_unpack then file_map.set w x.path x.data else w) := rfl

theorem remove_all_cons (x : command) (xs : command_list) (w : file_map) :
    remove_all (x :: xs) w =
      remove_all xs (if x.action = .action_remove then file_map.erase w x.path else w) := rfl

theorem unpack_writes_other (l : command_list) (w : file_map) (q : std_wstring)
    (h : ∀ c ∈ l, c.action = .action_unpack → c.path ≠ q) :
    file_map.find (unpack_writes l w) q = file_map.find w q := by
  induction l generalizing w with
  | nil => rfl
  | cons x xs ih =>
    rw [unpack_writes_cons]
    rw [ih _ (fun c hc => h c (List.mem_cons_of_mem x hc))]
    split_ifs with hx
    · rw [find_set, if_neg (h x (List.mem_cons_self x xs) hx)]
    · rfl

theorem unpack_writes_self (l : command_list) (w : file_map) (c : command)
    (hnd : (l.map command.path).Nodup) (hc : c ∈ l) (ha : c.action = .action_unpack) :
    file_map.find (unpack_writes l w) c.path = some (some c.data) := by
  induction l generalizing w with
  | nil => simp at hc
  | cons x xs ih =>
    rw [List.map_cons, List.nodup_cons] at hnd
    rw [unpack_writes_cons]
    rcases List.mem_cons.1 hc with e | e
    · subst e
      rw [unpack_writes_other xs _ c.path
        (fun y hy _ hp => hnd.1 (hp ▸ List.mem_map_of_mem _ hy)), if_pos ha, find_set, if_pos rfl]
    · exact ih _ hnd.2 e

theorem remove_all_none (l : command_list) (w : file_map) (q : std_wstring)
    (h : file_map.find w q = none) : file_map.find (remove_all l w) q = none := by
  induction l generalizing w with
  | nil => exact h
  | cons x xs ih =>
    rw [remove_all_cons]
    apply ih
    split_ifs
    · rw [find_erase]
      split_ifs
      · rfl
      · exact h
    · exact h

theorem remove_all_other (l : command_list) (w : file_map) (q : std_wstring)
    (h : ∀ c ∈ l, c.action = .action_remove → c.path ≠ q) :
    file_map.find (remove_all l w) q = file_map.find w q := by
  induction l generalizing w with
  | nil => rfl
  | cons x xs ih =>
    rw [remove_all_cons]
    rw [ih _ (fun c hc => h c (List.mem_cons_of_mem x hc))]
    split_ifs with hx
    · rw [find_erase, if_neg (h x (List.mem_cons_self x xs) hx)]
    · rfl

theorem remove_all_self (l : command_list) (w : file_map) (c : command)
    (hc : c ∈ l) (ha : c.action = .action_remove) :
    file_map.find (remove_all l w) c.path = none := by
  induction l generalizing w with
  | nil => simp at hc
  | cons x xs ih =>
    rw [remove_all_cons]
    rcases List.mem_cons.1 hc with e | e
    · subst e
      apply remove_all_none
      rw [if_pos ha, find_erase, if_pos rfl]
    · exact ih _ e

theorem do_save_db_map (a : application file_map) (commands : List command) :
    plain_do_save_db map_crt a commands =
      { a with tree := file_map.set a.tree templates_csv (plain_db_text commands) } := rfl

/-- The result of `command_list::run` on the explicit map. -/
theorem run_map (m : command_list) (a : application file_map)
    (hnd : (m.map command.path).Nodup) :
    (command_list.run (plain_context map_crt) m a).1 =
        std_sort command.output_order
          ((std_sort command.execution_order m).map (handled a.tree)) ∧
      (command_list.run (plain_context map_crt) m a).2.tree =
        remove_all
          (std_sort command.output_order
            ((std_sort command.execution_order m).map (handled a.tree)))
          (file_map.set (unpack_writes (std_sort command.execution_order m) a.tree)
            templates_csv
            (plain_db_text (std_sort command.output_order
              ((std_sort command.execution_order m).map (handled a.tree))))) := by
  have hnd2 : ((std_sort command.execution_order m).map command.path).Nodup :=
    ((std_sort_perm command.execution_order m).map command.path).nodup_iff.2 hnd
  obtain ⟨h1, h2⟩ := for_each_dispatch_map (std_sort command.execution_order m) a hnd2
  have hr : command_list.run_handlers (plain_context map_crt) m a =
      for_each (command_list.dispatch (plain_context map_crt))
        (std_sort command.execution_order m) a := rfl
  unfold command_list.run
  simp only [hr, h1]
  obtain ⟨h3, h4⟩ := for_each_remove_map
    (std_sort command.output_order
      ((std_sort command.execution_order m).map (handled a.tree)))
    ((plain_context map_crt).do_save_db
      (for_each (command_list.dispatch (plain_context map_crt))
        (std_sort command.execution_order m) a).2
      (std_sort command.output_order
        ((std_sort command.execution_order m).map (handled a.tree))))
  refine ⟨h3, ?_⟩
  rw [h4]
  show remove_all _ (file_map.set _ _ _) = _
  rw [h2]

theorem mem_run_map (m : command_list) (a : application file_map)
    (hnd : (m.map command.path).Nodup) (c : command) :
    c ∈ (command_list.run (plain_context map_crt) m a).1 ↔
      ∃ c0 ∈ m, handled a.tree c0 = c := by
  rw [(run_map m a hnd).1, (std_sort_perm _ _).mem_iff, List.mem_map]
  constructor
  · rintro ⟨c0, h0, rfl⟩
    exact ⟨c0, (std_sort_perm _ m).mem_iff.1 h0, rfl⟩
  · rintro ⟨c0, h0, rfl⟩
    exact ⟨c0, (std_sort_perm _ m).mem_iff.2 h0, rfl⟩

/-! ### One run on the explicit map -/

theorem run_eq (m_filter : filter) (a : application file_map) :
    plain_run map_crt m_filter a =
      command_list.run (plain_context map_crt)
        (plain_merge_csv map_crt m_filter a.tree
          (application.enumerate_dir map_crt m_filter a.tree [])) a := rfl

theorem template_record (m_filter : filter) (w : file_map) (m : command_list)
    (done : List (std_wstring × std_string)) (h : table_ok m_filter (templates w) done m)
    (p : std_wstring) (hp : p ∈ templates w) :
    ∃ c0 ∈ m, c0.path = p ∧ c0.depth = count_slash p ∧
      (c0.action = if filter.includes m_filter p then .action_pack else .action_remove) ∧
      ∀ c ∈ m, c.path = p → c = c0 := by
  obtain ⟨hnd, hl, hc⟩ := h
  obtain ⟨c0, hc0, hp0⟩ := List.mem_map.1 (hl p hp)
  obtain ⟨h1, _, _, h4, _⟩ := hc c0 hc0
  refine ⟨c0, hc0, hp0, hp0 ▸ h1, ?_, ?_⟩
  · rw [← hp0]
    exact h4 (hp0 ▸ hp)
  · intro c hcm hcp
    exact eq_of_path_eq m hnd c hcm c0 hc0 (hcp.trans hp0.symm)

theorem remove_is_template (m_filter : filter) (w : file_map) (m : command_list)
    (done : List (std_wstring × std_string)) (h : table_ok m_filter (templates w) done m)
    (c : command) (hc : c ∈ m) (ha : c.action = .action_remove) : c.path ∈ templates w := by
  by_contra hn
  have h5 := ((h.2.2 c hc).2.2.2.2 hn).2
  rw [ha] at h5
  split_ifs at h5

theorem handled_readable (w : file_map) (c : command) (content : std_string)
    (ha : c.action = .action_pack ∨ c.action = .action_remove)
    (hf : file_map.find w c.path = some (some content)) :
    handled w c = { c with data := strip_crlf content } := by
  unfold handled
  rw [if_pos ha, hf]

/-! ### A run with nothing to do -/

theorem quiet_refl (s : stats) : quiet s s := ⟨rfl, rfl, rfl, rfl, rfl, rfl⟩

theorem quiet_trans (s1 s2 s3 : stats) (h1 : quiet s1 s2) (h2 : quiet s2 s3) : quiet s1 s3 := by
  unfold quiet at h1 h2 ⊢
  omega

theorem do_pack_settled (a : application file_map) (c : command) (content : std_string)
    (hd : c.data ≠ []) (hf : file_map.find a.tree c.path = some (some content))
    (hs : strip_crlf content = c.data) :
    application.do_pack map_crt a c = (c, a) := by
  have he : c.data.isEmpty = false := by
    cases hc : c.data with
    | nil => exact absurd hc hd
    | cons x xs => rfl
  unfold application.do_pack
  rw [read_map, hf]
  simp [hs, he]

theorem dispatch_settled (a : application file_map) (c : command) (h : settled a.tree c) :
    (command_list.dispatch (plain_context map_crt) a c).1 = c ∧
    (command_list.dispatch (plain_context map_crt) a c).2.tree = a.tree ∧
    quiet a.m_stats (command_list.dispatch (plain_context map_crt) a c).2.m_stats := by
  unfold command_list.dispatch
  rcases h with h | ⟨h, hd, content, hf, hs⟩
  · rw [h]
    exact ⟨rfl, rfl, rfl, rfl, rfl, rfl, rfl, rfl⟩
  · rw [h]
    show (application.do_pack map_crt a c).1 = c ∧ (application.do_pack map_crt a c).2.tree = _ ∧
      quiet _ (application.do_pack map_crt a c).2.m_stats
    rw [do_pack_settled a c content hd hf hs]
    exact ⟨rfl, rfl, quiet_refl _⟩

theorem for_each_settled (l : command_list) (a : application file_map)
    (h : ∀ c ∈ l, settled a.tree c) :
    (for_each (command_list.dispatch (plain_context map_crt)) l a).1 = l ∧
    (for_each (command_list.dispatch (plain_context map_crt)) l a).2.tree = a.tree ∧
    quiet a.m_stats
      (for_each (command_list.dispatch (plain_context map_crt)) l a).2.m_stats := by
  induction l generalizing a with
  | nil => exact ⟨rfl, rfl, quiet_refl _⟩
  | cons c cs ih =>
    obtain ⟨h1, h2, h3⟩ := dispatch_settled a c (h c (List.mem_cons_self c cs))
    obtain ⟨h4, h5, h6⟩ := ih (command_list.dispatch (plain_context map_crt) a c).2
      (fun x hx => by rw [h2]; exact h x (List.mem_cons_of_mem c hx))
    refine ⟨?_, ?_, ?_⟩
    · show (_ :: _) = _
      rw [h1, h4]
    · show (for_each (command_list.dispatch (plain_context map_crt)) cs _).2.tree = _
      rw [h5, h2]
    · exact quiet_trans _ _ _ h3 h6

theorem for_each_no_remove (l : command_list) (a : application file_map)
    (h : ∀ c ∈ l, c.action ≠ .action_remove) :
    for_each (command_list.remove_step (plain_context map_crt)) l a = (l, a) := by
  induction l generalizing a with
  | nil => rfl
  | cons c cs ih =>
    have hc : command_list.remove_step (plain_context map_crt) a c = (c, a) := by
      unfold command_list.remove_step
      rw [if_neg (h c (List.mem_cons_self c cs))]
    show (_ :: _, _) = _
    rw [hc, ih a (fun x hx => h x (List.mem_cons_of_mem c hx))]

theorem settled_not_remove (w : file_map) (c : command) (h : settled w c) :
    c.action ≠ .action_remove := by
  rcases h with h | ⟨h, _⟩ <;> rw [h] <;> simp

/-- A run over records that are all settled changes no counter but `ignored`. -/
theorem run_settled (m : command_list) (a : application file_map)
    (h : ∀ c ∈ m, settled a.tree c) :
    quiet a.m_stats (command_list.run (plain_context map_crt) m a).2.m_stats := by
  have hl : ∀ c ∈ std_sort command.execution_order m, settled a.tree c :=
    fun c hc => h c ((std_sort_perm _ m).mem_iff.1 hc)
  obtain ⟨h1, _, h3⟩ := for_each_settled _ a hl
  have hr : command_list.run_handlers (plain_context map_crt) m a =
      for_each (command_list.dispatch (plain_context map_crt))
        (std_sort command.execution_order m) a := rfl
  unfold command_list.run
  simp only [hr, h1]
  rw [for_each_no_remove]
  · exact h3
  · intro c hc
    exact settled_not_remove a.tree c (hl c ((std_sort_perm _ _).mem_iff.1 hc))

/-! ### The explicit map after a run -/

theorem tree_after_remove (m : command_list) (a : application file_map)
    (hnd : (m.map command.path).Nodup) (c : command) (hc : c ∈ m)
    (ha : c.action = .action_remove) :
    file_map.find (command_list.run (plain_context map_crt) m a).2.tree c.path = none := by
  have hrun := run_map m a hnd
  have hmem : handled a.tree c ∈ (command_list.run (plain_context map_crt) m a).1 :=
    (mem_run_map m a hnd _).2 ⟨c, hc, rfl⟩
  rw [hrun.2, ← hrun.1, ← handled_path a.tree c]
  exact remove_all_self _ _ _ hmem (by rw [handled_action]; exact ha)

theorem tree_after_keep (m : command_list) (a : application file_map)
    (hnd : (m.map command.path).Nodup) (q : std_wstring)
    (hr : ∀ c ∈ m, c.action = .action_remove → c.path ≠ q) (hq : q ≠ templates_csv) :
    file_map.find (command_list.run (plain_context map_crt) m a).2.tree q =
      file_map.find (unpack_writes (std_sort command.execution_order m) a.tree) q := by
  have hrun := run_map m a hnd
  rw [hrun.2, ← hrun.1, remove_all_other, find_set, if_neg (fun e => hq e.symm)]
  intro c hc ha
  obtain ⟨c1, hc1, rfl⟩ := (mem_run_map m a hnd c).1 hc
  rw [handled_action] at ha
  rw [handled_path]
  exact hr c1 hc1 ha

theorem tree_after_db (m : command_list) (a : application file_map)
    (hnd : (m.map command.path).Nodup)
    (hr : ∀ c ∈ m, c.action = .action_remove → c.path ≠ templates_csv) :
    file_map.find (command_list.run (plain_context map_crt) m a).2.tree templates_csv =
      some (some (plain_db_text (command_list.run (plain_context map_crt) m a).1)) := by
  have hrun := run_map m a hnd
  rw [hrun.2, ← hrun.1, remove_all_other, find_set, if_pos rfl]
  intro c hc ha
  obtain ⟨c1, hc1, rfl⟩ := (mem_run_map m a hnd c).1 hc
  rw [handled_action] at ha
  rw [handled_path]
  exact hr c1 hc1 ha

theorem tree_after_unpack (m : command_list) (a : application file_map)
    (hnd : (m.map command.path).Nodup) (c : command) (hc : c ∈ m)
    (ha : c.action = .action_unpack) (hq : c.path ≠ templates_csv) :
    file_map.find (command_list.run (plain_context map_crt) m a).2.tree c.path =
      some (some c.data) := by
  rw [tree_after_keep m a hnd c.path _ hq]
  · exact unpack_writes_self _ _ c
      (((std_sort_perm command.execution_order m).map command.path).nodup_iff.2 hnd)
      ((std_sort_perm _ m).mem_iff.2 hc) ha
  · intro c1 hc1 ha1 hp
    have := eq_of_path_eq m hnd c1 hc1 c hc hp
    rw [this, ha] at ha1
    contradiction

theorem tree_after_same (m : command_list) (a : application file_map)
    (hnd : (m.map command.path).Nodup) (q : std_wstring)
    (hr : ∀ c ∈ m, c.action = .action_remove → c.path ≠ q)
    (hu : ∀ c ∈ m, c.action = .action_unpack → c.path ≠ q) (hq : q ≠ templates_csv) :
    file_map.find (command_list.run (plain_context map_crt) m a).2.tree q =
      file_map.find a.tree q := by
  rw [tree_after_keep m a hnd q hr hq]
  exact unpack_writes_other _ _ q (fun c hc => hu c ((std_sort_perm _ m).mem_iff.1 hc))

theorem strip_crlf_id (d : std_string) (h1 : CR ∉ d) (h2 : LF ∉ d) : strip_crlf d = d := by
  unfold strip_crlf
  rw [List.filter_eq_self]
  intro c hc
  have hc1 : c ≠ CR := fun e => h1 (e ▸ hc)
  have hc2 : c ≠ LF := fun e => h2 (e ▸ hc)
  simp [hc1, hc2]

theorem strip_crlf_no_lf (d : std_string) : LF ∉ strip_crlf d := by
  unfold strip_crlf
  intro h
  have := (List.mem_filter.1 h).2
  simp at this

theorem stored_entries_mem (w : file_map) (e : std_wstring × std_string)
    (h : e ∈ stored_entries w) : COMMA ∉ e.1 ∧ LF ∉ e.1 ∧ LF ∉ e.2 := by
  unfold stored_entries at h
  cases hf : file_map.find w templates_csv with
  | none => simp [hf] at h
  | some o =>
    cases o with
    | none => simp [hf] at h
    | some text =>
      simp only [hf] at h
      exact db_entries_mem text e h

theorem template_ne_csv (_w : file_map) (p : std_wstring) (h : is_txt (base_of p) = true) :
    p ≠ templates_csv := by
  intro e
  rw [e, templates_csv_not_template] at h
  contradiction

theorem table_data_no_lf (m_filter : filter) (w : file_map) (m : command_list)
    (hok : table_ok m_filter (templates w) (stored_entries w) m) (c : command) (hc : c ∈ m) :
    LF ∉ c.data := by
  obtain ⟨_, h2, h3, _, _⟩ := hok.2.2 c hc
  by_cases hin : c.path ∈ (stored_entries w).map Prod.fst
  · exact (stored_entries_mem w _ (h2 hin)).2.2
  · rw [h3 hin]
    simp

theorem handled_data_no_lf (w : file_map) (c : command) (h : LF ∉ c.data) :
    LF ∉ (handled w c).data := by
  unfold handled
  split_ifs
  · cases hf : file_map.find w c.path with
    | none => exact h
    | some o =>
      cases o with
      | none => exact h
      | some content => exact strip_crlf_no_lf content
  · exact h

theorem handled_other (w : file_map) (c : command) (h1 : c.action ≠ .action_pack)
    (h2 : c.action ≠ .action_remove) : handled w c = c := by
  unfold handled
  rw [if_neg]
  intro h
  rcases h with h | h
  · exact h1 h
  · exact h2 h

/-- What one run leaves for one record of the table of the explicit map, when
the paths on disk have no comma and no line feed, the files that the filter
includes can be read and are not empty without CR and LF, and the entries of
the database that must be unpacked have a name in `.txt` and a payload that is
not empty and has no CR: the record can be written to and read back from the
database; if its path is then a file in `.txt` of the map, the filter includes
it and its payload is the content of that file, not empty; if not, the filter
excludes it. -/
theorem record_after (m_filter : filter) (a : application file_map) (m : command_list)
    (hok : table_ok m_filter (templates a.tree) (stored_entries a.tree) m)
    (hpath : ∀ p ∈ templates a.tree, COMMA ∉ p ∧ LF ∉ p)
    (hfile : ∀ p ∈ templates a.tree, filter.includes m_filter p = true →
      ∃ content, file_map.find a.tree p = some (some content) ∧ strip_crlf content ≠ [])
    (hdb : ∀ e ∈ stored_entries a.tree, filter.includes m_filter e.1 = true →
      e.1 ∉ templates a.tree → is_txt (base_of e.1) = true ∧ e.2 ≠ [] ∧ CR ∉ e.2)
    (c0 : command) (hc0 : c0 ∈ m) :
    (COMMA ∉ c0.path ∧ LF ∉ c0.path ∧ LF ∉ (handled a.tree c0).data) ∧
    (c0.path ∈ templates (command_list.run (plain_context map_crt) m a).2.tree →
      filter.includes m_filter c0.path = true ∧ (handled a.tree c0).data ≠ [] ∧
      ∃ content,
        file_map.find (command_list.run (plain_context map_crt) m a).2.tree c0.path =
          some (some content) ∧
        strip_crlf content = (handled a.tree c0).data) ∧
    (c0.path ∉ templates (command_list.run (plain_context map_crt) m a).2.tree →
      filter.includes m_filter c0.path = false) := by
  have hnd := hok.1
  obtain ⟨_, h2, _, h4, h5⟩ := hok.2.2 c0 hc0
  have hlf := handled_data_no_lf a.tree c0 (table_data_no_lf m_filter a.tree m hok c0 hc0)
  have honly : ∀ c ∈ m, c.path = c0.path → c = c0 :=
    fun c hc hp => eq_of_path_eq m hnd c hc c0 hc0 hp
  by_cases hin : c0.path ∈ templates a.tree
  · have hact := h4 hin
    obtain ⟨hcomma, hlfp⟩ := hpath c0.path hin
    refine ⟨⟨hcomma, hlfp, hlf⟩, ?_⟩
    cases hinc : filter.includes m_filter c0.path with
    | true =>
      rw [hinc] at hact
      simp only [if_true] at hact
      obtain ⟨content, hf, hne⟩ := hfile c0.path hin hinc
      have hh := handled_readable a.tree c0 content (Or.inl hact) hf
      have hfind : file_map.find
          (command_list.run (plain_context map_crt) m a).2.tree c0.path =
            some (some content) := by
        rw [tree_after_same m a hnd c0.path _ _
          (template_ne_csv a.tree c0.path ((mem_templates _ _).1 hin).2), hf]
        · intro c hc ha hp
          rw [honly c hc hp, hact] at ha
          contradiction
        · intro c hc ha hp
          rw [honly c hc hp, hact] at ha
          contradiction
      refine ⟨fun _ => ⟨rfl, by rw [hh]; exact hne, content, hfind, by rw [hh]⟩, ?_⟩
      intro hn
      exact absurd ((mem_templates _ _).2
        ⟨by rw [hfind]; simp, ((mem_templates _ _).1 hin).2⟩) hn
    | false =>
      rw [hinc] at hact
      simp only [Bool.false_eq_true, if_false] at hact
      have hfind := tree_after_remove m a hnd c0 hc0 hact
      refine ⟨fun hm => ?_, fun _ => rfl⟩
      exact absurd hfind ((mem_templates _ _).1 hm).1
  · obtain ⟨hdone, hact⟩ := h5 hin
    have hent := h2 hdone
    obtain ⟨hcomma, hlfp, _⟩ := stored_entries_mem a.tree _ hent
    refine ⟨⟨hcomma, hlfp, hlf⟩, ?_⟩
    cases hinc : filter.includes m_filter c0.path with
    | true =>
      rw [hinc] at hact
      simp only [if_true] at hact
      obtain ⟨htxt, hne, hcr⟩ := hdb _ hent hinc hin
      have hh : handled a.tree c0 = c0 :=
        handled_other a.tree c0 (by rw [hact]; simp) (by rw [hact]; simp)
      have hfind := tree_after_unpack m a hnd c0 hc0 hact (template_ne_csv a.tree c0.path htxt)
      rw [hh]
      refine ⟨fun _ => ⟨rfl, hne, c0.data, hfind, ?_⟩, ?_⟩
      · exact strip_crlf_id c0.data hcr (table_data_no_lf m_filter a.tree m hok c0 hc0)
      · intro hn
        exact absurd ((mem_templates _ _).2 ⟨by rw [hfind]; simp, htxt⟩) hn
    | false =>
      rw [hinc] at hact
      simp only [Bool.false_eq_true, if_false] at hact
      refine ⟨fun hm => ?_, fun _ => rfl⟩
      obtain ⟨hne, htxt⟩ := (mem_templates _ _).1 hm
      rw [tree_after_same m a hnd c0.path _ _ (template_ne_csv a.tree c0.path htxt)] at hne
      · exact absurd ((mem_templates _ _).2 ⟨hne, htxt⟩) hin
      · intro c hc ha hp
        rw [honly c hc hp, hact] at ha
        contradiction
      · intro c hc ha hp
        rw [honly c hc hp, hact] at ha
        contradiction

theorem templates_after (m_filter : filter) (a : application file_map) (m : command_list)
    (hok : table_ok m_filter (templates a.tree) (stored_entries a.tree) m)
    (p : std_wstring)
    (hp : p ∈ templates (command_list.run (plain_context map_crt) m a).2.tree) :
    ∃ c0 ∈ m, c0.path = p := by
  by_contra hn
  have hnot : ∀ c ∈ m, c.path ≠ p := fun c hc e => hn ⟨c, hc, e⟩
  obtain ⟨hne, htxt⟩ := (mem_templates _ _).1 hp
  rw [tree_after_same m a hok.1 p (fun c hc _ => hnot c hc) (fun c hc _ => hnot c hc)
    (template_ne_csv a.tree p htxt)] at hne
  obtain ⟨c, hc, e⟩ := List.mem_map.1 (hok.2.1 p ((mem_templates _ _).2 ⟨hne, htxt⟩))
  exact hnot c hc e

/-! ### Two runs in a row -/

/-- Two runs of `plain_run`: on the explicit map, when no path in `.txt` on
disk has a comma or a line feed, every file in `.txt` that the filter
includes can be read and is not empty without CR and LF, and every entry of
the database that the filter includes and that has no file in `.txt` on disk
has a file name in `.txt` and a payload that is not empty and has no CR, a
second run on the map that the first run leaves changes none of `packed`,
`repacked`, `unpacked`, `left_out`, `pack_read_errors` and
`unpack_write_errors`. -/
theorem plain_second_run_quiet (m_filter : filter) (st st2 : stats) (w : file_map)
    (hpath : ∀ p ∈ templates w, COMMA ∉ p ∧ LF ∉ p)
    (hfile : ∀ p ∈ templates w, filter.includes m_filter p = true →
      ∃ content, file_map.find w p = some (some content) ∧ strip_crlf content ≠ [])
    (hdb : ∀ e ∈ stored_entries w, filter.includes m_filter e.1 = true →
      e.1 ∉ templates w → is_txt (base_of e.1) = true ∧ e.2 ≠ [] ∧ CR ∉ e.2) :
    (plain_run map_crt m_filter
        ⟨st2, (plain_run map_crt m_filter ⟨st, w⟩).2.tree⟩).2.m_stats.packed =
      st2.packed ∧
    (plain_run map_crt m_filter
        ⟨st2, (plain_run map_crt m_filter ⟨st, w⟩).2.tree⟩).2.m_stats.repacked =
      st2.repacked ∧
    (plain_run map_crt m_filter
        ⟨st2, (plain_run map_crt m_filter ⟨st, w⟩).2.tree⟩).2.m_stats.unpacked =
      st2.unpacked ∧
    (plain_run map_crt m_filter
        ⟨st2, (plain_run map_crt m_filter ⟨st, w⟩).2.tree⟩).2.m_stats.left_out =
      st2.left_out ∧
    (plain_run map_crt m_filter
        ⟨st2, (plain_run map_crt m_filter ⟨st, w⟩).2.tree⟩).2.m_stats.pack_read_errors =
      st2.pack_read_errors ∧
    (plain_run map_crt m_filter
        ⟨st2, (plain_run map_crt m_filter ⟨st, w⟩).2.tree⟩).2.m_stats.unpack_write_errors =
      st2.unpack_write_errors := by
  have hok := passes_table_ok m_filter w
  have hnd := hok.1
  have hrec := record_after m_filter ⟨st, w⟩ _ hok hpath hfile hdb
  have hmem := mem_run_map _ (⟨st, w⟩ : application file_map) hnd
  have hstored : stored_entries (plain_run map_crt m_filter ⟨st, w⟩).2.tree =
      (plain_run map_crt m_filter ⟨st, w⟩).1.map (fun c => (c.path, c.data)) := by
    unfold stored_entries
    rw [run_eq, tree_after_db _ _ hnd]
    · apply db_entries_db_text
      intro c hc
      obtain ⟨c0, hc0, rfl⟩ := (hmem c).1 hc
      rw [handled_path]
      exact (hrec c0 hc0).1
    · intro c hc ha
      exact template_ne_csv w c.path
        ((mem_templates _ _).1 (remove_is_template m_filter w _ _ hok c hc ha)).2
  have hok2 := passes_table_ok m_filter (plain_run map_crt m_filter ⟨st, w⟩).2.tree
  rw [run_eq m_filter ⟨st2, _⟩]
  apply run_settled
  intro c hc
  obtain ⟨_, h2, _, h4, h5⟩ := hok2.2.2 c hc
  by_cases hin : c.path ∈ templates (plain_run map_crt m_filter ⟨st, w⟩).2.tree
  · obtain ⟨c0, hc0, hp0⟩ := templates_after m_filter ⟨st, w⟩ _ hok c.path hin
    have hfst : c.path ∈
        (stored_entries (plain_run map_crt m_filter ⟨st, w⟩).2.tree).map Prod.fst := by
      rw [hstored, List.map_map]
      refine List.mem_map.2 ⟨handled w c0, (hmem _).2 ⟨c0, hc0, rfl⟩, ?_⟩
      show (handled w c0).path = c.path
      rw [handled_path, hp0]
    have hent := h2 hfst
    rw [hstored] at hent
    obtain ⟨c1, hc1, he1⟩ := List.mem_map.1 hent
    obtain ⟨c2, hc2, rfl⟩ := (hmem c1).1 hc1
    have hp2 : c2.path = c.path := by
      have := congrArg Prod.fst he1
      simpa [handled_path] using this
    have hd2 : (handled w c2).data = c.data := congrArg Prod.snd he1
    obtain ⟨hinc, hne, content, hf, hs⟩ := (hrec c2 hc2).2.1 (by rw [hp2]; exact hin)
    right
    refine ⟨?_, by rw [← hd2]; exact hne, content, by rw [← hp2]; exact hf, by rw [← hd2]; exact hs⟩
    rw [h4 hin, ← hp2, hinc]
    rfl
  · obtain ⟨hdone, hact⟩ := h5 hin
    rw [hstored, List.map_map] at hdone
    obtain ⟨c1, hc1, he1⟩ := List.mem_map.1 hdone
    obtain ⟨c2, hc2, rfl⟩ := (hmem c1).1 hc1
    have hp2 : c2.path = c.path := by
      simpa [handled_path] using he1
    have hexc := (hrec c2 hc2).2.2 (by rw [hp2]; exact hin)
    left
    rw [hact, ← hp2, hexc]
    rfl

/-! ### The normalization of the pack handler -/

theorem strip_crlf_cons (c : Nat) (rest : std_string) :
    strip_crlf (c :: rest) =
      if c = 13 ∨ c = 10 then strip_crlf rest else c :: strip_crlf rest := by
  unfold strip_crlf
  by_cases h1 : c = 13
  · simp [List.filter_cons, CR, LF, h1]
  · by_cases h2 : c = 10
    · simp [List.filter_cons, CR, LF, h2]
    · simp [List.filter_cons, CR, LF, h1, h2]

theorem strip_crlf_eq_deleted (content : std_string) :
    strip_crlf content = crlf_deleted content := by
  induction content with
  | nil => rfl
  | cons c rest ih => rw [strip_crlf_cons, crlf_deleted, ih]

theorem strip_crlf_no_cr (d : std_string) : CR ∉ strip_crlf d := by
  unfold strip_crlf
  intro h
  have := (List.mem_filter.1 h).2
  simp at this

theorem do_pack_full_read {W : Type} (io : crt W) (a : application W) (cmd : command)
    (content : std_string)
    (h : io.fopen_rb a.tree cmd.path = some ⟨content.length, true, content⟩) :
    (application.do_pack io a cmd).1 = { cmd with data := strip_crlf content } := by
  unfold application.do_pack
  simp [file.read, h]

/-- C11: a `do_pack` whose read delivers the whole content stores the content
with every CR and LF deleted and the other bytes in their order: the payload
is a sublist of the content without CR and LF in which every other byte
occurs as often as in the content; normalizing it again changes nothing; and
the content `line1\r\nline2\r\n` is stored as `line1line2`. -/
theorem crlf_normalization :
    (∀ (W : Type) (io : crt W) (a : application W) (cmd : command) (content : std_string),
      io.fopen_rb a.tree cmd.path = some ⟨content.length, true, content⟩ →
      (application.do_pack io a cmd).1.data = crlf_deleted content) ∧
    (∀ content : std_string,
      strip_crlf content = crlf_deleted content ∧
      (crlf_deleted content).Sublist content ∧
      13 ∉ crlf_deleted content ∧ 10 ∉ crlf_deleted content ∧
      (∀ c : Nat, c ≠ 13 → c ≠ 10 → (crlf_deleted content).count c = content.count c) ∧
      crlf_deleted (crlf_deleted content) = crlf_deleted content) ∧
    crlf_deleted (lit "line1\r\nline2\r\n") = lit "line1line2" ∧
    (application.do_pack map_crt ⟨stats.zero, [(lit "a.txt", some (lit "line1\r\nline2\r\n"))]⟩
      ⟨lit "a.txt", 0, .action_pack, []⟩).1.data = lit "line1line2" := by
  refine ⟨?_, ?_, by decide, by decide⟩
  · intro W io a cmd content h
    rw [do_pack_full_read io a cmd content h, strip_crlf_eq_deleted]
  · intro content
    have hcr : 13 ∉ crlf_deleted content := by
      rw [← strip_crlf_eq_deleted]
      exact strip_crlf_no_cr content
    have hlf : 10 ∉ crlf_deleted content := by
      rw [← strip_crlf_eq_deleted]
      exact strip_crlf_no_lf content
    refine ⟨strip_crlf_eq_deleted content, ?_, hcr, hlf, ?_, ?_⟩
    · rw [← strip_crlf_eq_deleted]
      exact List.filter_sublist content
    · intro c h1 h2
      rw [← strip_crlf_eq_deleted]
      unfold strip_crlf
      rw [List.count_filter]
      simp [CR, LF, h1, h2]
    · rw [← strip_crlf_eq_deleted, ← strip_crlf_eq_deleted]
      apply strip_crlf_id
      · exact strip_crlf_no_cr content
      · exact strip_crlf_no_lf content

/-- C11, witness: a stream that delivers the four bytes `a`, CR, LF, `b`. -/
theorem crlf_normalization_witness :
    (application.do_pack map_crt ⟨stats.zero, [(lit "a.txt", some (lit "a\r\nb"))]⟩
      ⟨lit "a.txt", 0, .action_pack, []⟩).1.data = crlf_deleted (lit "a\r\nb") :=
  crlf_normalization.1 file_map map_crt ⟨stats.zero, [(lit "a.txt", some (lit "a\r\nb"))]⟩
    ⟨lit "a.txt", 0, .action_pack, []⟩ (lit "a\r\nb") rfl

/-! ### The unpack handler -/

theorem split_lines_eq_splitOn (text : std_string) : split_lines text = text.splitOn LF := by
  induction text with
  | nil => rfl
  | cons c rest ih =>
    unfold List.splitOn at ih ⊢
    rw [List.splitOnP_cons, split_lines, ih]
    by_cases hc : c = LF
    · simp [hc]
    · simp only [hc, if_false, beq_iff_eq]
      cases h : List.splitOnP (fun x => x == LF) rest with
      | nil => exact absurd h (List.splitOnP_ne_nil _ rest)
      | cons l ls => rfl

theorem merge_csv_read {W : Type} (io : crt W) (m_filter : filter) (w : W)
    (m : command_list) (text : std_string)
    (h : file.read io w ⟨[]⟩ templates_csv 0 = (true, ⟨text⟩)) :
    plain_merge_csv io m_filter w m =
      (split_lines text).foldl (plain_merge_command m_filter) m := by
  unfold plain_merge_csv
  rw [h]
  simp only [if_true]
  exact merge_csv_loop_eq m_filter _ text m (by omega)

/-! ### What stays fixed in a record -/

theorem set_data_created (m : command_list) (i : Nat) (data : std_string) :
    (command_list.set_data m i data).map command.created = m.map command.created := by
  induction m generalizing i with
  | nil => rfl
  | cons x xs ih =>
    cases i with
    | zero => rfl
    | succ j => simp [command_list.set_data, ih j]

theorem created_path (l1 l2 : command_list)
    (h : l1.map command.created = l2.map command.created) :
    l1.map command.path = l2.map command.path := by
  have h2 := congrArg (List.map Prod.fst) h
  simpa [List.map_map, Function.comp_def, command.created] using h2

theorem merge_found (m : command_list) (path : std_wstring) (depth : Nat) (included : Bool)
    (i : Nat) (h : command_list.find m path = some i) :
    command_list.merge m path depth included = (m, i) := by
  unfold command_list.merge
  rw [h]

theorem merge_assign_created (m : command_list) (path : std_wstring) (depth : Nat)
    (included : Bool) (data : std_string) :
    ∃ extra : List (std_wstring × Nat × command_action),
      (command_list.set_data (command_list.merge m path depth included).1
        (command_list.merge m path depth included).2 data).map command.created =
          m.map command.created ++ extra ∧
      extra.length ≤ 1 ∧ (∀ k ∈ extra, k.1 = path ∧ path ∉ m.map command.path) := by
  rw [set_data_created]
  unfold command_list.merge
  cases hf : command_list.find m path with
  | some i => exact ⟨[], by simp, by simp, by simp⟩
  | none =>
    refine ⟨[(path, depth, if included then .action_unpack else .action_none)], ?_, by simp, ?_⟩
    · simp [command.created]
    · intro k hk
      rw [List.mem_singleton] at hk
      subst hk
      refine ⟨rfl, ?_⟩
      intro hm
      obtain ⟨c, hc, hp⟩ := List.mem_map.1 hm
      exact (find_none_iff m path).1 hf c hc hp

theorem merge_assign_nodup (m : command_list) (path : std_wstring) (depth : Nat)
    (included : Bool) (data : std_string) (hnd : (m.map command.path).Nodup) :
    ((command_list.set_data (command_list.merge m path depth included).1
      (command_list.merge m path depth included).2 data).map command.path).Nodup := by
  obtain ⟨extra, h1, h2, h3⟩ := merge_assign_created m path depth included data
  have hp := congrArg (List.map Prod.fst) h1
  simp only [List.map_map, List.map_append] at hp
  have hfst : (Prod.fst ∘ command.created) = command.path := rfl
  rw [hfst] at hp
  rw [hp]
  cases extra with
  | nil => simpa using hnd
  | cons k ks =>
    cases ks with
    | nil =>
      obtain ⟨hk1, hk2⟩ := h3 k (List.mem_cons_self k [])
      simp only [List.map_cons, List.map_nil]
      refine List.Nodup.append hnd (List.nodup_singleton _) ?_
      intro p hp1 hp2
      rw [List.mem_singleton] at hp2
      rw [hp2, hk1] at hp1
      exact hk2 hp1
    | cons k2 ks2 => simp at h2

theorem do_pack_created {W : Type} (io : crt W) (a : application W) (c : command) :
    (application.do_pack io a c).1.created = c.created := by
  unfold application.do_pack
  cases h : (file.read io a.tree ⟨[]⟩ c.path 0).1 <;> simp [h, command.created]

theorem do_unpack_same {W : Type} (io : crt W) (a : application W) (c : command) :
    (application.do_unpack io a c).1 = c := by
  unfold application.do_unpack
  cases h : (file.write io (application.create_dir_for io a.tree c.path) ⟨c.data⟩ c.path).1 <;>
    simp [h]

theorem dispatch_created {W : Type} (io : crt W) (a : application W) (c : command) :
    (command_list.dispatch (plain_context io) a c).1.created = c.created := by
  unfold command_list.dispatch
  cases hc : c.action
  · exact do_pack_created io a c
  · show (application.do_unpack io a c).1.created = _
    rw [do_unpack_same]
  · exact do_pack_created io a c
  · rfl

theorem for_each_dispatch_created {W : Type} (io : crt W) (l : command_list)
    (a : application W) :
    (for_each (command_list.dispatch (plain_context io)) l a).1.map command.created =
      l.map command.created := by
  induction l generalizing a with
  | nil => rfl
  | cons c cs ih =>
    show (_ :: _).map command.created = _
    rw [List.map_cons, List.map_cons, dispatch_created, ih]

theorem for_each_remove_same {W : Type} (io : crt W) (l : command_list) (a : application W) :
    (for_each (command_list.remove_step (plain_context io)) l a).1 = l := by
  induction l generalizing a with
  | nil => rfl
  | cons c cs ih =>
    have hc : (command_list.remove_step (plain_context io) a c).1 = c := by
      unfold command_list.remove_step
      split_ifs <;> rfl
    show (_ :: _) = _
    rw [hc, ih]

theorem for_each_length {σ : Type} (body : σ → command → command × σ) (l : command_list)
    (s : σ) : (for_each body l s).1.length = l.length := by
  induction l generalizing s with
  | nil => rfl
  | cons c cs ih =>
    show (_ :: _).length = _
    rw [List.length_cons, List.length_cons, ih]

theorem run_length {σ : Type} (context : command_execution_context_interface σ)
    (m : command_list) (s : σ) : (command_list.run context m s).1.length = m.length := by
  unfold command_list.run command_list.run_handlers
  rw [for_each_length, (std_sort_perm _ _).length_eq, for_each_length,
    (std_sort_perm _ _).length_eq]

theorem foldl_add_path (listing : List (std_wstring × Nat × Bool)) (m : command_list) :
    (listing.foldl (fun t e => command_list.add t e.1 e.2.1 e.2.2) m).map command.path =
      m.map command.path ++ listing.map Prod.fst := by
  induction listing generalizing m with
  | nil => simp
  | cons e es ih =>
    rw [List.foldl_cons, ih]
    simp [command_list.add]

theorem foldl_merge_nodup (entries : List (std_wstring × Nat × Bool × std_string))
    (m : command_list) (hnd : (m.map command.path).Nodup) :
    ((entries.foldl
      (fun t e => command_list.set_data (command_list.merge t e.1 e.2.1 e.2.2.1).1
        (command_list.merge t e.1 e.2.1 e.2.2.1).2 e.2.2.2) m).map command.path).Nodup := by
  induction entries generalizing m with
  | nil => exact hnd
  | cons e es ih =>
    rw [List.foldl_cons]
    exact ih _ (merge_assign_nodup m e.1 e.2.1 e.2.2.1 e.2.2.2 hnd)

theorem enumerate_dir_path {W : Type} (io : crt W) (m_filter : filter) (w : W) :
    (application.enumerate_dir io m_filter w []).map command.path =
      ((io.find_files w).filter (fun e => is_txt e.2.1)).map (fun e => e.1 ++ e.2.1) := by
  rw [enumerate_dir_eq, List.nil_append, List.map_map]
  rfl

/-! ### The order of the calls in a run -/

theorem add_rules_foldl (wregex : regex_constructor) (rules : List (std_wstring × Bool))
    (m : filter) :
    rules.foldl
      (fun m rule =>
        if rule.2 then (filter.include wregex m rule.1).2
        else (filter.exclude wregex m rule.1).2) m =
    (rules.filter (fun rule => valid_pattern wregex rule.1)).foldl
      (fun m rule =>
        if rule.2 then (filter.include wregex m rule.1).2
        else (filter.exclude wregex m rule.1).2) m := by
  induction rules generalizing m with
  | nil => rfl
  | cons rule rest ih =>
    rw [List.foldl_cons, ih]
    cases hv : wregex rule.1 with
    | error what =>
      have hval : valid_pattern wregex rule.1 = false := by simp [valid_pattern, hv]
      have hsame : (if rule.2 then (filter.include wregex m rule.1).2
          else (filter.exclude wregex m rule.1).2) = m := by
        split_ifs <;> simp [filter.include, filter.exclude, hv]
      rw [List.filter_cons, hval, hsame]
      simp
    | ok r =>
      have hval : valid_pattern wregex rule.1 = true := by simp [valid_pattern, hv]
      rw [List.filter_cons, hval]
      simp

theorem regex_parse_error_ne_nil (done : List regex_item) (pattern : std_wstring)
    (what : std_string) (h : regex_parse done pattern = some (.error what)) : what ≠ [] := by
  induction done, pattern using regex_parse.induct with
  | case1 done => simp [regex_parse] at h
  | case2 rest =>
    unfold regex_parse at h
    simp at h
    subst h
    decide
  | case3 rest last before hs =>
    unfold regex_parse at h
    simp [hs] at h
    subst h
    decide
  | case4 rest last before hs ih =>
    unfold regex_parse at h
    simp [hs] at h
    exact ih h
  | case5 done rest hc ih =>
    unfold regex_parse at h
    simp at h
    exact ih h
  | case6 done e rest2 hsp h1 h2 ih =>
    unfold regex_parse at h
    simp only [h1, h2, if_false, hsp, if_true] at h
    exact ih h
  | case7 done e rest2 hsp h1 h2 =>
    unfold regex_parse at h
    simp only [h1, h2, if_false, hsp] at h
    simp at h
  | case8 done h1 h2 =>
    unfold regex_parse at h
    simp at h
    subst h
    decide
  | case9 done c rest h1 h2 h3 hsp =>
    unfold regex_parse at h
    simp [h1, h2, h3, hsp] at h
  | case10 done c rest h1 h2 h3 hsp ih =>
    unfold regex_parse at h
    simp [h1, h2, h3, hsp] at h
    exact ih h

/-- C14: with the text of a `std::regex_error` never empty, `filter::include`
and `filter::exclude` return a string that is not empty exactly when the
constructor of the regular expression rejects the pattern, and then leave the
rules as they were, and else add the one rule at the end; so the filter made
from a sequence of rules is the filter made from its valid rules, and decides
every path as that one does. -/
theorem invalid_patterns_rejected (wregex : regex_constructor)
    (hwhat : ∀ pattern what, wregex pattern = .error what → what ≠ []) :
    (∀ (m : filter) (pattern : std_wstring),
      ((filter.include wregex m pattern).1 ≠ [] ↔ valid_pattern wregex pattern = false) ∧
      ((filter.exclude wregex m pattern).1 ≠ [] ↔ valid_pattern wregex pattern = false) ∧
      (valid_pattern wregex pattern = false →
        (filter.include wregex m pattern).2 = m ∧ (filter.exclude wregex m pattern).2 = m) ∧
      (∀ r, wregex pattern = .ok r →
        (filter.include wregex m pattern).2 = m ++ [⟨r, true⟩] ∧
        (filter.exclude wregex m pattern).2 = m ++ [⟨r, false⟩])) ∧
    (∀ rules : List (std_wstring × Bool),
      filter.add_rules wregex rules =
        filter.add_rules wregex (rules.filter (fun rule => valid_pattern wregex rule.1)) ∧
      ∀ path : std_wstring,
        filter.includes (filter.add_rules wregex rules) path =
          filter.includes
            (filter.add_rules wregex
              (rules.filter (fun rule => valid_pattern wregex rule.1))) path) := by
  constructor
  · intro m pattern
    cases hv : wregex pattern with
    | error what =>
      have hne := hwhat pattern what hv
      simp [filter.include, filter.exclude, valid_pattern, hv, hne]
    | ok r => simp [filter.include, filter.exclude, valid_pattern, hv]
  · intro rules
    have h : filter.add_rules wregex rules =
        filter.add_rules wregex (rules.filter (fun rule => valid_pattern wregex rule.1)) :=
      add_rules_foldl wregex rules []
    refine ⟨h, fun path => ?_⟩
    rw [← h]

/-- C14, witness: on the modelled part of the grammar, the rule `*.txt` is
rejected and `a.*` is kept. -/
theorem invalid_patterns_rejected_witness :
    filter.add_rules wregex_model [(lit "*.txt", true), (lit "a.*", false)] =
      filter.add_rules wregex_model
        ([(lit "*.txt", true), (lit "a.*", false)].filter
          (fun rule => valid_pattern wregex_model rule.1)) :=
  ((invalid_patterns_rejected wregex_model (fun pattern what h => by
      unfold wregex_model at h
      cases hp : regex_parse [] pattern with
      | none =>
        rw [hp] at h
        simp only [Except.error.injEq] at h
        subst h
        decide
      | some res =>
        cases res with
        | ok items => simp [hp] at h
        | error e =>
          rw [hp] at h
          simp only [Except.error.injEq] at h
          subst h
          exact regex_parse_error_ne_nil [] pattern e hp)).2
    [(lit "*.txt", true), (lit "a.*", false)]).1

/-- C15, as the code has it: the patterns are ECMAScript regular expressions.
The pattern `*.txt` is rejected, because `*` has nothing to repeat, and
`secret/*.txt` is compiled and matches neither `secret/a.txt` nor `a.txt`, so
after the two calls the filter holds one exclude rule and includes both paths.
With the rules include `.*\.txt` and then exclude `secret/.*\.txt`, the last
matching rule wins: `secret/a.txt` is not included and `a.txt` is. -/
theorem last_match_wins_example :
    (filter.include wregex_model [] (lit "*.txt")).1 ≠ [] ∧
    (filter.add_rules wregex_model [(lit "*.txt", true), (lit "secret/*.txt", false)]).map
      pattern_t.incl = [false] ∧
    filter.includes
      (filter.add_rules wregex_model [(lit "*.txt", true), (lit "secret/*.txt", false)])
      (lit "secret/a.txt") = true ∧
    filter.includes
      (filter.add_rules wregex_model [(lit "*.txt", true), (lit "secret/*.txt", false)])
      (lit "a.txt") = true ∧
    (filter.add_rules wregex_model
      [(lit ".*\\.txt", true), (lit "secret/.*\\.txt", false)]).map pattern_t.incl =
        [true, false] ∧
    filter.includes
      (filter.add_rules wregex_model
        [(lit ".*\\.txt", true), (lit "secret/.*\\.txt", false)])
      (lit "secret/a.txt") = false ∧
    filter.includes
      (filter.add_rules wregex_model
        [(lit ".*\\.txt", true), (lit "secret/.*\\.txt", false)])
      (lit "a.txt") = true := by
  decide

/-- C15, counterexample: after include `*.txt` and exclude `secret/*.txt`, both
in the modelled part of the grammar, the first being rejected there, the path
`secret/a.txt` is included. -/
theorem glob_patterns_include_secret :
    (regex_parse [] (lit "*.txt")).isSome = true ∧
    (regex_parse [] (lit "secret/*.txt")).isSome = true ∧
    valid_pattern wregex_model (lit "*.txt") = false ∧
    valid_pattern wregex_model (lit "secret/*.txt") = true ∧
    filter.includes
      (filter.exclude wregex_model (filter.include wregex_model [] (lit "*.txt")).2
        (lit "secret/*.txt")).2
      (lit "secret/a.txt") = true := by
  decide

/-! ### Writing the database and reading it back -/

theorem foldl_apply_entry_new (m_filter : filter) (entries : List (std_wstring × std_string))
    (m : command_list) (hnd : (m.map command.path ++ entries.map Prod.fst).Nodup) :
    entries.foldl (apply_entry m_filter) m = m ++ entries.map (stored_record m_filter) := by
  induction entries generalizing m with
  | nil => simp
  | cons e es ih =>
    have hm : (m.map command.path).Nodup := (List.nodup_append.1 hnd).1
    have hnew : e.1 ∉ m.map command.path := by
      intro h
      exact (List.nodup_append.1 hnd).2.2 h (by simp)
    rcases apply_entry_cases m_filter m e hm with ⟨hin, _⟩ | ⟨_, heq⟩
    · exact absurd hin hnew
    · rw [List.foldl_cons, heq, ih]
      · simp
      · have hperm : ((m ++ [stored_record m_filter e]).map command.path ++
            es.map Prod.fst) = m.map command.path ++ (e :: es).map Prod.fst := by
          simp [stored_record]
        rw [hperm]
        exact hnd

theorem merge_csv_db_text {W : Type} (io : crt W) (m_filter : filter) (w : W)
    (records : List command)
    (hread : file.read io w ⟨[]⟩ templates_csv 0 = (true, ⟨plain_db_text records⟩))
    (hnd : (records.map command.path).Nodup)
    (hsyn : ∀ c ∈ records, COMMA ∉ c.path ∧ LF ∉ c.path ∧ LF ∉ c.data) :
    plain_merge_csv io m_filter w [] =
      records.map (fun c => stored_record m_filter (c.path, c.data)) := by
  rw [merge_csv_read io m_filter w [] _ hread, foldl_merge_command]
  have hdb : (split_lines (plain_db_text records)).filterMap parse_line =
      records.map (fun c => (c.path, c.data)) := db_entries_db_text records hsyn
  rw [hdb, foldl_apply_entry_new]
  · simp [List.map_map, Function.comp_def]
  · simpa [List.map_map, Function.comp_def] using hnd

theorem read_after_save (st : stats) (w : file_map) (records : List command) :
    file.read map_crt (plain_do_save_db map_crt ⟨st, w⟩ records).tree ⟨[]⟩
      templates_csv 0 = (true, ⟨plain_db_text records⟩) := by
  rw [read_map, do_save_db_map]
  simp [find_set]

/-! ### Empty content -/

/-- ASCII is its own decoding. -/
theorem utf8_scan_ascii (s : std_string) (h : is_ascii s = true) :
    utf8_scan 0 0 0 s = some s := by
  induction s with
  | nil => rfl
  | cons b rest ih =>
    simp only [is_ascii, List.all_cons, Bool.and_eq_true, decide_eq_true_eq] at h
    have hr : is_ascii rest = true := h.2
    rw [utf8_scan]
    simp only [if_true, h.1, ih hr, Option.map_some']

/-- ASCII is its own encoding. -/
theorem utf16_scan_ascii (s : std_wstring) (h : is_ascii s = true) :
    utf16_scan none s = some s := by
  induction s with
  | nil => rfl
  | cons b rest ih =>
    simp only [is_ascii, List.all_cons, Bool.and_eq_true, decide_eq_true_eq] at h
    have hr : is_ascii rest = true := h.2
    have h1 : b < 55296 := by omega
    rw [utf16_scan]
    simp only [h1, if_true, ih hr, Option.map_some', utf8_bytes, h.1, List.singleton_append]

/-- The conversion of the program leaves ASCII as it is. -/
theorem utf_converter_ascii : ascii_identity utf_converter :=
  fun s h => ⟨utf8_scan_ascii s h, utf16_scan_ascii s h⟩

/-- A part of a string of good code units is one. -/
theorem all_drop (good : Nat → Bool) (s : List Nat) (n : Nat) (h : s.all good = true) :
    (s.drop n).all good = true := by
  rw [List.all_eq_true] at h ⊢
  exact fun x hx => h x (List.mem_of_mem_drop hx)

/-- A part of a string of good code units is one. -/
theorem all_take (good : Nat → Bool) (s : List Nat) (n : Nat) (h : s.all good = true) :
    (s.take n).all good = true := by
  rw [List.all_eq_true] at h ⊢
  exact fun x hx => h x (List.mem_of_mem_take hx)

/-- On a line that the conversion leaves as it is, `merge_command` does not
throw and does what `plain_merge_command` says. -/
theorem merge_command_plain (cvt : wstring_convert) (good : Nat → Bool)
    (hfix : ∀ s, s.all good = true → cvt.from_bytes s = some s ∧ cvt.to_bytes s = some s)
    (flt : filter) (m : command_list) (line : std_string) (h : line.all good = true) :
    application.merge_command cvt flt m line = some (plain_merge_command flt m line) := by
  unfold application.merge_command plain_merge_command
  by_cases h1 : line.isEmpty = true
  · simp [h1]
  by_cases h2 : line.all isspace = true
  · simp [h1, h2]
  simp only [h1, h2, if_false, (hfix line h).1, Bool.false_eq_true]
  cases hf : string_find line COMMA with
  | none => rfl
  | some colon =>
    simp only [(hfix (line.drop (colon + 1)) (all_drop good line _ h)).2]

/-- On a text that the conversion leaves as it is, the loop of `merge_csv`
does not throw. -/
theorem merge_csv_loop_plain (cvt : wstring_convert) (good : Nat → Bool)
    (hfix : ∀ s, s.all good = true → cvt.from_bytes s = some s ∧ cvt.to_bytes s = some s)
    (flt : filter) (fuel : Nat) :
    ∀ (text : std_string) (m : command_list), text.all good = true →
      application.merge_csv_loop cvt flt fuel text m
        = some (plain_merge_csv_loop flt fuel text m) := by
  induction fuel with
  | zero => intro text m _; rfl
  | succ n ih =>
    intro text m h
    unfold application.merge_csv_loop plain_merge_csv_loop
    cases hf : string_find text LF with
    | none => exact merge_command_plain cvt good hfix flt m text h
    | some delim =>
      simp only [merge_command_plain cvt good hfix flt m _ (all_take good text delim h)]
      by_cases hlt : delim + 1 < text.length
      · simp only [hlt, if_true]
        exact ih _ _ (all_drop good text _ h)
      · simp only [hlt, if_false]

/-- When the conversion leaves the text of the database as it is, `merge_csv`
does not throw. -/
theorem merge_csv_plain {W : Type} (io : crt W) (cvt : wstring_convert) (good : Nat → Bool)
    (hfix : ∀ s, s.all good = true → cvt.from_bytes s = some s ∧ cvt.to_bytes s = some s)
    (flt : filter) (w : W) (m : command_list)
    (h : (file.read io w ⟨[]⟩ templates_csv 0).2.data.all good = true) :
    application.merge_csv io cvt flt w m = some (plain_merge_csv io flt w m) := by
  unfold application.merge_csv plain_merge_csv
  by_cases hr : (file.read io w ⟨[]⟩ templates_csv 0).1 = true
  · simp only [hr, if_true]
    exact merge_csv_loop_plain cvt good hfix flt _ _ m h
  · simp only [hr, if_false, Bool.false_eq_true]

/-- The lines of records whose paths the conversion leaves as they are. -/
theorem db_text_plain (cvt : wstring_convert) (good : Nat → Bool)
    (hfix : ∀ s, s.all good = true → cvt.from_bytes s = some s ∧ cvt.to_bytes s = some s)
    (cmds : List command) (h : ∀ c ∈ cmds, c.path.all good = true) :
    db_text cvt cmds = some (plain_db_text cmds) := by
  induction cmds with
  | nil => rfl
  | cons c rest ih =>
    have hc := (hfix c.path (h c (List.mem_cons_self _ _))).2
    have hr := ih (fun d hd => h d (List.mem_cons_of_mem _ hd))
    simp [db_text, db_line, hc, hr, plain_db_text, plain_db_line]

/-- On such records `do_save_db` does not throw. -/
theorem do_save_db_plain {W : Type} (io : crt W) (cvt : wstring_convert) (good : Nat → Bool)
    (hfix : ∀ s, s.all good = true → cvt.from_bytes s = some s ∧ cvt.to_bytes s = some s)
    (a : application W) (cmds : List command) (h : ∀ c ∈ cmds, c.path.all good = true) :
    application.do_save_db io cvt a cmds = some (plain_do_save_db io a cmds) := by
  unfold application.do_save_db plain_do_save_db
  rw [db_text_plain cvt good hfix cmds h]
  cases hw : io.fopen_wb a.tree templates_csv (plain_db_text cmds) <;> simp only [hw]

/-- The handler loop of the run keeps the state in step with the handlers of
`plain_context`. -/
theorem dispatch_some {W : Type} (io : crt W) (cvt : wstring_convert)
    (a : application W) (c : command) (hp : cvt.to_bytes c.path ≠ none) :
    command_list.dispatch (application.context io cvt) (some a) c
      = ((command_list.dispatch (plain_context io) a c).1,
         some (command_list.dispatch (plain_context io) a c).2) := by
  have hn : (cvt.to_bytes c.path).isNone = false := by
    cases h : cvt.to_bytes c.path with
    | none => exact absurd h hp
    | some _ => rfl
  unfold command_list.dispatch
  cases c.action <;>
    simp only [application.context, plain_context, hn, Bool.and_false, Bool.false_eq_true,
      if_false]

/-- A handler either throws, and returns the record as it received it, or
does what the handler of `plain_context` does. -/
theorem dispatch_cases {W : Type} (io : crt W) (cvt : wstring_convert)
    (a : application W) (c : command) :
    command_list.dispatch (application.context io cvt) (some a) c = (c, none) ∨
    command_list.dispatch (application.context io cvt) (some a) c
      = ((command_list.dispatch (plain_context io) a c).1,
         some (command_list.dispatch (plain_context io) a c).2) := by
  cases h : cvt.to_bytes c.path with
  | some _ => exact Or.inr (dispatch_some io cvt a c (by rw [h]; simp))
  | none =>
    unfold command_list.dispatch
    cases c.action
    · by_cases hm : application.pack_message io a c = true
      · left
        simp only [application.context, hm, h, Option.isNone_none, Bool.and_self, if_true]
      · right
        simp only [application.context, plain_context, hm, Bool.false_and,
          Bool.false_eq_true, if_false]
    · left
      simp only [application.context, h, Option.isNone_none, if_true]
    · by_cases hm : application.pack_message io a c = true
      · left
        simp only [application.context, hm, h, Option.isNone_none, Bool.and_self, if_true]
      · right
        simp only [application.context, plain_context, hm, Bool.false_and,
          Bool.false_eq_true, if_false]
    · right
      rfl

theorem for_each_dispatch_some {W : Type} (io : crt W) (cvt : wstring_convert)
    (l : List command) : ∀ (a : application W), (∀ c ∈ l, cvt.to_bytes c.path ≠ none) →
    for_each (command_list.dispatch (application.context io cvt)) l (some a)
      = ((for_each (command_list.dispatch (plain_context io)) l a).1,
         some (for_each (command_list.dispatch (plain_context io)) l a).2) := by
  induction l with
  | nil => intro a _; rfl
  | cons c rest ih =>
    intro a hp
    simp only [for_each, dispatch_some io cvt a c (hp c (List.mem_cons_self _ _)),
      ih _ (fun d hd => hp d (List.mem_cons_of_mem _ hd))]

/-- After an exception the handler loop changes nothing. -/
theorem for_each_dispatch_none {W : Type} (io : crt W) (cvt : wstring_convert)
    (l : List command) :
    for_each (command_list.dispatch (application.context io cvt)) l
        (none : Option (application W)) = (l, none) := by
  induction l with
  | nil => rfl
  | cons c rest ih =>
    have hstep : command_list.dispatch (application.context io cvt)
        (none : Option (application W)) c = (c, none) := by
      unfold command_list.dispatch
      cases c.action <;> rfl
    simp only [for_each, hstep, ih]

/-- A handler loop that no exception ends is the loop of `plain_context`. -/
theorem for_each_dispatch_of_some {W : Type} (io : crt W) (cvt : wstring_convert)
    (l : List command) : ∀ (a a1 : application W),
    (for_each (command_list.dispatch (application.context io cvt)) l (some a)).2 = some a1 →
    for_each (command_list.dispatch (application.context io cvt)) l (some a)
      = ((for_each (command_list.dispatch (plain_context io)) l a).1,
         some (for_each (command_list.dispatch (plain_context io)) l a).2) := by
  induction l with
  | nil => intro a a1 _; rfl
  | cons c rest ih =>
    intro a a1 h
    rcases dispatch_cases io cvt a c with hc | hc
    · simp only [for_each, hc, for_each_dispatch_none] at h
      cases h
    · simp only [for_each, hc] at h ⊢
      rw [ih _ a1 h]

/-- The delete loop of the run keeps the state in step as well. -/
theorem for_each_remove_some {W : Type} (io : crt W) (cvt : wstring_convert)
    (l : List command) : ∀ (a : application W),
    for_each (command_list.remove_step (application.context io cvt)) l (some a)
      = ((for_each (command_list.remove_step (plain_context io)) l a).1,
         some (for_each (command_list.remove_step (plain_context io)) l a).2) := by
  induction l with
  | nil => intro a; rfl
  | cons c rest ih =>
    intro a
    have hstep : command_list.remove_step (application.context io cvt) (some a) c
        = ((command_list.remove_step (plain_context io) a c).1,
           some (command_list.remove_step (plain_context io) a c).2) := by
      unfold command_list.remove_step
      by_cases hc : c.action = .action_remove
      · simp only [hc, if_true]; rfl
      · simp only [hc, if_false]
    simp only [for_each, hstep, ih]

/-- After an exception the loops change nothing. -/
theorem for_each_none {W : Type} (io : crt W) (cvt : wstring_convert)
    (l : List command) :
    for_each (command_list.remove_step (application.context io cvt)) l
        (none : Option (application W)) = (l, none) := by
  induction l with
  | nil => rfl
  | cons c rest ih =>
    have hstep : command_list.remove_step (application.context io cvt)
        (none : Option (application W)) c = (c, none) := by
      unfold command_list.remove_step
      by_cases hc : c.action = .action_remove
      · simp only [hc, if_true]; rfl
      · simp only [hc, if_false]
    simp only [for_each, hstep, ih]

/-- What `merge_command` returns when it does not throw: the table as it was,
or the table after one merge with its payload assignment. -/
theorem merge_command_cases (cvt : wstring_convert) (flt : filter) (m t : command_list)
    (line : std_string) (h : application.merge_command cvt flt m line = some t) :
    t = m ∨ ∃ (path : std_wstring) (data : std_string),
      t = command_list.set_data
        (command_list.merge m path (count_slash path) (filter.includes flt path)).1
        (command_list.merge m path (count_slash path) (filter.includes flt path)).2 data := by
  unfold application.merge_command at h
  by_cases h1 : line.isEmpty = true
  · simp only [h1, if_true, Option.some.injEq] at h
    exact Or.inl h.symm
  by_cases h2 : line.all isspace = true
  · simp only [h1, h2, if_true, if_false, Option.some.injEq, Bool.false_eq_true] at h
    exact Or.inl h.symm
  simp only [h1, h2, if_false, Bool.false_eq_true] at h
  cases hd : cvt.from_bytes line with
  | none => simp [hd] at h
  | some wline =>
    simp only [hd] at h
    cases hf : string_find wline COMMA with
    | none =>
      simp only [hf, Option.some.injEq] at h
      exact Or.inl h.symm
    | some colon =>
      simp only [hf] at h
      cases he : cvt.to_bytes (wline.drop (colon + 1)) with
      | none => simp [he] at h
      | some data =>
        simp only [he, Option.some.injEq] at h
        exact Or.inr ⟨wline.take colon, data, h.symm⟩

theorem merge_command_some_created (cvt : wstring_convert) (flt : filter)
    (m t : command_list) (line : std_string)
    (h : application.merge_command cvt flt m line = some t) :
    ∃ extra : List (std_wstring × Nat × command_action),
      t.map command.created = m.map command.created ++ extra ∧ extra.length ≤ 1 := by
  rcases merge_command_cases cvt flt m t line h with h1 | ⟨path, data, h1⟩
  · exact ⟨[], by simp [h1], by simp⟩
  · obtain ⟨extra, e1, e2, _⟩ := merge_assign_created m path (count_slash path)
      (filter.includes flt path) data
    exact ⟨extra, by rw [h1]; exact e1, e2⟩

theorem merge_command_some_nodup (cvt : wstring_convert) (flt : filter)
    (m t : command_list) (line : std_string)
    (h : application.merge_command cvt flt m line = some t)
    (hnd : (m.map command.path).Nodup) : (t.map command.path).Nodup := by
  rcases merge_command_cases cvt flt m t line h with h1 | ⟨path, data, h1⟩
  · rw [h1]; exact hnd
  · rw [h1]
    exact merge_assign_nodup m path (count_slash path) (filter.includes flt path) data hnd

theorem merge_csv_loop_some_nodup (cvt : wstring_convert) (flt : filter) (fuel : Nat) :
    ∀ (text : std_string) (m t : command_list),
      application.merge_csv_loop cvt flt fuel text m = some t →
      (m.map command.path).Nodup → (t.map command.path).Nodup := by
  induction fuel with
  | zero =>
    intro text m t h hnd
    simp only [application.merge_csv_loop, Option.some.injEq] at h
    rw [← h]; exact hnd
  | succ n ih =>
    intro text m t h hnd
    unfold application.merge_csv_loop at h
    cases hf : string_find text LF with
    | none =>
      simp only [hf] at h
      exact merge_command_some_nodup cvt flt m t text h hnd
    | some delim =>
      simp only [hf] at h
      cases hm : application.merge_command cvt flt m (text.take delim) with
      | none => simp [hm] at h
      | some m1 =>
        simp only [hm] at h
        have h1 := merge_command_some_nodup cvt flt m m1 _ hm hnd
        by_cases hlt : delim + 1 < text.length
        · simp only [hlt, if_true] at h
          exact ih _ m1 t h h1
        · simp only [hlt, if_false, Option.some.injEq] at h
          rw [← h]; exact h1

theorem merge_csv_some_nodup {W : Type} (io : crt W) (cvt : wstring_convert) (flt : filter)
    (w : W) (m t : command_list) (h : application.merge_csv io cvt flt w m = some t)
    (hnd : (m.map command.path).Nodup) : (t.map command.path).Nodup := by
  unfold application.merge_csv at h
  by_cases hr : (file.read io w ⟨[]⟩ templates_csv 0).1 = true
  · simp only [hr, if_true] at h
    exact merge_csv_loop_some_nodup cvt flt _ _ m t h hnd
  · simp only [hr, if_false, Option.some.injEq, Bool.false_eq_true] at h
    rw [← h]; exact hnd

theorem dispatch_context_created {W : Type} (io : crt W) (cvt : wstring_convert)
    (s : Option (application W)) (c : command) :
    (command_list.dispatch (application.context io cvt) s c).1.created = c.created := by
  cases s with
  | none =>
    unfold command_list.dispatch
    cases c.action <;> rfl
  | some a =>
    rcases dispatch_cases io cvt a c with hc | hc
    · rw [hc]
    · rw [hc]
      exact dispatch_created io a c

theorem for_each_context_created {W : Type} (io : crt W) (cvt : wstring_convert)
    (l : command_list) (s : Option (application W)) :
    (for_each (command_list.dispatch (application.context io cvt)) l s).1.map command.created
      = l.map command.created := by
  induction l generalizing s with
  | nil => rfl
  | cons c cs ih =>
    show (_ :: _).map command.created = _
    rw [List.map_cons, List.map_cons, dispatch_context_created, ih]

theorem for_each_context_remove_same {W : Type} (io : crt W) (cvt : wstring_convert)
    (l : command_list) (s : Option (application W)) :
    (for_each (command_list.remove_step (application.context io cvt)) l s).1 = l := by
  induction l generalizing s with
  | nil => rfl
  | cons c cs ih =>
    have hc : (command_list.remove_step (application.context io cvt) s c).1 = c := by
      unfold command_list.remove_step
      cases s <;> split_ifs <;> rfl
    show (_ :: _) = _
    rw [hc, ih]

/-- The handlers of `application` return each record with its path, depth and
action, whether or not the run ends in an exception. -/
theorem run_context_created {W : Type} (io : crt W) (cvt : wstring_convert)
    (m : command_list) (s : Option (application W)) :
    ((command_list.run (application.context io cvt) m s).1.map command.created).Perm
      (m.map command.created) := by
  unfold command_list.run command_list.run_handlers
  rw [for_each_context_remove_same]
  refine ((std_sort_perm command.output_order _).map command.created).trans ?_
  rw [for_each_context_created]
  exact (std_sort_perm command.execution_order m).map command.created

theorem run_context_path {W : Type} (io : crt W) (cvt : wstring_convert)
    (m : command_list) (s : Option (application W)) :
    ((command_list.run (application.context io cvt) m s).1.map command.path).Perm
      (m.map command.path) := by
  have h := (run_context_created io cvt m s).map Prod.fst
  simpa [List.map_map, Function.comp_def, command.created] using h

/-- The records of a run that ends are those of `command_list::run`. -/
theorem run_some_records {W : Type} (io : crt W) (cvt : wstring_convert) (flt : filter)
    (a : application W) (r : command_list × application W)
    (h : application.run io cvt flt a = some r) :
    ∃ t, application.merge_csv io cvt flt a.tree
        (application.enumerate_dir io flt a.tree []) = some t ∧
      r.1 = (command_list.run (application.context io cvt) t (some a)).1 := by
  unfold application.run at h
  cases hm : application.merge_csv io cvt flt a.tree
      (application.enumerate_dir io flt a.tree []) with
  | none => simp [hm] at h
  | some t =>
    simp only [hm] at h
    cases hs : (command_list.run (application.context io cvt) t (some a)).2 with
    | none => simp [hs] at h
    | some a1 =>
      simp only [hs, Option.some.injEq] at h
      exact ⟨t, rfl, by rw [← h]⟩

/-- When the conversion leaves the paths of the records as they are, the run
of `command_list::run` with the handlers of `application` does not throw and
is the run with `plain_context`. -/
theorem run_context_plain {W : Type} (io : crt W) (cvt : wstring_convert) (good : Nat → Bool)
    (hfix : ∀ s, s.all good = true → cvt.from_bytes s = some s ∧ cvt.to_bytes s = some s)
    (m : command_list) (a : application W) (h : ∀ c ∈ m, c.path.all good = true) :
    command_list.run (application.context io cvt) m (some a)
      = ((command_list.run (plain_context io) m a).1,
         some (command_list.run (plain_context io) m a).2) := by
  have hexec : ∀ c ∈ std_sort command.execution_order m, cvt.to_bytes c.path ≠ none := by
    intro c hc
    rw [(hfix c.path (h c ((std_sort_perm command.execution_order m).mem_iff.1 hc))).2]
    simp
  unfold command_list.run command_list.run_handlers
  simp only [for_each_dispatch_some io cvt _ a hexec]
  have hpaths : ∀ c ∈ std_sort command.output_order
      (for_each (command_list.dispatch (plain_context io))
        (std_sort command.execution_order m) a).1, c.path.all good = true := by
    intro c hc
    have h1 : c.path ∈ (std_sort command.output_order
        (for_each (command_list.dispatch (plain_context io))
          (std_sort command.execution_order m) a).1).map command.path :=
      List.mem_map_of_mem _ hc
    have h2 : ((std_sort command.output_order
        (for_each (command_list.dispatch (plain_context io))
          (std_sort command.execution_order m) a).1).map command.path).Perm
        (m.map command.path) := by
      refine ((std_sort_perm command.output_order _).map command.path).trans ?_
      rw [created_path _ _ (for_each_dispatch_created io _ a)]
      exact (std_sort_perm command.execution_order m).map command.path
    obtain ⟨d, hd, hp⟩ := List.mem_map.1 (h2.subset h1)
    rw [← hp]
    exact h d hd
  have hsave : (application.context io cvt).do_save_db
      (some (for_each (command_list.dispatch (plain_context io))
        (std_sort command.execution_order m) a).2)
      (std_sort command.output_order
        (for_each (command_list.dispatch (plain_context io))
          (std_sort command.execution_order m) a).1)
      = some ((plain_context io).do_save_db
        (for_each (command_list.dispatch (plain_context io))
          (std_sort command.execution_order m) a).2
        (std_sort command.output_order
          (for_each (command_list.dispatch (plain_context io))
            (std_sort command.execution_order m) a).1)) :=
    do_save_db_plain io cvt good hfix _ _ hpaths
  rw [hsave, for_each_remove_some]

/-- When the conversion leaves the text of the database and the paths of the
table as they are, the run does not throw and is `plain_run`. -/
theorem run_plain {W : Type} (io : crt W) (cvt : wstring_convert) (good : Nat → Bool)
    (hfix : ∀ s, s.all good = true → cvt.from_bytes s = some s ∧ cvt.to_bytes s = some s)
    (flt : filter) (a : application W)
    (hdb : (file.read io a.tree ⟨[]⟩ templates_csv 0).2.data.all good = true)
    (hpaths : ∀ c ∈ plain_merge_csv io flt a.tree (application.enumerate_dir io flt a.tree []),
      c.path.all good = true) :
    application.run io cvt flt a = some (plain_run io flt a) := by
  unfold application.run plain_run
  simp only [merge_csv_plain io cvt good hfix flt a.tree _ hdb,
    run_context_plain io cvt good hfix _ a hpaths]

/-! ### Runs on trees in ASCII -/

theorem is_ascii_iff (s : List Nat) : is_ascii s = true ↔ ∀ b ∈ s, b < 128 := by
  simp [is_ascii, List.all_eq_true]

theorem split_lines_subset (text : std_string) :
    ∀ line ∈ split_lines text, ∀ b ∈ line, b ∈ text := by
  induction text with
  | nil =>
    intro line hl b hb
    simp only [split_lines, List.mem_singleton] at hl
    rw [hl] at hb
    exact hb
  | cons c rest ih =>
    intro line hl b hb
    unfold split_lines at hl
    by_cases hc : c = LF
    · simp only [hc, if_true, List.mem_cons] at hl
      rcases hl with hl | hl
      · rw [hl] at hb; cases hb
      · exact List.mem_cons_of_mem _ (ih line hl b hb)
    · simp only [hc, if_false] at hl
      cases hs : split_lines rest with
      | nil => exact absurd hs (split_lines_ne_nil rest)
      | cons l ls =>
        simp only [hs, List.mem_cons] at hl
        rcases hl with hl | hl
        · rw [hl, List.mem_cons] at hb
          rcases hb with hb | hb
          · rw [hb]; exact List.mem_cons_self _ _
          · exact List.mem_cons_of_mem _ (ih l (by rw [hs]; exact List.mem_cons_self _ _) b hb)
        · exact List.mem_cons_of_mem _
            (ih line (by rw [hs]; exact List.mem_cons_of_mem _ hl) b hb)

theorem db_entries_subset (text : std_string) (e : std_wstring × std_string)
    (h : e ∈ db_entries text) : (∀ b ∈ e.1, b ∈ text) ∧ (∀ b ∈ e.2, b ∈ text) := by
  unfold db_entries at h
  obtain ⟨line, hl, hp⟩ := List.mem_filterMap.1 h
  obtain ⟨_, hline⟩ := parse_line_some line e hp
  have hsub := split_lines_subset text line hl
  constructor
  · intro b hb
    exact hsub b (by rw [hline]; exact List.mem_append_left _ hb)
  · intro b hb
    exact hsub b (by rw [hline]; exact List.mem_append_right _ (List.mem_cons_of_mem _ hb))

theorem ascii_tree_db (w : file_map) (h : ascii_tree w = true) (text : std_string)
    (hf : file_map.find w templates_csv = some (some text)) : is_ascii text = true := by
  unfold ascii_tree at h
  rw [hf] at h
  simp only [Bool.and_eq_true] at h
  exact h.1

theorem ascii_tree_templates (w : file_map) (h : ascii_tree w = true) (p : std_wstring)
    (hp : p ∈ templates w) : is_ascii p = true := by
  unfold ascii_tree at h
  simp only [Bool.and_eq_true, List.all_eq_true] at h
  exact h.2 p hp

theorem ascii_contents_file (w : file_map) (h : ascii_contents w = true) (p : std_wstring)
    (hp : p ∈ templates w) (content : std_string)
    (hf : file_map.find w p = some (some content)) : is_ascii content = true := by
  unfold ascii_contents at h
  simp only [List.all_eq_true] at h
  have := h p hp
  rw [hf] at this
  exact this

theorem read_csv_ascii (w : file_map) (h : ascii_tree w = true) :
    is_ascii (file.read map_crt w ⟨[]⟩ templates_csv 0).2.data = true := by
  rw [read_map]
  cases hf : file_map.find w templates_csv with
  | none => rfl
  | some o =>
    cases o with
    | none => rfl
    | some text => exact ascii_tree_db w h text hf

theorem stored_entries_ascii (w : file_map) (h : ascii_tree w = true)
    (e : std_wstring × std_string) (he : e ∈ stored_entries w) :
    is_ascii e.1 = true ∧ is_ascii e.2 = true := by
  unfold stored_entries at he
  cases hf : file_map.find w templates_csv with
  | none => simp [hf] at he
  | some o =>
    cases o with
    | none => simp [hf] at he
    | some text =>
      simp only [hf] at he
      have ht := (is_ascii_iff text).1 (ascii_tree_db w h text hf)
      obtain ⟨h1, h2⟩ := db_entries_subset text e he
      exact ⟨(is_ascii_iff _).2 (fun b hb => ht b (h1 b hb)),
        (is_ascii_iff _).2 (fun b hb => ht b (h2 b hb))⟩

/-- On a tree in ASCII every record of the table has a path and a payload in
ASCII. -/
theorem table_ascii (flt : filter) (w : file_map) (h : ascii_tree w = true)
    (m : command_list) (hok : table_ok flt (templates w) (stored_entries w) m)
    (c : command) (hc : c ∈ m) : is_ascii c.path = true ∧ is_ascii c.data = true := by
  obtain ⟨_, _, hrec⟩ := hok
  obtain ⟨_, hin, hout, _, hnl⟩ := hrec c hc
  have hdata : is_ascii c.data = true := by
    by_cases hd : c.path ∈ (stored_entries w).map Prod.fst
    · exact (stored_entries_ascii w h _ (hin hd)).2
    · rw [hout hd]; rfl
  refine ⟨?_, hdata⟩
  by_cases hl : c.path ∈ templates w
  · exact ascii_tree_templates w h _ hl
  · obtain ⟨e, he, hp⟩ := List.mem_map.1 (hnl hl).1
    rw [← hp]
    exact (stored_entries_ascii w h e he).1

/-- On a tree in ASCII the run does not throw and is `plain_run`, for every
conversion that leaves ASCII as it is. -/
theorem run_ascii (cvt : wstring_convert) (hcvt : ascii_identity cvt) (flt : filter)
    (st : stats) (w : file_map) (h : ascii_tree w = true) :
    application.run map_crt cvt flt ⟨st, w⟩ = some (plain_run map_crt flt ⟨st, w⟩) := by
  apply run_plain map_crt cvt (fun c => decide (c < 128)) hcvt flt ⟨st, w⟩
  · exact read_csv_ascii w h
  · intro c hc
    exact (table_ascii flt w h _ (passes_table_ok flt w) c hc).1

theorem strip_crlf_ascii (s : std_string) (h : is_ascii s = true) :
    is_ascii (strip_crlf s) = true := by
  rw [is_ascii_iff] at h ⊢
  intro b hb
  exact h b (List.mem_filter.1 hb).1

theorem handled_ascii (w : file_map) (hc : ascii_contents w = true) (c : command)
    (hp : c.action = .action_pack ∨ c.action = .action_remove → c.path ∈ templates w)
    (hd : is_ascii c.data = true) : is_ascii (handled w c).data = true := by
  unfold handled
  by_cases ha : c.action = .action_pack ∨ c.action = .action_remove
  · simp only [ha, if_true]
    cases hf : file_map.find w c.path with
    | none => exact hd
    | some o =>
      cases o with
      | none => exact hd
      | some content =>
        exact strip_crlf_ascii _ (ascii_contents_file w hc c.path (hp ha) content hf)
  · simp only [ha, if_false]
    exact hd

theorem plain_db_text_ascii (cmds : List command)
    (h : ∀ c ∈ cmds, is_ascii c.path = true ∧ is_ascii c.data = true) :
    is_ascii (plain_db_text cmds) = true := by
  rw [is_ascii_iff]
  intro b hb
  unfold plain_db_text at hb
  obtain ⟨line, hl, hbl⟩ := List.mem_flatten.1 hb
  obtain ⟨c, hc, hline⟩ := List.mem_map.1 hl
  obtain ⟨h1, h2⟩ := h c hc
  rw [is_ascii_iff] at h1 h2
  rw [← hline] at hbl
  unfold plain_db_line at hbl
  simp only [List.mem_append, List.mem_singleton] at hbl
  rcases hbl with ((hb1 | hb1) | hb1) | hb1
  · exact h1 b hb1
  · rw [hb1]; decide
  · exact h2 b hb1
  · rw [hb1]; decide

/-- The records that a run on a tree in ASCII saves are in ASCII. -/
theorem run_records_ascii (flt : filter) (st : stats) (w : file_map)
    (h : ascii_tree w = true) (hc : ascii_contents w = true) (c : command)
    (hmem : c ∈ (plain_run map_crt flt ⟨st, w⟩).1) :
    is_ascii c.path = true ∧ is_ascii c.data = true := by
  have hok := passes_table_ok flt w
  rw [run_eq] at hmem
  obtain ⟨c0, hc0, rfl⟩ := (mem_run_map _ (⟨st, w⟩ : application file_map) hok.1 c).1 hmem
  obtain ⟨h1, h2⟩ := table_ascii flt w h _ hok c0 hc0
  rw [handled_path]
  refine ⟨h1, handled_ascii w hc c0 ?_ h2⟩
  intro ha
  by_contra hl
  have hact := (hok.2.2 c0 hc0).2.2.2.2 hl
  rcases ha with ha | ha <;> rw [ha] at hact <;> have hact := hact.2 <;> split_ifs at hact

/-- A run on a tree in ASCII whose files are in ASCII leaves a tree in
ASCII. -/
theorem run_tree_ascii (flt : filter) (st : stats) (w : file_map)
    (h : ascii_tree w = true) (hc : ascii_contents w = true) :
    ascii_tree (plain_run map_crt flt ⟨st, w⟩).2.tree = true := by
  have hok := passes_table_ok flt w
  have hdb : file_map.find (plain_run map_crt flt ⟨st, w⟩).2.tree templates_csv =
      some (some (plain_db_text (plain_run map_crt flt ⟨st, w⟩).1)) := by
    rw [run_eq]
    apply tree_after_db _ _ hok.1
    intro c hc2 ha
    exact template_ne_csv w c.path
      ((mem_templates _ _).1 (remove_is_template flt w _ _ hok c hc2 ha)).2
  unfold ascii_tree
  rw [hdb]
  simp only [Bool.and_eq_true, List.all_eq_true]
  refine ⟨plain_db_text_ascii _ (fun c hc2 => run_records_ascii flt st w h hc c hc2), ?_⟩
  intro p hp
  rw [run_eq] at hp
  obtain ⟨c0, hc0, hpath⟩ := templates_after flt ⟨st, w⟩ _ hok p hp
  rw [← hpath]
  exact (table_ascii flt w h _ hok c0 hc0).1

/-- Two runs in a row on a tree in ASCII whose files are in ASCII do not throw
and are two runs of `plain_run`. -/
theorem run_twice_ascii (cvt : wstring_convert) (hcvt : ascii_identity cvt) (flt : filter)
    (st st2 : stats) (w : file_map) (h : ascii_tree w = true)
    (hc : ascii_contents w = true) :
    application.run_twice map_crt cvt flt ⟨st, w⟩ st2 =
      some (plain_run map_crt flt ⟨st2, (plain_run map_crt flt ⟨st, w⟩).2.tree⟩) := by
  unfold application.run_twice
  rw [run_ascii cvt hcvt flt st w h]
  exact run_ascii cvt hcvt flt st2 _ (run_tree_ascii flt st w h hc)

/-! ### The database pass with the conversion -/

/-- The effect of `merge_command` on a line that is not blank and that the
conversion decodes to `path,rest`: the merge of `path` and the assignment of
the encoding of `rest`. -/
theorem merge_command_decoded (cvt : wstring_convert) (flt : filter) (m : command_list)
    (cline : std_string) (path rest : std_wstring) (payload : std_string)
    (hne : cline ≠ []) (hsp : cline.all isspace = false)
    (hdec : cvt.from_bytes cline = some (path ++ COMMA :: rest)) (hcomma : COMMA ∉ path)
    (henc : cvt.to_bytes rest = some payload) :
    application.merge_command cvt flt m cline = some (apply_entry flt m (path, payload)) := by
  have hne2 : cline.isEmpty = false := by
    cases cline with
    | nil => exact absurd rfl hne
    | cons _ _ => rfl
  have htake : (path ++ COMMA :: rest).take path.length = path := by simp
  have hdrop : (path ++ COMMA :: rest).drop (path.length + 1) = rest := by
    rw [← List.drop_drop]
    simp
  unfold application.merge_command apply_entry
  simp only [hne2, hsp, hdec, string_find_append COMMA path rest hcomma, htake, hdrop, henc,
    Bool.false_eq_true, if_false]

/-- A line `path,payload` in ASCII is not blank. -/
theorem entry_line_not_blank (path payload : List Nat) :
    path ++ COMMA :: payload ≠ [] ∧ (path ++ COMMA :: payload).all isspace = false := by
  constructor
  · cases path <;> simp
  · rw [List.all_eq_false]
    exact ⟨COMMA, by simp, by decide⟩

/-- The effect of `merge_command` on a line `path,payload` in ASCII, for a
conversion that leaves ASCII as it is. -/
theorem merge_command_ascii (cvt : wstring_convert) (hcvt : ascii_identity cvt)
    (flt : filter) (m : command_list) (path : std_wstring) (payload : std_string)
    (hascii : is_ascii (path ++ COMMA :: payload) = true) (hcomma : COMMA ∉ path) :
    application.merge_command cvt flt m (path ++ COMMA :: payload)
      = some (apply_entry flt m (path, payload)) := by
  have hp : is_ascii payload = true := by
    rw [is_ascii_iff] at hascii ⊢
    exact fun b hb => hascii b (List.mem_append_right _ (List.mem_cons_of_mem _ hb))
  exact merge_command_decoded cvt flt m _ path payload payload
    (entry_line_not_blank path payload).1 (entry_line_not_blank path payload).2
    (hcvt _ hascii).1 hcomma (hcvt _ hp).2

theorem apply_entry_new (flt : filter) (m : command_list) (path : std_wstring)
    (payload : std_string) (hnew : ∀ c ∈ m, c.path ≠ path) :
    apply_entry flt m (path, payload) =
      m ++ [⟨path, path.count SLASH,
        if filter.includes flt path then .action_unpack else .action_none, payload⟩] := by
  rw [apply_entry_eq, (find_none_iff m path).2 hnew]
  simp only [stored_record, count_slash_eq_count]

/-- C2, as the code has it: on a line that is not blank and that the
conversion decodes to `path,rest`, where the path already has a record,
`merge_command` adds no record and changes only the payload of the first
record with that path, which becomes the stored payload, the encoding of
`rest`. -/
theorem merge_command_existing_record (cvt : wstring_convert) (m_filter : filter)
    (m : command_list) (cline : std_string) (path rest : std_wstring) (payload : std_string)
    (i : Nat) (hne : cline ≠ []) (hsp : cline.all isspace = false)
    (hdec : cvt.from_bytes cline = some (path ++ COMMA :: rest)) (hcomma : COMMA ∉ path)
    (henc : cvt.to_bytes rest = some payload)
    (hfind : command_list.find m path = some i) :
    ∃ c, m[i]? = some c ∧ c.path = path ∧
      application.merge_command cvt m_filter m cline =
        some (m.set i { c with data := payload }) := by
  obtain ⟨c, hc, hp⟩ := find_some_get m path i hfind
  refine ⟨c, hc, hp, ?_⟩
  rw [merge_command_decoded cvt m_filter m cline path rest payload hne hsp hdec hcomma henc,
    apply_entry_eq]
  simp only [hfind]
  rw [set_data_eq_set m i payload c hc]

/-- C2, witness: the record of `a.txt` receives the stored payload `OLD`. -/
theorem merge_command_existing_record_witness :
    ∃ c, [(⟨lit "a.txt", 0, .action_pack, []⟩ : command)][0]? = some c ∧ c.path = lit "a.txt" ∧
      application.merge_command utf_converter [] [⟨lit "a.txt", 0, .action_pack, []⟩]
          (lit "a.txt,OLD") =
        some ([(⟨lit "a.txt", 0, .action_pack, []⟩ : command)].set 0
          { c with data := lit "OLD" }) :=
  merge_command_existing_record utf_converter [] [⟨lit "a.txt", 0, .action_pack, []⟩]
    (lit "a.txt,OLD") (lit "a.txt") (lit "OLD") (lit "OLD") 0 (by decide) (by decide)
    (by decide) (by decide) (by decide) (by decide)

/-- C2, counterexample: the record that the filesystem pass made for `a.txt`
has an empty payload before the database line `a.txt,OLD` is merged and the
payload `OLD` after it. -/
theorem merge_command_changes_payload :
    application.merge_command utf_converter [] (command_list.add [] (lit "a.txt") 0 true)
        (lit "a.txt,OLD") = some [⟨lit "a.txt", 0, .action_pack, lit "OLD"⟩] ∧
      (command_list.add [] (lit "a.txt") 0 true).map command.data = [[]] ∧
      lit "OLD" ≠ [] := by
  decide

/-- A record that `merge_command` creates: the line decodes to `path,rest`,
the path had no record, and the record is the last of the table. -/
theorem merge_command_creates (cvt : wstring_convert) (flt : filter) (m t : command_list)
    (cline : std_string) (h : application.merge_command cvt flt m cline = some t)
    (hlen : t.length = m.length + 1) :
    ∃ (path rest : std_wstring) (payload : std_string),
      cvt.from_bytes cline = some (path ++ COMMA :: rest) ∧ COMMA ∉ path ∧
      cvt.to_bytes rest = some payload ∧ (∀ c ∈ m, c.path ≠ path) ∧
      t = m ++ [⟨path, path.count SLASH,
        if filter.includes flt path then .action_unpack else .action_none, payload⟩] := by
  have hsame : t = m → False := by
    intro e
    rw [e] at hlen
    omega
  unfold application.merge_command at h
  by_cases h1 : cline.isEmpty = true
  · simp only [h1, if_true, Option.some.injEq] at h
    exact absurd h.symm hsame
  by_cases h2 : cline.all isspace = true
  · simp only [h1, h2, if_true, if_false, Option.some.injEq, Bool.false_eq_true] at h
    exact absurd h.symm hsame
  simp only [h1, h2, if_false, Bool.false_eq_true] at h
  cases hd : cvt.from_bytes cline with
  | none => simp [hd] at h
  | some wline =>
    simp only [hd] at h
    cases hf : string_find wline COMMA with
    | none =>
      simp only [hf, Option.some.injEq] at h
      exact absurd h.symm hsame
    | some colon =>
      simp only [hf] at h
      obtain ⟨hc1, hc2⟩ := string_find_some COMMA wline colon hf
      cases he : cvt.to_bytes (wline.drop (colon + 1)) with
      | none => simp [he] at h
      | some data =>
        simp only [he, Option.some.injEq] at h
        have hentry : t = apply_entry flt m (wline.take colon, data) := h.symm
        cases hfind : command_list.find m (wline.take colon) with
        | some i =>
          exfalso
          rw [apply_entry_eq] at hentry
          simp only [hfind] at hentry
          have hl := congrArg List.length (set_data_created m i data)
          rw [List.length_map, List.length_map] at hl
          rw [hentry, hl] at hlen
          omega
        | none =>
          have hnew := (find_none_iff m (wline.take colon)).1 hfind
          refine ⟨wline.take colon, wline.drop (colon + 1), data, ?_, hc1, he, hnew, ?_⟩
          · rw [← hc2]
          · rw [hentry, apply_entry_new flt m _ data hnew]

/-- C3: the filesystem pass adds, for each file that it finds with a name in
`.txt`, a record with action Pack if the filter includes the path and Remove
otherwise; on a line that is not blank and that the conversion decodes to
`path,rest`, where the path has no record yet, the database pass adds a record
with action Unpack if the filter includes the path and Ignore otherwise, with
as depth the number of `'/'` in the path and with the stored payload, the
encoding of `rest`; every record that the database pass creates is made in
this way; and on a line `path,payload` in ASCII the path and the payload are
the bytes before the first comma and the bytes after it. -/
theorem action_classification :
    (∀ (m : command_list) (path : std_wstring) (depth : Nat) (included : Bool),
      command_list.add m path depth included =
        m ++ [⟨path, depth, if included then .action_pack else .action_remove, []⟩]) ∧
    (∀ (W : Type) (io : crt W) (m_filter : filter) (w : W) (m : command_list),
      application.enumerate_dir io m_filter w m =
        m ++ ((io.find_files w).filter (fun e => is_txt e.2.1)).map
          (fun e => ⟨e.1 ++ e.2.1, e.2.2,
            if filter.includes m_filter (e.1 ++ e.2.1) then .action_pack else .action_remove,
            []⟩)) ∧
    (∀ (cvt : wstring_convert) (m_filter : filter) (m : command_list) (cline : std_string)
        (path rest : std_wstring) (payload : std_string),
      cline ≠ [] → cline.all isspace = false →
      cvt.from_bytes cline = some (path ++ COMMA :: rest) → COMMA ∉ path →
      cvt.to_bytes rest = some payload → (∀ c ∈ m, c.path ≠ path) →
      application.merge_command cvt m_filter m cline =
        some (m ++ [⟨path, path.count SLASH,
               if filter.includes m_filter path then .action_unpack else .action_none,
               payload⟩])) ∧
    (∀ (cvt : wstring_convert) (m_filter : filter) (m t : command_list) (cline : std_string),
      application.merge_command cvt m_filter m cline = some t →
      t.length = m.length + 1 →
      ∃ (path rest : std_wstring) (payload : std_string),
        cvt.from_bytes cline = some (path ++ COMMA :: rest) ∧ COMMA ∉ path ∧
        cvt.to_bytes rest = some payload ∧ (∀ c ∈ m, c.path ≠ path) ∧
        t = m ++ [⟨path, path.count SLASH,
          if filter.includes m_filter path then .action_unpack else .action_none,
          payload⟩]) ∧
    (∀ (cvt : wstring_convert) (m_filter : filter) (m : command_list) (path : std_wstring)
        (payload : std_string),
      ascii_identity cvt → is_ascii (path ++ COMMA :: payload) = true →
      COMMA ∉ path → (∀ c ∈ m, c.path ≠ path) →
      application.merge_command cvt m_filter m (path ++ COMMA :: payload) =
        some (m ++ [⟨path, path.count SLASH,
               if filter.includes m_filter path then .action_unpack else .action_none,
               payload⟩])) := by
  refine ⟨fun _ _ _ _ => rfl, ?_, ?_, merge_command_creates, ?_⟩
  · intro W io m_filter w m
    exact enumerate_dir_eq io m_filter w m
  · intro cvt m_filter m cline path rest payload hne hsp hdec hcomma henc hnew
    rw [merge_command_decoded cvt m_filter m cline path rest payload hne hsp hdec hcomma henc,
      apply_entry_new m_filter m path payload hnew]
  · intro cvt m_filter m path payload hcvt hascii hcomma hnew
    rw [merge_command_ascii cvt hcvt m_filter m path payload hascii hcomma,
      apply_entry_new m_filter m path payload hnew]

/-- C3, witness: the line of bytes `C3 A9 2E 74 78 74 2C 78`, UTF-8 for
`é.txt,x`, with the one rule that excludes `.\.txt`: the path of the record
is the five code units `é.txt`, which the rule matches, so the record is an
Ignore record, of depth zero, that carries `x`. -/
theorem action_classification_witness :
    application.merge_command utf_converter
        (filter.exclude wregex_model [] (lit ".\\.txt")).2 []
        [195, 169, 46, 116, 120, 116, 44, 120] =
      some ([] ++ [⟨[233, 46, 116, 120, 116], 0, .action_none, lit "x"⟩]) :=
  action_classification.2.2.1 utf_converter
    (filter.exclude wregex_model [] (lit ".\\.txt")).2 []
    [195, 169, 46, 116, 120, 116, 44, 120] [233, 46, 116, 120, 116] (lit "x") (lit "x")
    (by decide) (by decide) (by decide) (by decide) (by decide) (by decide)

/-- The loop of `merge_csv` hands the lines to `merge_command` in order and
stops at the first that throws. -/
theorem merge_csv_loop_foldlM (cvt : wstring_convert) (flt : filter) (fuel : Nat)
    (text : std_string) (m : command_list) (hfuel : text.length < fuel) :
    application.merge_csv_loop cvt flt fuel text m =
      (split_lines text).foldlM (fun t line => application.merge_command cvt flt t line) m := by
  induction fuel generalizing text m with
  | zero => omega
  | succ fuel ih =>
    unfold application.merge_csv_loop
    cases hf : string_find text LF with
    | none =>
      rw [split_lines_no_lf text ((string_find_none LF text).1 hf)]
      simp only [List.foldlM_cons, List.foldlM_nil]
      cases application.merge_command cvt flt m text <;> rfl
    | some delim =>
      obtain ⟨h1, h2⟩ := string_find_some LF text delim hf
      have hsplit : split_lines text =
          text.take delim :: split_lines (text.drop (delim + 1)) := by
        conv_lhs => rw [h2]
        exact split_lines_append _ _ h1
      rw [hsplit, List.foldlM_cons]
      cases hm : application.merge_command cvt flt m (text.take delim) with
      | none => simp only [hm]; rfl
      | some m1 =>
        simp only [hm, Option.some_bind, Option.bind_eq_bind]
        by_cases hlt : delim + 1 < text.length
        · simp only [hlt, if_true]
          apply ih
          rw [List.length_drop]
          omega
        · simp only [hlt, if_false]
          have hnil : text.drop (delim + 1) = [] := List.drop_eq_nil_of_le (by omega)
          rw [hnil]
          rfl

/-- C12, as the code has it: `merge_csv` reads the database text as its
pieces between line feeds, in order, and hands each to `merge_command` until
one throws, and it leaves the table alone when the file cannot be read;
`merge_command` skips a line that is empty or holds only white space; any
other line goes through the conversion, which ends the run when it throws; a
decoded line with no comma is skipped; a decoded line `path,rest` with no
comma in `path` is merged under `path` with the encoding of `rest`, further
commas included, as its payload, unless that conversion throws; and on a line
`path,payload` in ASCII the path and the payload are the bytes before and
after the first comma. -/
theorem database_line_parsing :
    (∀ (W : Type) (io : crt W) (cvt : wstring_convert) (m_filter : filter) (w : W)
        (m : command_list) (text : std_string),
      file.read io w ⟨[]⟩ templates_csv 0 = (true, ⟨text⟩) →
      application.merge_csv io cvt m_filter w m =
        (text.splitOn LF).foldlM
          (fun t line => application.merge_command cvt m_filter t line) m) ∧
    (∀ (W : Type) (io : crt W) (cvt : wstring_convert) (m_filter : filter) (w : W)
        (m : command_list),
      (file.read io w ⟨[]⟩ templates_csv 0).1 = false →
      application.merge_csv io cvt m_filter w m = some m) ∧
    (∀ (cvt : wstring_convert) (m_filter : filter) (m : command_list) (line : std_string),
      line = [] ∨ line.all isspace = true →
      application.merge_command cvt m_filter m line = some m) ∧
    (∀ (cvt : wstring_convert) (m_filter : filter) (m : command_list) (line : std_string),
      line ≠ [] → line.all isspace = false → cvt.from_bytes line = none →
      application.merge_command cvt m_filter m line = none) ∧
    (∀ (cvt : wstring_convert) (m_filter : filter) (m : command_list) (line : std_string)
        (wline : std_wstring),
      line ≠ [] → line.all isspace = false → cvt.from_bytes line = some wline →
      COMMA ∉ wline → application.merge_command cvt m_filter m line = some m) ∧
    (∀ (cvt : wstring_convert) (m_filter : filter) (m : command_list) (line : std_string)
        (path rest : std_wstring),
      line ≠ [] → line.all isspace = false →
      cvt.from_bytes line = some (path ++ COMMA :: rest) → COMMA ∉ path →
      (cvt.to_bytes rest = none → application.merge_command cvt m_filter m line = none) ∧
      (∀ payload, cvt.to_bytes rest = some payload →
        application.merge_command cvt m_filter m line =
          some (command_list.set_data
            (command_list.merge m path (count_slash path)
              (filter.includes m_filter path)).1
            (command_list.merge m path (count_slash path)
              (filter.includes m_filter path)).2
            payload))) ∧
    (∀ wline : std_wstring, COMMA ∈ wline →
      ∃ path rest, COMMA ∉ path ∧ wline = path ++ COMMA :: rest) ∧
    (∀ (cvt : wstring_convert) (m_filter : filter) (m : command_list) (path : std_wstring)
        (payload : std_string),
      ascii_identity cvt → is_ascii (path ++ COMMA :: payload) = true → COMMA ∉ path →
      application.merge_command cvt m_filter m (path ++ COMMA :: payload) =
        some (command_list.set_data
          (command_list.merge m path (count_slash path) (filter.includes m_filter path)).1
          (command_list.merge m path (count_slash path) (filter.includes m_filter path)).2
          payload)) := by
  have hempty : ∀ line : std_string, line ≠ [] → line.isEmpty = false := by
    intro line h
    cases line with
    | nil => exact absurd rfl h
    | cons _ _ => rfl
  refine ⟨?_, ?_, ?_, ?_, ?_, ?_, ?_, ?_⟩
  · intro W io cvt m_filter w m text h
    unfold application.merge_csv
    rw [h]
    simp only [if_true]
    rw [merge_csv_loop_foldlM cvt m_filter _ text m (by omega), split_lines_eq_splitOn]
  · intro W io cvt m_filter w m h
    unfold application.merge_csv
    simp [h]
  · intro cvt m_filter m line h
    unfold application.merge_command
    rcases h with h | h
    · simp [h]
    · simp [h]
  · intro cvt m_filter m line hne hsp hdec
    unfold application.merge_command
    simp only [hempty line hne, hsp, hdec, Bool.false_eq_true, if_false]
  · intro cvt m_filter m line wline hne hsp hdec hcomma
    unfold application.merge_command
    simp only [hempty line hne, hsp, hdec, (string_find_none COMMA wline).2 hcomma,
      Bool.false_eq_true, if_false]
  · intro cvt m_filter m line path rest hne hsp hdec hcomma
    have htake : (path ++ COMMA :: rest).take path.length = path := by simp
    have hdrop : (path ++ COMMA :: rest).drop (path.length + 1) = rest := by
      rw [← List.drop_drop]
      simp
    constructor
    · intro henc
      unfold application.merge_command
      simp only [hempty line hne, hsp, hdec, string_find_append COMMA path rest hcomma,
        htake, hdrop, henc, Bool.false_eq_true, if_false]
    · intro payload henc
      rw [merge_command_decoded cvt m_filter m line path rest payload hne hsp hdec hcomma henc]
      rfl
  · intro wline h
    cases hf : string_find wline COMMA with
    | none => exact absurd h ((string_find_none COMMA wline).1 hf)
    | some n =>
      obtain ⟨h1, h2⟩ := string_find_some COMMA wline n hf
      exact ⟨wline.take n, wline.drop (n + 1), h1, h2⟩
  · intro cvt m_filter m path payload hcvt hascii hcomma
    rw [merge_command_ascii cvt hcvt m_filter m path payload hascii hcomma]
    rfl

/-- C12, witness: the line `a.txt,x,y` has the path `a.txt` and the payload
`x,y`. -/
theorem database_line_parsing_witness :
    application.merge_command utf_converter [] [] (lit "a.txt" ++ COMMA :: lit "x,y") =
      some (command_list.set_data
        (command_list.merge [] (lit "a.txt") (count_slash (lit "a.txt"))
          (filter.includes [] (lit "a.txt"))).1
        (command_list.merge [] (lit "a.txt") (count_slash (lit "a.txt"))
          (filter.includes [] (lit "a.txt"))).2
        (lit "x,y")) :=
  database_line_parsing.2.2.2.2.2.2.2 utf_converter [] [] (lit "a.txt") (lit "x,y")
    utf_converter_ascii (by decide) (by decide)

/-- C12, counterexample: the line of bytes `FF 2E 74 78 74 2C 78` is not
empty, is not white space and has a comma, but it is not UTF-8: the
conversion throws, `merge_command` makes no entry of it, and a run on a
database that holds this line ends in the exception. -/
theorem database_line_not_utf8 :
    ([255, 46, 116, 120, 116, 44, 120] : std_string) ≠ [] ∧
    ([255, 46, 116, 120, 116, 44, 120] : std_string).all isspace = false ∧
    COMMA ∈ ([255, 46, 116, 120, 116, 44, 120] : std_string) ∧
    application.merge_command utf_converter [] [] [255, 46, 116, 120, 116, 44, 120] = none ∧
    application.merge_csv map_crt utf_converter []
      [(templates_csv, some [255, 46, 116, 120, 116, 44, 120, 10])] [] = none ∧
    (application.run map_crt utf_converter []
      ⟨stats.zero, [(templates_csv, some [255, 46, 116, 120, 116, 44, 120, 10])]⟩).isNone
        = true := by
  decide

/-! ### Conversions that never throw -/

theorem merge_command_total (cvt : wstring_convert) (hfrom : ∀ s, cvt.from_bytes s ≠ none)
    (hto : ∀ s, cvt.to_bytes s ≠ none) (flt : filter) (m : command_list) (line : std_string) :
    application.merge_command cvt flt m line ≠ none := by
  unfold application.merge_command
  by_cases h1 : line.isEmpty = true
  · simp [h1]
  by_cases h2 : line.all isspace = true
  · simp [h1, h2]
  simp only [h1, h2, if_false, Bool.false_eq_true]
  cases hd : cvt.from_bytes line with
  | none => exact absurd hd (hfrom line)
  | some wline =>
    cases hf : string_find wline COMMA with
    | none => simp [hf]
    | some colon =>
      cases he : cvt.to_bytes (wline.drop (colon + 1)) with
      | none => exact absurd he (hto _)
      | some data => simp [hf, he]

theorem merge_csv_loop_total (cvt : wstring_convert) (hfrom : ∀ s, cvt.from_bytes s ≠ none)
    (hto : ∀ s, cvt.to_bytes s ≠ none) (flt : filter) (fuel : Nat) :
    ∀ (text : std_string) (m : command_list),
      application.merge_csv_loop cvt flt fuel text m ≠ none := by
  induction fuel with
  | zero => intro text m; simp [application.merge_csv_loop]
  | succ n ih =>
    intro text m
    unfold application.merge_csv_loop
    cases hf : string_find text LF with
    | none => exact merge_command_total cvt hfrom hto flt m text
    | some delim =>
      cases hm : application.merge_command cvt flt m (text.take delim) with
      | none => exact absurd hm (merge_command_total cvt hfrom hto flt m _)
      | some m1 =>
        simp only [hm]
        by_cases hlt : delim + 1 < text.length
        · simp only [hlt, if_true]
          exact ih _ m1
        · simp [hlt]

theorem merge_csv_total {W : Type} (io : crt W) (cvt : wstring_convert)
    (hfrom : ∀ s, cvt.from_bytes s ≠ none) (hto : ∀ s, cvt.to_bytes s ≠ none)
    (flt : filter) (w : W) (m : command_list) :
    application.merge_csv io cvt flt w m ≠ none := by
  unfold application.merge_csv
  by_cases hr : (file.read io w ⟨[]⟩ templates_csv 0).1 = true
  · simp only [hr, if_true]
    exact merge_csv_loop_total cvt hfrom hto flt _ _ m
  · simp [hr]

theorem db_text_total (cvt : wstring_convert) (hto : ∀ s, cvt.to_bytes s ≠ none)
    (cmds : List command) : db_text cvt cmds ≠ none := by
  induction cmds with
  | nil => simp [db_text]
  | cons c rest ih =>
    unfold db_text db_line
    cases hc : cvt.to_bytes c.path with
    | none => exact absurd hc (hto _)
    | some p =>
      cases hr : db_text cvt rest with
      | none => exact absurd hr ih
      | some t => simp

theorem do_save_db_total {W : Type} (io : crt W) (cvt : wstring_convert)
    (hto : ∀ s, cvt.to_bytes s ≠ none) (a : application W) (cmds : List command) :
    application.do_save_db io cvt a cmds ≠ none := by
  unfold application.do_save_db
  cases ht : db_text cvt cmds with
  | none => exact absurd ht (db_text_total cvt hto cmds)
  | some text =>
    cases hw : io.fopen_wb a.tree templates_csv text <;> simp [hw]

theorem run_context_total {W : Type} (io : crt W) (cvt : wstring_convert)
    (hto : ∀ s, cvt.to_bytes s ≠ none) (m : command_list) (a : application W) :
    (command_list.run (application.context io cvt) m (some a)).2 ≠ none := by
  unfold command_list.run command_list.run_handlers
  simp only [for_each_dispatch_some io cvt _ a (fun c _ => hto c.path)]
  cases hs : (application.context io cvt).do_save_db
      (some (for_each (command_list.dispatch (plain_context io))
        (std_sort command.execution_order m) a).2)
      (std_sort command.output_order
        (for_each (command_list.dispatch (plain_context io))
          (std_sort command.execution_order m) a).1) with
  | none => exact absurd hs (do_save_db_total io cvt hto _ _)
  | some a1 =>
    rw [for_each_remove_some]
    simp

/-- With a conversion that never throws, the run ends without an exception. -/
theorem run_total {W : Type} (io : crt W) (cvt : wstring_convert)
    (hfrom : ∀ s, cvt.from_bytes s ≠ none) (hto : ∀ s, cvt.to_bytes s ≠ none)
    (flt : filter) (a : application W) : application.run io cvt flt a ≠ none := by
  unfold application.run
  cases hm : application.merge_csv io cvt flt a.tree
      (application.enumerate_dir io flt a.tree []) with
  | none => exact absurd hm (merge_csv_total io cvt hfrom hto flt _ _)
  | some t =>
    cases hs : (command_list.run (application.context io cvt) t (some a)).2 with
    | none => exact absurd hs (run_context_total io cvt hto t a)
    | some a1 => simp [hm, hs]

/-- C13: a filesystem pass over a listing with pairwise distinct paths, from
an empty table, followed by any sequence of merges with their payload
assignments leaves the paths of the table pairwise distinct; so do
`enumerate_dir` and `merge_csv` on any file system whose walk finds each path
once, whatever the conversion, in the table that `merge_csv` returns and in
the records of the run; `merge_csv` and the run do return when the conversion
never throws; `command_list::run` returns as many records as it received, for
every context, and with the handlers of `application` the same paths, so they
stay pairwise distinct. -/
theorem path_uniqueness :
    (∀ (listing : List (std_wstring × Nat × Bool))
        (entries : List (std_wstring × Nat × Bool × std_string)),
      (listing.map Prod.fst).Nodup →
      ((entries.foldl
        (fun t e => command_list.set_data (command_list.merge t e.1 e.2.1 e.2.2.1).1
          (command_list.merge t e.1 e.2.1 e.2.2.1).2 e.2.2.2)
        (listing.foldl (fun t e => command_list.add t e.1 e.2.1 e.2.2) [])).map
          command.path).Nodup) ∧
    (∀ (W : Type) (io : crt W) (cvt : wstring_convert) (m_filter : filter)
        (a : application W),
      (((io.find_files a.tree).filter (fun e => is_txt e.2.1)).map
        (fun e => e.1 ++ e.2.1)).Nodup →
      (∀ t, application.merge_csv io cvt m_filter a.tree
          (application.enumerate_dir io m_filter a.tree []) = some t →
        (t.map command.path).Nodup) ∧
      (∀ r, application.run io cvt m_filter a = some r → (r.1.map command.path).Nodup)) ∧
    (∀ (W : Type) (io : crt W) (cvt : wstring_convert) (m_filter : filter)
        (a : application W),
      (∀ s, cvt.from_bytes s ≠ none) → (∀ s, cvt.to_bytes s ≠ none) →
      application.merge_csv io cvt m_filter a.tree
          (application.enumerate_dir io m_filter a.tree []) ≠ none ∧
        application.run io cvt m_filter a ≠ none) ∧
    (∀ (σ : Type) (context : command_execution_context_interface σ) (m : command_list) (s : σ),
      (command_list.run context m s).1.length = m.length) ∧
    (∀ (W : Type) (io : crt W) (cvt : wstring_convert) (m : command_list)
        (s : Option (application W)),
      ((command_list.run (application.context io cvt) m s).1.map command.path).Perm
        (m.map command.path)) := by
  refine ⟨?_, ?_, ?_, fun _ context m s => run_length context m s,
    fun _ io cvt m s => run_context_path io cvt m s⟩
  · intro listing entries hnd
    apply foldl_merge_nodup
    rw [foldl_add_path]
    simpa using hnd
  · intro W io cvt m_filter a hnd
    have h1 : ∀ t, application.merge_csv io cvt m_filter a.tree
        (application.enumerate_dir io m_filter a.tree []) = some t →
        (t.map command.path).Nodup := by
      intro t ht
      apply merge_csv_some_nodup io cvt m_filter a.tree _ t ht
      rw [enumerate_dir_path]
      exact hnd
    refine ⟨h1, ?_⟩
    intro r hr
    obtain ⟨t, ht, hrec⟩ := run_some_records io cvt m_filter a r hr
    rw [hrec]
    exact (run_context_path io cvt t (some a)).nodup_iff.2 (h1 t ht)
  · intro W io cvt m_filter a hfrom hto
    exact ⟨merge_csv_total io cvt hfrom hto m_filter _ _, run_total io cvt hfrom hto m_filter a⟩

/-- C13, witness: two files on disk and a database that names one of them
twice and a third path twice. -/
theorem path_uniqueness_witness :
    (([(lit "c.txt", 0, true, lit "1"), (lit "a.txt", 0, true, lit "2"),
        (lit "c.txt", 0, true, lit "3"), (lit "a.txt", 0, false, lit "4")].foldl
      (fun t e => command_list.set_data (command_list.merge t e.1 e.2.1 e.2.2.1).1
        (command_list.merge t e.1 e.2.1 e.2.2.1).2 e.2.2.2)
      ([(lit "a.txt", 0, true), (lit "b.txt", 0, false)].foldl
        (fun t e => command_list.add t e.1 e.2.1 e.2.2) [])).map command.path).Nodup :=
  path_uniqueness.1 [(lit "a.txt", 0, true), (lit "b.txt", 0, false)]
    [(lit "c.txt", 0, true, lit "1"), (lit "a.txt", 0, true, lit "2"),
      (lit "c.txt", 0, true, lit "3"), (lit "a.txt", 0, false, lit "4")] (by decide)

/-- C18: `command_list::merge` on a path that is present returns the table as
it is; the assignment of a payload changes no path, depth or action; in the
table that `merge_command` returns, whatever the conversion, the records that
were there have their path, depth and action and at most one record is new,
and `merge_command` does return when the conversion never throws; the
handlers `do_pack` and `do_unpack` return the record with its path, depth and
action, `do_remove` and `do_ignore` return it as it is; and after
`command_list::run` the table holds the same paths, depths and actions. -/
theorem created_is_fixed :
    (∀ (m : command_list) (path : std_wstring) (depth : Nat) (included : Bool) (i : Nat),
      command_list.find m path = some i →
      command_list.merge m path depth included = (m, i)) ∧
    (∀ (m : command_list) (i : Nat) (data : std_string),
      (command_list.set_data m i data).map command.created = m.map command.created) ∧
    (∀ (cvt : wstring_convert) (m_filter : filter) (m t : command_list) (line : std_string),
      application.merge_command cvt m_filter m line = some t →
      ∃ extra : List (std_wstring × Nat × command_action),
        t.map command.created = m.map command.created ++ extra ∧ extra.length ≤ 1) ∧
    (∀ (cvt : wstring_convert) (m_filter : filter) (m : command_list) (line : std_string),
      (∀ s, cvt.from_bytes s ≠ none) → (∀ s, cvt.to_bytes s ≠ none) →
      application.merge_command cvt m_filter m line ≠ none) ∧
    (∀ (W : Type) (io : crt W) (a : application W) (c : command),
      (application.do_pack io a c).1.created = c.created ∧
      (application.do_unpack io a c).1.created = c.created ∧
      (application.do_remove io a c).1 = c ∧
      (application.do_ignore a c).1 = c) ∧
    (∀ (W : Type) (io : crt W) (cvt : wstring_convert) (m : command_list)
        (s : Option (application W)),
      ((command_list.run (application.context io cvt) m s).1.map command.created).Perm
        (m.map command.created)) := by
  refine ⟨merge_found, set_data_created, merge_command_some_created,
    fun cvt flt m line hfrom hto => merge_command_total cvt hfrom hto flt m line, ?_,
    fun _ io cvt m s => run_context_created io cvt m s⟩
  intro W io a c
  refine ⟨do_pack_created io a c, ?_, rfl, rfl⟩
  rw [do_unpack_same]

/-- C18, witness: a merge of `a.txt` into a table that holds it. -/
theorem created_is_fixed_witness :
    command_list.merge [⟨lit "a.txt", 0, .action_remove, []⟩] (lit "a.txt") 0 true =
      ([⟨lit "a.txt", 0, .action_remove, []⟩], 0) :=
  created_is_fixed.1 [⟨lit "a.txt", 0, .action_remove, []⟩] (lit "a.txt") 0 true 0 (by decide)

/-! ### Writing the database and reading it back, with the conversion -/

theorem all_true (s : List Nat) : s.all (fun _ => true) = true := by
  simp

theorem utf_identity_fixes (s : List Nat) (_h : s.all (fun _ => true) = true) :
    utf_identity.from_bytes s = some s ∧ utf_identity.to_bytes s = some s :=
  ⟨rfl, rfl⟩

/-- C19: with the conversion taken as the identity, `do_save_db` writes one
line `path,payload` and a line feed for each record; for records with pairwise
distinct paths, no comma and no line feed in a path and no line feed in a
payload, `merge_csv` on that text, from an empty table, gives one record for
each record, in the same order, with its path and its payload, the depth that
the path gives and the action that the filter gives; this holds for every
file system that reads back the text, and for the explicit map after
`do_save_db`. A path with a comma is read back up to its first comma, the
rest going to the payload. The same holds for every conversion that leaves
ASCII as it is when the paths and the payloads are ASCII. -/
theorem database_round_trip :
    (∀ records : List command,
      db_text utf_identity records =
        some ((records.map (fun c => c.path ++ [COMMA] ++ c.data ++ [LF])).flatten)) ∧
    (∀ (W : Type) (io : crt W) (m_filter : filter) (w : W) (records : List command)
        (text : std_string),
      db_text utf_identity records = some text →
      file.read io w ⟨[]⟩ templates_csv 0 = (true, ⟨text⟩) →
      (records.map command.path).Nodup →
      (∀ c ∈ records, COMMA ∉ c.path ∧ LF ∉ c.path ∧ LF ∉ c.data) →
      application.merge_csv io utf_identity m_filter w [] =
        some (records.map (fun c => ⟨c.path, count_slash c.path,
          if filter.includes m_filter c.path then .action_unpack else .action_none,
          c.data⟩))) ∧
    (∀ (m_filter : filter) (st : stats) (w : file_map) (records : List command),
      (records.map command.path).Nodup →
      (∀ c ∈ records, COMMA ∉ c.path ∧ LF ∉ c.path ∧ LF ∉ c.data) →
      ∃ a1 t, application.do_save_db map_crt utf_identity ⟨st, w⟩ records = some a1 ∧
        application.merge_csv map_crt utf_identity m_filter a1.tree [] = some t ∧
        t.map (fun c => (c.path, c.data)) = records.map (fun c => (c.path, c.data))) ∧
    (∀ (W : Type) (io : crt W) (m_filter : filter) (w : W) (c : command)
        (before after : std_wstring) (text : std_string),
      c.path = before ++ COMMA :: after → COMMA ∉ before →
      LF ∉ c.path → LF ∉ c.data →
      db_text utf_identity [c] = some text →
      file.read io w ⟨[]⟩ templates_csv 0 = (true, ⟨text⟩) →
      ∃ t, application.merge_csv io utf_identity m_filter w [] = some t ∧
        t.map (fun c => (c.path, c.data)) = [(before, after ++ COMMA :: c.data)]) ∧
    (∀ (cvt : wstring_convert) (m_filter : filter) (st : stats) (w : file_map)
        (records : List command),
      ascii_identity cvt →
      (∀ c ∈ records, is_ascii c.path = true ∧ is_ascii c.data = true) →
      (records.map command.path).Nodup →
      (∀ c ∈ records, COMMA ∉ c.path ∧ LF ∉ c.path ∧ LF ∉ c.data) →
      ∃ a1 t, application.do_save_db map_crt cvt ⟨st, w⟩ records = some a1 ∧
        application.merge_csv map_crt cvt m_filter a1.tree [] = some t ∧
        t.map (fun c => (c.path, c.data)) = records.map (fun c => (c.path, c.data))) := by
  have htext : ∀ records : List command,
      db_text utf_identity records = some (plain_db_text records) :=
    fun records => db_text_plain utf_identity (fun _ => true) utf_identity_fixes records
      (fun c _ => all_true c.path)
  have hfirst : ∀ (W : Type) (io : crt W) (m_filter : filter) (w : W)
      (records : List command) (text : std_string),
      db_text utf_identity records = some text →
      file.read io w ⟨[]⟩ templates_csv 0 = (true, ⟨text⟩) →
      (records.map command.path).Nodup →
      (∀ c ∈ records, COMMA ∉ c.path ∧ LF ∉ c.path ∧ LF ∉ c.data) →
      application.merge_csv io utf_identity m_filter w [] =
        some (records.map (fun c => ⟨c.path, count_slash c.path,
          if filter.includes m_filter c.path then .action_unpack else .action_none,
          c.data⟩)) := by
    intro W io m_filter w records text ht hread hnd hsyn
    rw [htext, Option.some.injEq] at ht
    subst ht
    rw [merge_csv_plain io utf_identity (fun _ => true) utf_identity_fixes m_filter w []
      (all_true _), merge_csv_db_text io m_filter w records hread hnd hsyn]
    rfl
  have hmap : ∀ (cvt : wstring_convert) (good : Nat → Bool)
      (_hfix : ∀ s, s.all good = true → cvt.from_bytes s = some s ∧ cvt.to_bytes s = some s)
      (m_filter : filter) (st : stats) (w : file_map) (records : List command),
      (∀ c ∈ records, c.path.all good = true) → (plain_db_text records).all good = true →
      (records.map command.path).Nodup →
      (∀ c ∈ records, COMMA ∉ c.path ∧ LF ∉ c.path ∧ LF ∉ c.data) →
      ∃ a1 t, application.do_save_db map_crt cvt ⟨st, w⟩ records = some a1 ∧
        application.merge_csv map_crt cvt m_filter a1.tree [] = some t ∧
        t.map (fun c => (c.path, c.data)) = records.map (fun c => (c.path, c.data)) := by
    intro cvt good hfix m_filter st w records hp ht hnd hsyn
    have hread := read_after_save st w records
    refine ⟨plain_do_save_db map_crt ⟨st, w⟩ records, _,
      do_save_db_plain map_crt cvt good hfix ⟨st, w⟩ records hp,
      merge_csv_plain map_crt cvt good hfix m_filter _ [] (by rw [hread]; exact ht), ?_⟩
    rw [merge_csv_db_text map_crt m_filter _ records hread hnd hsyn, List.map_map]
    rfl
  refine ⟨?_, hfirst, ?_, ?_, ?_⟩
  · intro records
    rw [htext]
    rfl
  · intro m_filter st w records hnd hsyn
    exact hmap utf_identity (fun _ => true) utf_identity_fixes m_filter st w records
      (fun c _ => all_true c.path) (all_true _) hnd hsyn
  · intro W io m_filter w c before after text hpath hcomma hlfp hlfd ht hread
    rw [htext, Option.some.injEq] at ht
    subst ht
    have htext2 : plain_db_text [c] =
        (before ++ COMMA :: (after ++ COMMA :: c.data)) ++ [LF] := by
      simp [plain_db_text, plain_db_line, hpath]
    have hline : LF ∉ before ++ COMMA :: (after ++ COMMA :: c.data) := by
      rw [hpath] at hlfp
      intro hm
      simp only [List.mem_append, List.mem_cons] at hm hlfp
      rcases hm with h | h | h | h | h
      · exact hlfp (Or.inl h)
      · exact absurd h (by decide)
      · exact hlfp (Or.inr (Or.inr h))
      · exact absurd h (by decide)
      · exact hlfd h
    refine ⟨_, merge_csv_plain io utf_identity (fun _ => true) utf_identity_fixes m_filter w []
      (all_true _), ?_⟩
    rw [merge_csv_read io m_filter w [] _ hread, foldl_merge_command, htext2,
      split_lines_append _ _ hline]
    have hp := parse_line_entry before (after ++ COMMA :: c.data) hcomma
    have hnil : split_lines [] = [[]] := rfl
    have hpn : parse_line [] = none := rfl
    simp only [hnil, List.filterMap_cons, hp, hpn, List.filterMap_nil, List.foldl_cons,
      List.foldl_nil]
    rw [apply_entry_eq]
    rfl
  · intro cvt m_filter st w records hcvt hascii hnd hsyn
    exact hmap cvt (fun c => decide (c < 128)) hcvt m_filter st w records
      (fun c hc => (hascii c hc).1) (plain_db_text_ascii records hascii) hnd hsyn

/-- C19, witness: two records written and read back on the explicit map. -/
theorem database_round_trip_witness :
    ∃ a1 t, application.do_save_db map_crt utf_identity ⟨stats.zero, []⟩
        [⟨lit "a.txt", 0, .action_pack, lit "x,y"⟩,
          ⟨lit "d/b.txt", 1, .action_remove, lit ""⟩] = some a1 ∧
      application.merge_csv map_crt utf_identity [] a1.tree [] = some t ∧
      t.map (fun c => (c.path, c.data)) =
        [(⟨lit "a.txt", 0, .action_pack, lit "x,y"⟩ : command),
          ⟨lit "d/b.txt", 1, .action_remove, lit ""⟩].map (fun c => (c.path, c.data)) :=
  database_round_trip.2.2.1 [] stats.zero []
    [⟨lit "a.txt", 0, .action_pack, lit "x,y"⟩, ⟨lit "d/b.txt", 1, .action_remove, lit ""⟩]
    (by decide) (by decide)

/-! ### The pack handler and the three results of `file::read` -/

theorem merge_csv_loop_some_table_ok (cvt : wstring_convert) (flt : filter)
    (listed : List std_wstring) (fuel : Nat) :
    ∀ (text : std_string) (m t : command_list) (done : List (std_wstring × std_string)),
      application.merge_csv_loop cvt flt fuel text m = some t →
      table_ok flt listed done m → ∃ done2, table_ok flt listed done2 t := by
  have hstep : ∀ (m t : command_list) (line : std_string)
      (done : List (std_wstring × std_string)),
      application.merge_command cvt flt m line = some t →
      table_ok flt listed done m → ∃ done2, table_ok flt listed done2 t := by
    intro m t line done h hok
    rcases merge_command_cases cvt flt m t line h with h1 | ⟨path, data, h1⟩
    · exact ⟨done, h1 ▸ hok⟩
    · refine ⟨done ++ [(path, data)], ?_⟩
      rw [h1]
      exact table_ok_step flt listed done m (path, data) hok
  induction fuel with
  | zero =>
    intro text m t done h hok
    simp only [application.merge_csv_loop, Option.some.injEq] at h
    exact ⟨done, h ▸ hok⟩
  | succ n ih =>
    intro text m t done h hok
    unfold application.merge_csv_loop at h
    cases hf : string_find text LF with
    | none =>
      simp only [hf] at h
      exact hstep m t text done h hok
    | some delim =>
      simp only [hf] at h
      cases hm : application.merge_command cvt flt m (text.take delim) with
      | none => simp [hm] at h
      | some m1 =>
        simp only [hm] at h
        obtain ⟨done1, hok1⟩ := hstep m m1 _ done hm hok
        by_cases hlt : delim + 1 < text.length
        · simp only [hlt, if_true] at h
          exact ih _ m1 t done1 h hok1
        · simp only [hlt, if_false, Option.some.injEq] at h
          exact ⟨done1, h ▸ hok1⟩

/-- The table that the two passes return on the explicit map, whatever the
conversion. -/
theorem passes_some_table_ok (cvt : wstring_convert) (flt : filter) (w : file_map)
    (t : command_list)
    (h : application.merge_csv map_crt cvt flt w
      (application.enumerate_dir map_crt flt w []) = some t) :
    ∃ done, table_ok flt (templates w) done t := by
  have hinit : table_ok flt (templates w) []
      (application.enumerate_dir map_crt flt w []) := by
    rw [enumerate_dir_map, List.nil_append]
    exact table_ok_init flt (templates w) (templates_nodup w)
  unfold application.merge_csv at h
  by_cases hr : (file.read map_crt w ⟨[]⟩ templates_csv 0).1 = true
  · simp only [hr, if_true] at h
    exact merge_csv_loop_some_table_ok cvt flt _ _ _ _ t [] h hinit
  · simp only [hr, if_false, Option.some.injEq, Bool.false_eq_true] at h
    exact ⟨[], h ▸ hinit⟩

/-- In a run of `command_list::run` that no exception ends, the handler loop
is that of `plain_context`. -/
theorem run_context_handlers {W : Type} (io : crt W) (cvt : wstring_convert)
    (m : command_list) (a a1 : application W)
    (h : (command_list.run (application.context io cvt) m (some a)).2 = some a1) :
    for_each (command_list.dispatch (application.context io cvt))
        (std_sort command.execution_order m) (some a)
      = ((for_each (command_list.dispatch (plain_context io))
            (std_sort command.execution_order m) a).1,
         some (for_each (command_list.dispatch (plain_context io))
            (std_sort command.execution_order m) a).2) := by
  unfold command_list.run command_list.run_handlers at h
  cases hs : (for_each (command_list.dispatch (application.context io cvt))
      (std_sort command.execution_order m) (some a)).2 with
  | none =>
    have h2 : (for_each (command_list.remove_step (application.context io cvt))
        (std_sort command.output_order
          (for_each (command_list.dispatch (application.context io cvt))
            (std_sort command.execution_order m) (some a)).1)
        ((application.context io cvt).do_save_db
          (for_each (command_list.dispatch (application.context io cvt))
            (std_sort command.execution_order m) (some a)).2
          (std_sort command.output_order
            (for_each (command_list.dispatch (application.context io cvt))
              (std_sort command.execution_order m) (some a)).1))).2 = some a1 := h
    rw [hs] at h2
    have hsave : (application.context io cvt).do_save_db (none : Option (application W))
        (std_sort command.output_order
          (for_each (command_list.dispatch (application.context io cvt))
            (std_sort command.execution_order m) (some a)).1) = none := rfl
    rw [hsave, for_each_none] at h2
    cases h2
  | some a2 => exact for_each_dispatch_of_some io cvt _ a a2 hs

/-- The records that `command_list::run` returns when no exception ends it do
not depend on the conversion. -/
theorem run_context_records {W : Type} (io : crt W) (cvt : wstring_convert)
    (m : command_list) (a a1 : application W)
    (h : (command_list.run (application.context io cvt) m (some a)).2 = some a1) :
    (command_list.run (application.context io cvt) m (some a)).1 =
      (command_list.run (plain_context io) m a).1 := by
  have hh := run_context_handlers io cvt m a a1 h
  unfold command_list.run command_list.run_handlers
  rw [for_each_context_remove_same, for_each_remove_same, hh]

/-- The tree at the end of `command_list::run` on the explicit map, when no
exception ends it: the files of the Unpack records are written, the database
file holds the text of the records and the files of the Remove records are
gone. -/
theorem run_context_map (cvt : wstring_convert) (m : command_list)
    (a a1 : application file_map) (hnd : (m.map command.path).Nodup)
    (h : (command_list.run (application.context map_crt cvt) m (some a)).2 = some a1) :
    ∃ text, db_text cvt (command_list.run (plain_context map_crt) m a).1 = some text ∧
      a1.tree = remove_all (command_list.run (plain_context map_crt) m a).1
        (file_map.set (unpack_writes (std_sort command.execution_order m) a.tree)
          templates_csv text) := by
  have hnd2 : ((std_sort command.execution_order m).map command.path).Nodup :=
    ((std_sort_perm command.execution_order m).map command.path).nodup_iff.2 hnd
  obtain ⟨h1, h2⟩ := for_each_dispatch_map (std_sort command.execution_order m) a hnd2
  have hrec := (run_map m a hnd).1
  have hh := run_context_handlers map_crt cvt m a a1 h
  rw [hrec]
  unfold command_list.run command_list.run_handlers at h
  rw [hh] at h
  simp only [h1] at h
  cases ht : db_text cvt (std_sort command.output_order
      ((std_sort command.execution_order m).map (handled a.tree))) with
  | none =>
    have hsave : (application.context map_crt cvt).do_save_db
        (some (for_each (command_list.dispatch (plain_context map_crt))
          (std_sort command.execution_order m) a).2)
        (std_sort command.output_order
          ((std_sort command.execution_order m).map (handled a.tree))) = none := by
      show application.do_save_db map_crt cvt _ _ = none
      unfold application.do_save_db
      rw [ht]
      rfl
    rw [hsave, for_each_none] at h
    cases h
  | some text =>
    refine ⟨text, rfl, ?_⟩
    have hsave : (application.context map_crt cvt).do_save_db
        (some (for_each (command_list.dispatch (plain_context map_crt))
          (std_sort command.execution_order m) a).2)
        (std_sort command.output_order
          ((std_sort command.execution_order m).map (handled a.tree))) =
        some ⟨(for_each (command_list.dispatch (plain_context map_crt))
            (std_sort command.execution_order m) a).2.m_stats,
          file_map.set (unpack_writes (std_sort command.execution_order m) a.tree)
            templates_csv text⟩ := by
      show application.do_save_db map_crt cvt _ _ = _
      unfold application.do_save_db
      rw [ht, ← h2]
      rfl
    rw [hsave, for_each_remove_some] at h
    simp only [Option.some.injEq] at h
    rw [← h, (for_each_remove_map _ _).2]

/-- A run of the program that no exception ends, on the explicit map: its
table, its records and its tree. -/
theorem run_some_map (cvt : wstring_convert) (flt : filter) (st : stats) (w : file_map)
    (r : command_list × application file_map)
    (h : application.run map_crt cvt flt ⟨st, w⟩ = some r) :
    ∃ t done text, table_ok flt (templates w) done t ∧
      r.1 = (command_list.run (plain_context map_crt) t ⟨st, w⟩).1 ∧
      db_text cvt r.1 = some text ∧
      r.2.tree = remove_all r.1
        (file_map.set (unpack_writes (std_sort command.execution_order t) w)
          templates_csv text) := by
  unfold application.run at h
  cases hm : application.merge_csv map_crt cvt flt w
      (application.enumerate_dir map_crt flt w []) with
  | none => simp [hm] at h
  | some t =>
    simp only [hm] at h
    obtain ⟨done, hok⟩ := passes_some_table_ok cvt flt w t hm
    cases hs : (command_list.run (application.context map_crt cvt) t (some ⟨st, w⟩)).2 with
    | none => simp [hs] at h
    | some a1 =>
      simp only [hs, Option.some.injEq] at h
      obtain ⟨text, ht, htree⟩ := run_context_map cvt t ⟨st, w⟩ a1 hok.1 hs
      have hrec := run_context_records map_crt cvt t (⟨st, w⟩ : application file_map) a1 hs
      refine ⟨t, done, text, hok, ?_, ?_, ?_⟩
      · rw [← h]; exact hrec
      · rw [← h]; simp only; rw [hrec]; exact ht
      · rw [← h]; simp only; rw [hrec]; exact htree

/-- The text of a list of records around one of them. -/
theorem db_text_split (cvt : wstring_convert) (before after : List command) (c : command)
    (text : std_string) (h : db_text cvt (before ++ c :: after) = some text) :
    ∃ tb path ta, db_text cvt before = some tb ∧ cvt.to_bytes c.path = some path ∧
      db_text cvt after = some ta ∧
      text = tb ++ (path ++ [COMMA] ++ c.data ++ [LF]) ++ ta := by
  induction before generalizing text with
  | nil =>
    simp only [List.nil_append, db_text, db_line] at h
    cases hp : cvt.to_bytes c.path with
    | none => simp [hp] at h
    | some path =>
      simp only [hp, Option.map_some'] at h
      cases ha : db_text cvt after with
      | none => simp [ha] at h
      | some ta =>
        simp only [ha, Option.map_some', Option.some.injEq] at h
        exact ⟨[], path, ta, rfl, rfl, rfl, by rw [← h]; simp⟩
  | cons b bs ih =>
    simp only [List.cons_append, db_text] at h
    cases hl : db_line cvt b with
    | none => simp [hl] at h
    | some line =>
      simp only [hl] at h
      cases hrest : db_text cvt (bs ++ c :: after) with
      | none => simp [hrest] at h
      | some trest =>
        have h5 : Option.map (fun text => line ++ text) (db_text cvt (bs ++ c :: after)) =
            some text := h
        rw [hrest] at h5
        simp only [Option.map_some', Option.some.injEq] at h5
        obtain ⟨tb, path, ta, h1, h2, h3, h4⟩ := ih trest hrest
        refine ⟨line ++ tb, path, ta, ?_, h2, h3, ?_⟩
        · simp only [db_text, hl, h1, Option.map_some']
        · rw [← h5, h4]
          simp

/-- The record of a file in `.txt` that is on disk and can be read, at the
end of a run that no exception ends. -/
theorem template_after_run (cvt : wstring_convert) (flt : filter) (st : stats)
    (w : file_map) (p : std_wstring) (content : std_string)
    (r : command_list × application file_map)
    (hfile : file_map.find w p = some (some content)) (htxt : is_txt (base_of p) = true)
    (hrun : application.run map_crt cvt flt ⟨st, w⟩ = some r) :
    (⟨p, count_slash p,
        if filter.includes flt p then .action_pack else .action_remove,
        strip_crlf content⟩ : command) ∈ r.1 ∧
      ∀ c2 ∈ r.1, c2.path = p →
        c2 = ⟨p, count_slash p,
          if filter.includes flt p then .action_pack else .action_remove,
          strip_crlf content⟩ := by
  obtain ⟨t, done, text, hok, hrec, _, _⟩ := run_some_map cvt flt st w r hrun
  have hp : p ∈ templates w := (mem_templates w p).2 ⟨by rw [hfile]; simp, htxt⟩
  obtain ⟨c0, hc0, hp0, hd0, ha0, huniq⟩ := template_record flt w _ _ hok p hp
  have ha : c0.action = .action_pack ∨ c0.action = .action_remove := by
    rw [ha0]
    split_ifs
    · exact Or.inl rfl
    · exact Or.inr rfl
  have hh : handled w c0 = ⟨p, count_slash p,
      if filter.includes flt p then .action_pack else .action_remove,
      strip_crlf content⟩ := by
    rw [handled_readable w c0 content ha (hp0 ▸ hfile), hd0, ha0, hp0]
  rw [hrec]
  refine ⟨(mem_run_map _ ⟨st, w⟩ hok.1 _).2 ⟨c0, hc0, hh⟩, ?_⟩
  intro c2 hc2 hcp
  obtain ⟨c1, hc1, rfl⟩ := (mem_run_map _ ⟨st, w⟩ hok.1 c2).1 hc2
  rw [handled_path] at hcp
  rw [huniq c1 hc1 hcp, hh]

/-- C4, as the code has it: when a path in `.txt` is on disk with a file that
can be read, a run that no exception ends has exactly one record for the
path, and its payload is the content of the file without CR and LF, whatever
the database stores for the path; and on a tree whose database text and
listed paths are ASCII, with a payload stored for the path, no exception ends
the run, for every conversion that leaves ASCII as it is. -/
theorem merge_priority :
    (∀ (cvt : wstring_convert) (m_filter : filter) (st : stats) (w : file_map)
        (p : std_wstring) (content : std_string) (r : command_list × application file_map),
      file_map.find w p = some (some content) → is_txt (base_of p) = true →
      application.run map_crt cvt m_filter ⟨st, w⟩ = some r →
      ∃ c ∈ r.1, c.path = p ∧ c.data = strip_crlf content ∧
        ∀ c2 ∈ r.1, c2.path = p → c2 = c) ∧
    (∀ (cvt : wstring_convert) (m_filter : filter) (st : stats) (w : file_map)
        (p : std_wstring) (content stale : std_string),
      ascii_identity cvt → ascii_tree w = true →
      file_map.find w p = some (some content) → is_txt (base_of p) = true →
      (p, stale) ∈ stored_entries w →
      ∃ r, application.run map_crt cvt m_filter ⟨st, w⟩ = some r ∧
        ∃ c ∈ r.1, c.path = p ∧ c.data = strip_crlf content ∧
          ∀ c2 ∈ r.1, c2.path = p → c2 = c) := by
  have hfirst : ∀ (cvt : wstring_convert) (m_filter : filter) (st : stats) (w : file_map)
      (p : std_wstring) (content : std_string) (r : command_list × application file_map),
      file_map.find w p = some (some content) → is_txt (base_of p) = true →
      application.run map_crt cvt m_filter ⟨st, w⟩ = some r →
      ∃ c ∈ r.1, c.path = p ∧ c.data = strip_crlf content ∧
        ∀ c2 ∈ r.1, c2.path = p → c2 = c := by
    intro cvt m_filter st w p content r hfile htxt hrun
    obtain ⟨h1, h2⟩ := template_after_run cvt m_filter st w p content r hfile htxt hrun
    exact ⟨_, h1, rfl, rfl, h2⟩
  refine ⟨hfirst, ?_⟩
  intro cvt m_filter st w p content stale hcvt hascii hfile htxt _
  exact ⟨_, run_ascii cvt hcvt m_filter st w hascii,
    hfirst cvt m_filter st w p content _ hfile htxt (run_ascii cvt hcvt m_filter st w hascii)⟩

/-- C4, witness: `a.txt` holds `NEW` on disk and `OLD` in the database. -/
theorem merge_priority_witness :
    ∃ r, application.run map_crt utf_converter [] ⟨stats.zero,
        [(lit "a.txt", some (lit "NEW")),
          (lit "templates.csv", some (lit "a.txt,OLD\n"))]⟩ = some r ∧
      ∃ c ∈ r.1, c.path = lit "a.txt" ∧ c.data = strip_crlf (lit "NEW") ∧
        ∀ c2 ∈ r.1, c2.path = lit "a.txt" → c2 = c :=
  merge_priority.2 utf_converter [] stats.zero
    [(lit "a.txt", some (lit "NEW")), (lit "templates.csv", some (lit "a.txt,OLD\n"))]
    (lit "a.txt") (lit "NEW") (lit "OLD") utf_converter_ascii (by decide) (by decide)
    (by decide) (by decide)

/-- C4, counterexample: `a.txt` is on disk but cannot be opened, and the
database stores `OLD` for it; the run ends with the record of `a.txt` holding
the stored payload `OLD`, which is also what is written back. And with a file
that can be read and the stored payload `E9`, one byte that is not UTF-8, the
run ends in the exception of the conversion, with no payload at all. -/
theorem stale_payload_survives :
    (lit "a.txt", lit "OLD") ∈ stored_entries
      [(lit "a.txt", none), (lit "templates.csv", some (lit "a.txt,OLD\n"))] ∧
    lit "a.txt" ∈ templates
      [(lit "a.txt", none), (lit "templates.csv", some (lit "a.txt,OLD\n"))] ∧
    (application.run map_crt utf_converter [] ⟨stats.zero,
      [(lit "a.txt", none), (lit "templates.csv", some (lit "a.txt,OLD\n"))]⟩).map Prod.fst =
      some [⟨lit "a.txt", 0, .action_pack, lit "OLD"⟩] ∧
    (application.run map_crt utf_converter [] ⟨stats.zero,
      [(lit "a.txt", none), (lit "templates.csv", some (lit "a.txt,OLD\n"))]⟩).map
        (fun r => file_map.find r.2.tree templates_csv) =
      some (some (some (lit "a.txt,OLD\n"))) ∧
    (application.run map_crt utf_converter [] ⟨stats.zero,
      [(lit "a.txt", some (lit "NEW")),
        (lit "templates.csv", some (lit "a.txt," ++ [233, 10]))]⟩).isNone = true := by
  decide

/-- C5, as the code has it: at the end of a run that no exception ends, on
the explicit map, where the database file can be written, a file in `.txt`
that was on disk, could be read and is excluded by the filter is gone, and the
database file holds the text written for the records of the run, among them
the record of the path with the content of the file before the run without CR
and LF, so the line of the encoded path, a comma and that content is in the
text; and on a tree whose database text and listed paths are ASCII no
exception ends the run and the line is `path,content`, for every conversion
that leaves ASCII as it is. -/
theorem pack_before_delete :
    (∀ (cvt : wstring_convert) (m_filter : filter) (st : stats) (w : file_map)
        (p : std_wstring) (content : std_string) (r : command_list × application file_map),
      file_map.find w p = some (some content) → is_txt (base_of p) = true →
      filter.includes m_filter p = false →
      application.run map_crt cvt m_filter ⟨st, w⟩ = some r →
      file_map.find r.2.tree p = none ∧
      ∃ text, file_map.find r.2.tree templates_csv = some (some text) ∧
        db_text cvt r.1 = some text ∧
        ∃ (before after : List command) (tb path ta : std_string),
          r.1 = before ++ ⟨p, count_slash p, .action_remove, strip_crlf content⟩ :: after ∧
          db_text cvt before = some tb ∧ cvt.to_bytes p = some path ∧
          db_text cvt after = some ta ∧
          text = tb ++ (path ++ [COMMA] ++ strip_crlf content ++ [LF]) ++ ta) ∧
    (∀ (cvt : wstring_convert) (m_filter : filter) (st : stats) (w : file_map)
        (p : std_wstring) (content : std_string),
      ascii_identity cvt → ascii_tree w = true →
      file_map.find w p = some (some content) → is_txt (base_of p) = true →
      filter.includes m_filter p = false →
      ∃ r, application.run map_crt cvt m_filter ⟨st, w⟩ = some r ∧
        file_map.find r.2.tree p = none ∧
        ∃ text tb ta, file_map.find r.2.tree templates_csv = some (some text) ∧
          text = tb ++ (p ++ [COMMA] ++ strip_crlf content ++ [LF]) ++ ta) := by
  have hfirst : ∀ (cvt : wstring_convert) (m_filter : filter) (st : stats) (w : file_map)
      (p : std_wstring) (content : std_string) (r : command_list × application file_map),
      file_map.find w p = some (some content) → is_txt (base_of p) = true →
      filter.includes m_filter p = false →
      application.run map_crt cvt m_filter ⟨st, w⟩ = some r →
      file_map.find r.2.tree p = none ∧
      ∃ text, file_map.find r.2.tree templates_csv = some (some text) ∧
        db_text cvt r.1 = some text ∧
        ∃ (before after : List command) (tb path ta : std_string),
          r.1 = before ++ ⟨p, count_slash p, .action_remove, strip_crlf content⟩ :: after ∧
          db_text cvt before = some tb ∧ cvt.to_bytes p = some path ∧
          db_text cvt after = some ta ∧
          text = tb ++ (path ++ [COMMA] ++ strip_crlf content ++ [LF]) ++ ta := by
    intro cvt m_filter st w p content r hfile htxt hex hrun
    obtain ⟨hmem, _⟩ := template_after_run cvt m_filter st w p content r hfile htxt hrun
    rw [hex] at hmem
    simp only [Bool.false_eq_true, if_false] at hmem
    obtain ⟨t, done, text, hok, hrec, htext, htree⟩ := run_some_map cvt m_filter st w r hrun
    refine ⟨?_, text, ?_, htext, ?_⟩
    · rw [htree]
      exact remove_all_self _ _ _ hmem rfl
    · rw [htree, remove_all_other, find_set, if_pos rfl]
      intro c hc ha hcp
      rw [hrec] at hc
      obtain ⟨c1, hc1, rfl⟩ := (mem_run_map _ ⟨st, w⟩ hok.1 c).1 hc
      rw [handled_action] at ha
      rw [handled_path] at hcp
      have ht := remove_is_template m_filter w _ _ hok c1 hc1 ha
      rw [hcp] at ht
      have := ((mem_templates w templates_csv).1 ht).2
      rw [templates_csv_not_template] at this
      contradiction
    · obtain ⟨before, after, hsplit⟩ := List.append_of_mem hmem
      rw [hsplit] at htext
      obtain ⟨tb, path, ta, h1, h2, h3, h4⟩ := db_text_split cvt before after _ text htext
      exact ⟨before, after, tb, path, ta, hsplit, h1, h2, h3, h4⟩
  refine ⟨hfirst, ?_⟩
  intro cvt m_filter st w p content hcvt hascii hfile htxt hex
  have hrun := run_ascii cvt hcvt m_filter st w hascii
  obtain ⟨h1, text, h2, _, before, after, tb, path, ta, _, _, h5, _, h7⟩ :=
    hfirst cvt m_filter st w p content _ hfile htxt hex hrun
  have hp : p ∈ templates w := (mem_templates w p).2 ⟨by rw [hfile]; simp, htxt⟩
  have hpath : cvt.to_bytes p = some p := (hcvt p (ascii_tree_templates w hascii p hp)).2
  rw [hpath, Option.some.injEq] at h5
  subst h5
  exact ⟨_, hrun, h1, text, tb, ta, h2, h7⟩

/-- C5, witness: `a.txt` holds two lines and the filter excludes it. -/
theorem pack_before_delete_witness :
    ∃ r, application.run map_crt utf_converter [⟨fun _ => true, false⟩]
        ⟨stats.zero, [(lit "a.txt", some (lit "x\r\ny\r\n"))]⟩ = some r ∧
      file_map.find r.2.tree (lit "a.txt") = none ∧
      ∃ text tb ta, file_map.find r.2.tree templates_csv = some (some text) ∧
        text = tb ++ (lit "a.txt" ++ [COMMA] ++ strip_crlf (lit "x\r\ny\r\n") ++ [LF]) ++ ta :=
  pack_before_delete.2 utf_converter [⟨fun _ => true, false⟩] stats.zero
    [(lit "a.txt", some (lit "x\r\ny\r\n"))] (lit "a.txt") (lit "x\r\ny\r\n")
    utf_converter_ascii (by decide) (by decide) (by decide) (by decide)

/-- C5, counterexample: three files that are on disk, can be read and are
excluded by the filter. When the database file cannot be opened for writing,
`a.txt` is deleted all the same and no database holds its content. The file
`notes.md`, whose name is not in `.txt`, stays on disk and the database has no
line for it. And when the database holds the bytes `FF 2C 78 0A`, which are
not UTF-8, the run ends in the exception of the conversion before anything is
packed or deleted. -/
theorem delete_without_database_line :
    (application.run map_crt_no_save utf_converter [⟨fun _ => true, false⟩]
      ⟨stats.zero, [(lit "a.txt", some (lit "x"))]⟩).map (fun r => r.2.tree) = some [] ∧
    (application.run map_crt utf_converter [⟨fun _ => true, false⟩]
      ⟨stats.zero, [(lit "notes.md", some (lit "x"))]⟩).map (fun r => r.2.tree) =
      some [(templates_csv, some []), (lit "notes.md", some (lit "x"))] ∧
    (application.run map_crt utf_converter [⟨fun _ => true, false⟩]
      ⟨stats.zero, [(lit "a.txt", some (lit "x")),
        (templates_csv, some [255, 44, 120, 10])]⟩).isNone = true := by
  decide

/-! ### Two runs in a row, with the conversion -/

/-- C8, as the code has it: on the explicit map, with a conversion that
leaves ASCII as it is, when the database text, the paths in `.txt` on disk
and the contents of their files are ASCII, no path in `.txt` on disk has a
comma or a line feed, every file in `.txt` that the filter includes can be
read and is not empty without CR and LF, and every entry of the database that
the filter includes and that has no file in `.txt` on disk has a file name in
`.txt` and a payload that is not empty and has no CR, no exception ends the
first run or the second, and the second run, on the map that the first
leaves, changes none of `packed`, `repacked`, `unpacked`, `left_out`,
`pack_read_errors` and `unpack_write_errors`. -/
theorem second_run_quiet (cvt : wstring_convert) (m_filter : filter) (st st2 : stats)
    (w : file_map) (hcvt : ascii_identity cvt) (hascii : ascii_tree w = true)
    (hcontents : ascii_contents w = true)
    (hpath : ∀ p ∈ templates w, COMMA ∉ p ∧ LF ∉ p)
    (hfile : ∀ p ∈ templates w, filter.includes m_filter p = true →
      ∃ content, file_map.find w p = some (some content) ∧ strip_crlf content ≠ [])
    (hdb : ∀ e ∈ stored_entries w, filter.includes m_filter e.1 = true →
      e.1 ∉ templates w → is_txt (base_of e.1) = true ∧ e.2 ≠ [] ∧ CR ∉ e.2) :
    ∃ r1 r2, application.run map_crt cvt m_filter ⟨st, w⟩ = some r1 ∧
      application.run map_crt cvt m_filter ⟨st2, r1.2.tree⟩ = some r2 ∧
      application.run_twice map_crt cvt m_filter ⟨st, w⟩ st2 = some r2 ∧
      r2.2.m_stats.packed = st2.packed ∧
      r2.2.m_stats.repacked = st2.repacked ∧
      r2.2.m_stats.unpacked = st2.unpacked ∧
      r2.2.m_stats.left_out = st2.left_out ∧
      r2.2.m_stats.pack_read_errors = st2.pack_read_errors ∧
      r2.2.m_stats.unpack_write_errors = st2.unpack_write_errors := by
  have h1 := run_ascii cvt hcvt m_filter st w hascii
  have h2 := run_ascii cvt hcvt m_filter st2 _ (run_tree_ascii m_filter st w hascii hcontents)
  exact ⟨_, _, h1, h2, run_twice_ascii cvt hcvt m_filter st st2 w hascii hcontents,
    plain_second_run_quiet m_filter st st2 w hpath hfile hdb⟩

/-- C8, witness: one file with content, no database, no rule. -/
theorem second_run_quiet_witness :
    ∃ r1 r2, application.run map_crt utf_converter []
        ⟨stats.zero, [(lit "a.txt", some (lit "x\r\ny"))]⟩ = some r1 ∧
      application.run map_crt utf_converter [] ⟨stats.zero, r1.2.tree⟩ = some r2 ∧
      application.run_twice map_crt utf_converter []
        ⟨stats.zero, [(lit "a.txt", some (lit "x\r\ny"))]⟩ stats.zero = some r2 ∧
      r2.2.m_stats.packed = stats.zero.packed ∧
      r2.2.m_stats.repacked = stats.zero.repacked ∧
      r2.2.m_stats.unpacked = stats.zero.unpacked ∧
      r2.2.m_stats.left_out = stats.zero.left_out ∧
      r2.2.m_stats.pack_read_errors = stats.zero.pack_read_errors ∧
      r2.2.m_stats.unpack_write_errors = stats.zero.unpack_write_errors :=
  second_run_quiet utf_converter [] stats.zero stats.zero
    [(lit "a.txt", some (lit "x\r\ny"))] utf_converter_ascii (by decide) (by decide)
    (by decide)
    (fun p hp _ => by
      have ht : templates [(lit "a.txt", some (lit "x\r\ny"))] = [lit "a.txt"] := by decide
      rw [ht, List.mem_singleton] at hp
      subst hp
      exact ⟨lit "x\r\ny", by decide, by decide⟩)
    (by decide)

/-- C8, counterexample: there is no database and no rule, and every read,
write and delete succeeds. When the only file, `a.txt`, is empty, the second
run counts the file as packed and as a read error again. When it holds the
one byte `FF`, the first run stores that byte, which is not UTF-8, and the
second run ends in the exception of the conversion. -/
theorem second_run_counts_empty_file :
    (application.run_twice map_crt utf_converter []
        ⟨stats.zero, [(lit "a.txt", some [])]⟩ stats.zero).map
      (fun r => (r.2.m_stats.packed, r.2.m_stats.pack_read_errors)) = some (1, 1) ∧
    stats.zero.packed = 0 ∧ stats.zero.pack_read_errors = 0 ∧
    (application.run map_crt utf_converter []
        ⟨stats.zero, [(lit "a.txt", some [255])]⟩).map
      (fun r => file_map.find r.2.tree templates_csv) =
        some (some (some (lit "a.txt," ++ [255, 10]))) ∧
    (application.run_twice map_crt utf_converter []
        ⟨stats.zero, [(lit "a.txt", some [255])]⟩ stats.zero).isNone = true := by
  decide

/-- Other inputs on which a second run counts again, one for each of the
other conditions of `second_run_quiet`: a path with a comma is read back as
another path, which the second run unpacks; an entry of the database without
a name in `.txt` is unpacked by every run; a stored payload with a CR is
repacked without it; and an empty stored payload is unpacked to an empty
file, which the second run packs. -/
theorem second_run_counts_other_inputs :
    (application.run_twice map_crt utf_converter []
        ⟨stats.zero, [(lit "a,b.txt", some (lit "x"))]⟩ stats.zero).map
      (fun r => r.2.m_stats.unpacked) = some 1 ∧
    (application.run_twice map_crt utf_converter []
        ⟨stats.zero, [(lit "templates.csv", some (lit "q,r\n"))]⟩ stats.zero).map
      (fun r => r.2.m_stats.unpacked) = some 1 ∧
    (application.run_twice map_crt utf_converter []
        ⟨stats.zero, [(lit "templates.csv", some (lit "q.txt,r\r\n"))]⟩ stats.zero).map
      (fun r => r.2.m_stats.repacked) = some 1 ∧
    (application.run_twice map_crt utf_converter []
        ⟨stats.zero, [(lit "templates.csv", some (lit "q.txt,\n"))]⟩ stats.zero).map
      (fun r => r.2.m_stats.packed) = some 1 := by
  decide

/-! ### Empty content, with the conversion -/

/-- C6, witness: two records inserted in the two possible orders, with the
file tree as an explicit map. -/
theorem output_stability_witness :
    command_list.run_saved (application.context map_crt utf_converter)
        [⟨lit "b.txt", 0, .action_pack, []⟩, ⟨lit "a.txt", 0, .action_remove, []⟩]
        (some ⟨stats.zero,
          [(lit "a.txt", some (lit "x")), (lit "b.txt", some (lit "y"))]⟩) =
      command_list.run_saved (application.context map_crt utf_converter)
        [⟨lit "a.txt", 0, .action_remove, []⟩, ⟨lit "b.txt", 0, .action_pack, []⟩]
        (some ⟨stats.zero,
          [(lit "a.txt", some (lit "x")), (lit "b.txt", some (lit "y"))]⟩) :=
  (output_stability (application.context map_crt utf_converter)
    (some ⟨stats.zero, [(lit "a.txt", some (lit "x")), (lit "b.txt", some (lit "y"))]⟩)
    [⟨lit "b.txt", 0, .action_pack, []⟩, ⟨lit "a.txt", 0, .action_remove, []⟩]
    [⟨lit "a.txt", 0, .action_remove, []⟩, ⟨lit "b.txt", 0, .action_pack, []⟩]
    (List.Perm.swap _ _ _) (by decide)).1

end gwsto
